import Mathlib

/-!
# QTC: range coder and tile cache

A shallow embedding of `src/rangecode.c` and `src/tilecache.c`.

Conventions of the embedding.

* A C array is a map from indices to values together with its length; an access
  outside `0 .. length-1` is undefined behaviour and makes the embedded function
  return `none`.  A division by zero and a loop that never exits are `none` too.
* `unsigned int` values are natural numbers below `2^32`, every operation reduced
  modulo `2^32`.  `int` values are integers; the tables of the coder hold `int`.
* The databuffers of the coder (`databuffer.c` is not part of the sources at hand)
  appear as what the coder exchanges with them: the list of symbols read by
  `rangecode_compress`, the list of bytes it writes, the bytes read by
  `rangecode_decompress` and the list of symbols it appends.
* The pixel arrays of the tile cache (`tilecache.h` is not part of the sources at
  hand) hold 32-bit pixels; where the source handles them as bytes (`fletcher16`,
  `memcmp`, `memcpy`) a pixel is its four bytes, least significant first.
* Sizes and counters (`size`, `blocksize`, `index`, `numblocks`, `hits`) are
  natural numbers: allocation is taken to succeed and counters not to overflow.
-/

namespace QTC

/-! ## Range coder (`src/rangecode.c`) -/

/-- The constant `maxrange = 0xFFFFFFFF`. -/
def maxrange : Nat := 0xFFFFFFFF

/-- The constant `top = 0x01<<24`. -/
def top : Nat := 0x01 <<< 24

/-- The constant `bottom = 0x01<<16`. -/
def bottom : Nat := 0x01 <<< 16

/-- Conversion of an `int` to `unsigned int`. -/
def toU32 (x : Int) : Nat := (x % 4294967296).toNat

/-- Conversion of an `unsigned int` to `int` (two's complement). -/
def toI32 (n : Nat) : Int := if n % 4294967296 < 2147483648 then (n % 4294967296 : Nat) else (n % 4294967296 : Nat) - 4294967296

/-- The struct `rangecoder`: parameters, derived sizes, and the two tables
`freqs` (of `fsize` entries) and `totals` (of `tsize` entries). -/
structure rangecoder where
  order : Nat
  bits : Nat
  symbols : Nat
  fsize : Nat
  tsize : Nat
  freqs : Nat → Int
  totals : Nat → Int

/-- Read entry `i` of a table of `n` entries; `none` outside the table. -/
def tableGet (t : Nat → Int) (n : Nat) (i : Int) : Option Int :=
  if 0 ≤ i ∧ i < n then some (t i.toNat) else none

/-- The function `rangecoder_create` (lines 26-76) on the `int` parameters
`order` and `bits`; `alloc k` tells whether the call number `k` of `malloc`
succeeds. The result is `some none` when the call returns `NULL` (a negative
`order`, or a failed allocation of the struct or of `freqs`), `some (some c)`
when it returns the coder `c`, and `none` when the call has no defined result:
`order+1`, `bits*(order+1)` or one of the shifts `1<<bits`,
`1<<(bits*(order+1))`, `1<<(bits*order)` is not defined on the 32-bit `int`
(a negative shift count, or a result above `2^30`), or the allocation of
`totals` failed, which the code does not notice (line 64 tests `freqs` again)
before it stores into `totals`. -/
def rangecoder_create_with (alloc : Nat → Bool) (order bits : Int) : Option (Option rangecoder) :=
  if order < 0 then some none
  else if alloc 0 = false then some none
  else if bits < 0 ∨ 2147483646 < order ∨ 30 < bits * (order + 1) then none
  else if alloc 1 = false then some none
  else if alloc 2 = false then none
  else
    some (some
      { order := order.toNat
        bits := bits.toNat
        symbols := 1 <<< bits.toNat
        fsize := 1 <<< (bits.toNat * (order.toNat + 1))
        tsize := 1 <<< (bits.toNat * order.toNat)
        freqs := fun _ => 1
        totals := fun _ => ((1 <<< bits.toNat : Nat) : Int) })

/-- Every call of `malloc` succeeds. -/
def mallocOK : Nat → Bool := fun _ => true

/-- The coder that `rangecoder_create( order, bits )` returns when its three
allocations succeed; `none` when the call returns `NULL` or has no defined
result. -/
def rangecoder_create (order bits : Int) : Option rangecoder :=
  match rangecoder_create_with mallocOK order bits with
  | some (some c) => some c
  | _ => none

/-- The function `rangecoder_reset`: every `freqs[i] = 1`, every
`totals[i] = symbols`. -/
def rangecoder_reset (coder : rangecoder) : rangecoder :=
  { coder with
    freqs := fun i => if i < coder.fsize then 1 else coder.freqs i
    totals := fun i => if i < coder.tsize then (coder.symbols : Int) else coder.totals i }

/-- The loop `start = 0; for( i=0; i<n; i++ ) start += freqs[idx+i];`. -/
def sumFreqs (coder : rangecoder) (idx : Nat) : Nat → Option Int
  | 0 => some 0
  | n + 1 =>
    match sumFreqs coder idx n, tableGet coder.freqs coder.fsize ((idx : Int) + n) with
    | some s, some f => some (s + f)
    | _, _ => none

/-- The first `n` rounds of the loop that halves the frequencies of the context
at `idx` and rebuilds its total (lines 173-179 and 286-292). -/
def rescale (idx : Nat) : Nat → rangecoder → Option rangecoder
  | 0, coder => some coder
  | n + 1, coder =>
    match rescale idx n coder with
    | none => none
    | some c =>
      match tableGet c.freqs c.fsize ((idx : Int) + n), tableGet c.totals c.tsize ((idx >>> c.bits : Nat) : Int) with
      | some f, some t =>
        let f1 := Int.tdiv f 2
        let f2 := if f1 = 0 then 1 else f1
        some { c with
          freqs := Function.update c.freqs (idx + n) f2
          totals := Function.update c.totals (idx >>> c.bits) (t + f2) }
      | _, _ => none

/-- The model update after a symbol (lines 167-180 of `rangecode_compress`, and
the same text at lines 280-293 of `rangecode_decompress`). -/
def update_model (coder : rangecoder) (idx : Nat) (symbol : Int) : Option rangecoder :=
  match tableGet coder.freqs coder.fsize ((idx : Int) + symbol),
        tableGet coder.totals coder.tsize ((idx >>> coder.bits : Nat) : Int) with
  | some f, some t =>
    let c1 : rangecoder :=
      { coder with
        freqs := Function.update coder.freqs ((idx : Int) + symbol).toNat (f + 32)
        totals := Function.update coder.totals (idx >>> coder.bits) (t + 32) }
    if t + 32 ≥ 0xFFFF then
      rescale idx coder.symbols { c1 with totals := Function.update c1.totals (idx >>> coder.bits) 0 }
    else some c1
  | _, _ => none

/-- The context update `idx = ((idx+symbol)<<bits)&mask` (lines 182 and 295) with
`mask = ~((~0x00)<<(bits*(coder->order+1)))` (lines 135 and 227): shift,
complement and bitwise and on two's complement integers. The mask keeps the low
`bits*(order+1)` bits, so the 32-bit `int` of the code holds the same value
whenever `bits*(order+1) <= 30`. -/
def next_idx (coder : rangecoder) (idx : Nat) (symbol : Int) : Nat :=
  (Int.land (((idx : Int) + symbol) <<< (coder.bits : Int))
    (~~~((~~~(0x00 : Int)) <<< ((coder.bits * (coder.order + 1) : Nat) : Int)))).toNat

/-- The loop condition `( (low^(low+range)) < top ) || ( range < bottom )`. -/
def renormCond (low range : Nat) : Bool :=
  decide (low ^^^ ((low + range) % 4294967296) < top) || decide (range < bottom)

/-- The range used for the shift of one renormalisation round: the clamp
`range = (-low)&(bottom-1)` when `range < bottom` and the top bytes differ. -/
def clampRange (low range : Nat) : Nat :=
  if range < bottom ∧ low ^^^ ((low + range) % 4294967296) ≥ top then
    ((4294967296 - low) % 4294967296) &&& (bottom - 1)
  else range

/-- The renormalisation loop of `rangecode_compress` (lines 157-165); the first
argument bounds the number of rounds, and `none` means the bound was reached. -/
def compress_renorm : Nat → Nat → Nat → List Nat → Option (Nat × Nat × List Nat)
  | 0, low, range, out => if renormCond low range then none else some (low, range, out)
  | fuel + 1, low, range, out =>
    if renormCond low range then
      compress_renorm fuel ((low <<< 8) % 4294967296) ((clampRange low range <<< 8) % 4294967296)
        (out ++ [(low >>> 24) &&& 0xFF])
    else some (low, range, out)

/-- Bound on the rounds of a renormalisation loop given to the embedding. Three
rounds are all a renormalisation with `range >= 1` ever takes, and with
`range = 0` the loop of the source never exits (`compress_renorm_ends`,
`compress_renorm_zero`, `decompress_renorm_lockstep`). -/
def renormFuel : Nat := 32

/-- The state of the symbol loop of `rangecode_compress`. -/
structure EncState where
  coder : rangecoder
  low : Nat
  range : Nat
  idx : Nat
  out : List Nat

/-- One round of the symbol loop of `rangecode_compress` (lines 141-182). -/
def compress_step (s : EncState) (symbol : Nat) : Option EncState :=
  match sumFreqs s.coder s.idx symbol,
        tableGet s.coder.freqs s.coder.fsize ((s.idx : Int) + symbol),
        tableGet s.coder.totals s.coder.tsize ((s.idx >>> s.coder.bits : Nat) : Int) with
  | some start, some size, some total =>
    if toU32 total = 0 then none
    else
      let range1 := s.range / toU32 total
      let low1 := (s.low + toU32 start * range1) % 4294967296
      let range2 := (range1 * toU32 size) % 4294967296
      match compress_renorm renormFuel low1 range2 s.out with
      | none => none
      | some (low2, range3, out2) =>
        match update_model s.coder s.idx symbol with
        | none => none
        | some c =>
          some { coder := c, low := low2, range := range3,
                 idx := next_idx s.coder s.idx symbol, out := out2 }
  | _, _, _ => none

/-- The symbol loop of `rangecode_compress` over the symbols read from `in`. -/
def compress_loop : EncState → List Nat → Option EncState
  | s, [] => some s
  | s, symbol :: rest =>
    match compress_step s symbol with
    | none => none
    | some s1 => compress_loop s1 rest

/-- The final loop of `rangecode_compress` (lines 185-189): `n` times, write the
top byte of `low` and shift `low` left by eight. -/
def compress_flush : Nat → Nat → List Nat → List Nat
  | 0, _, out => out
  | n + 1, low, out => compress_flush n ((low <<< 8) % 4294967296) (out ++ [(low >>> 24) &&& 0xFF])

/-- The function `rangecode_compress`: the return value, the bytes written to
`out` and the coder afterwards, for the symbols `input` read from `in`. -/
def rangecode_compress (coder : rangecoder) (input : List Nat) : Option (Int × List Nat × rangecoder) :=
  match compress_loop { coder := coder, low := 0x00, range := maxrange, idx := 0x00, out := [] } input with
  | none => none
  | some s => some (1, compress_flush 4 s.low s.out, s.coder)

/-- Modelled from the spec: `databuffer_get_byte` of the missing `databuffer.c`,
as the decoder sees it. The byte at read position `pos` of the input; a read
past the end returns zero. -/
def getByte (input : List Nat) (pos : Nat) : Nat := input.getD pos 0

/-- Modelled from the spec: `databuffer_add_byte` and `databuffer_add_bits` of
the missing `databuffer.c`. The value that is appended for `symbol`: its low
`bits` bits. -/
def putSymbol (bits : Nat) (symbol : Int) : Nat := (symbol % 2 ^ bits).toNat

/-- The renormalisation loop of `rangecode_decompress` (lines 268-278); `rd` gives
the input byte at a read position, the first argument bounds the number of
rounds, and `none` means the bound was reached. -/
def decompress_renorm (rd : Nat → Nat) : Nat → Nat → Nat → Nat → Nat → Option (Nat × Nat × Nat × Nat)
  | 0, low, range, code, pos => if renormCond low range then none else some (low, range, code, pos)
  | fuel + 1, low, range, code, pos =>
    if renormCond low range then
      decompress_renorm rd fuel ((low <<< 8) % 4294967296) ((clampRange low range <<< 8) % 4294967296)
        (((code <<< 8) % 4294967296) ||| (rd pos &&& 0xFF)) (pos + 1)
    else some (low, range, code, pos)

/-- The frequency search `while( ( value >= 0 ) && ( i < coder->symbols ) )`
(lines 237-242); the first argument is the number of rounds left before `i`
reaches `symbols`. The result is the final `value` and `i`. -/
def decompress_search (coder : rangecoder) (idx : Nat) : Nat → Int → Nat → Option (Int × Nat)
  | 0, value, i => some (value, i)
  | n + 1, value, i =>
    if value ≥ 0 ∧ i < coder.symbols then
      match tableGet coder.freqs coder.fsize ((idx : Int) + i) with
      | none => none
      | some f => decompress_search coder idx n (value - f) (i + 1)
    else some (value, i)

/-- The state of the symbol loop of `rangecode_decompress`. -/
structure DecState where
  coder : rangecoder
  low : Nat
  range : Nat
  code : Nat
  idx : Nat
  pos : Nat
  out : List Nat

/-- What one round of the symbol loop of `rangecode_decompress` does: it either
stops with the decompression error, or goes on with a new state. -/
inductive DecStep where
  | error (s : DecState)
  | next (s : DecState)

/-- One round of the symbol loop of `rangecode_decompress` (lines 233-295). -/
def decompress_step (rd : Nat → Nat) (s : DecState) : Option DecStep :=
  match tableGet s.coder.totals s.coder.tsize ((s.idx <<< s.coder.bits : Nat) : Int) with
  | none => none
  | some total =>
    if toU32 total = 0 then none
    else if s.range / toU32 total = 0 then none
    else
      let value := toI32 (((s.code + 4294967296 - s.low) % 4294967296) / (s.range / toU32 total))
      match decompress_search s.coder s.idx s.coder.symbols value 0 with
      | none => none
      | some (value1, i) =>
        if value1 ≥ 0 then some (DecStep.error s)
        else
          let symbol : Int := (i : Int) - 1
          let out1 := s.out ++ [putSymbol s.coder.bits symbol]
          match sumFreqs s.coder s.idx symbol.toNat,
                tableGet s.coder.freqs s.coder.fsize ((s.idx : Int) + symbol) with
          | some start, some size =>
            let range1 := s.range / toU32 total
            let low1 := (s.low + toU32 start * range1) % 4294967296
            let range2 := (range1 * toU32 size) % 4294967296
            match decompress_renorm rd renormFuel low1 range2 s.code s.pos with
            | none => none
            | some (low2, range3, code2, pos2) =>
              match update_model s.coder s.idx symbol with
              | none => none
              | some c =>
                some (DecStep.next
                  { coder := c, low := low2, range := range3, code := code2,
                    idx := next_idx s.coder s.idx symbol, pos := pos2, out := out1 })
          | _, _ => none

/-- The symbol loop `for( count=0; count<length; count++ )` of
`rangecode_decompress`; the result is the return value, the symbols appended to
`out` and the coder afterwards. -/
def decompress_loop (rd : Nat → Nat) : Nat → DecState → Option (Int × List Nat × rangecoder)
  | 0, s => some (1, s.out, s.coder)
  | length + 1, s =>
    match decompress_step rd s with
    | none => none
    | some (DecStep.error s1) => some (0, s1.out, s1.coder)
    | some (DecStep.next s1) => decompress_loop rd length s1

/-- The loop that fills `code` with the first four bytes (lines 221-225): the
first `n` rounds. -/
def decompress_fill (rd : Nat → Nat) : Nat → Nat
  | 0 => 0x00
  | n + 1 => ((decompress_fill rd n <<< 8) % 4294967296) ||| (rd n &&& 0xFF)

/-- The function `rangecode_decompress` on the input read through `rd` (the byte
at each read position). -/
def decompress_with (rd : Nat → Nat) (coder : rangecoder) (length : Nat) : Option (Int × List Nat × rangecoder) :=
  decompress_loop rd length
    { coder := coder, low := 0x00, range := maxrange, code := decompress_fill rd 4,
      idx := 0x00, pos := 4, out := [] }

/-- The function `rangecode_decompress`: the return value, the symbols appended
to `out` and the coder afterwards, for the bytes `input` of `in`; `none` when the
run leaves the tables, divides by zero or does not end. -/
def rangecode_decompress (coder : rangecoder) (input : List Nat) (length : Nat) : Option (Int × List Nat × rangecoder) :=
  decompress_with (getByte input) coder length

/-! ## tile cache (`src/tilecache.c`) -/

/-- The constant `indexsize = 0x10000`. -/
def indexsize : Nat := 0x10000

/-- Modelled from the spec: `sizeof( *cache->tempdata )`, the size in bytes of a
pixel; `tilecache.h`, which declares the pixel arrays, is not part of the sources
at hand, and the spec has a pixel as a 32-bit record. -/
def pixelSize : Nat := 4

/-- The bytes of one 32-bit pixel in memory, least significant byte first. -/
def pixelBytes (p : Nat) : List Nat :=
  [p % 256, p / 256 % 256, p / 65536 % 256, p / 16777216 % 256]

/-- The bytes of an array of pixels. -/
def bytesOf (ps : List Nat) : List Nat := ps.flatMap pixelBytes

/-- One round of the loop of `fletcher16`: `s1 += data[i]; s2 += s1;` on
`unsigned char` accumulators. -/
def fletcher16_step (s : Nat × Nat) (b : Nat) : Nat × Nat :=
  ((s.1 + b) % 256, (s.2 + (s.1 + b) % 256) % 256)

/-- The function `fletcher16` on the first `length` bytes of `data`. -/
def fletcher16 (data : List Nat) (length : Int) : Nat :=
  let s := (data.take length.toNat).foldl fletcher16_step (0, 0)
  (s.2 <<< 8) ||| s.1

/-- The struct `tile`, an entry of `cache->tiles`; `data` holds the bytes of the entry's block of
`blocksize*blocksize` pixels inside `cache->data`. -/
structure tile where
  present : Bool
  size : Int
  hash : Nat
  next : Int
  data : List Nat

/-- The struct `tilecache`. `tiles` has `size` entries, `tileindex` has
`indexsize` entries and is indexed by 16-bit hashes only, `tempdata` has
`blocksize*blocksize` pixels. -/
structure tilecache where
  size : Nat
  blocksize : Nat
  index : Nat
  numblocks : Nat
  hits : Nat
  tiles : Nat → tile
  tileindex : Nat → Int
  tempdata : List Nat

/-- The function `tilecache_create`, allocation taken to succeed. What `malloc`
leaves indeterminate (each entry's `size`, `hash` and pixel block, and
`tempdata`) is zero here; none of it is read before it is written. -/
def tilecache_create (size blocksize : Nat) : tilecache :=
  { size := size
    blocksize := blocksize
    index := 0
    numblocks := 0
    hits := 0
    tiles := fun _ =>
      { present := false, size := 0, hash := 0, next := -1,
        data := List.replicate (pixelSize * (blocksize * blocksize)) 0 }
    tileindex := fun _ => -1
    tempdata := List.replicate (blocksize * blocksize) 0 }

/-- The function `tilecache_reset`. -/
def tilecache_reset (cache : tilecache) : tilecache :=
  { cache with
    index := 0
    tiles := fun i => if i < cache.size then { cache.tiles i with present := false, next := -1 } else cache.tiles i
    tileindex := fun h => if h < indexsize then -1 else cache.tileindex h }

/-- The pixels that the copy loop of `tilecache_write` (lines 143-149) writes to
`tempdata[0]`, `tempdata[1]`, ... in this order: `pixels[x + y*width] & mask` for
`y = y1 .. y2-1` and, within a row, `x = x1 .. x2-1`. -/
def rectPixels (pixels : Int → Nat) (x1 x2 y1 y2 width : Int) (mask : Nat) : List Nat :=
  (List.range (y2 - y1).toNat).flatMap fun (dy : Nat) =>
    (List.range (x2 - x1).toNat).map fun (dx : Nat) => pixels (x1 + (y1 + (dy : Int)) * width + (dx : Int)) &&& mask

/-- The contents of `tempdata` after the loop that zeroes it (lines 140-141) and
the copy loop, for a rect of at most `blocksize*blocksize` pixels. -/
def scratchTile (blocksize : Nat) (rect : List Nat) : List Nat :=
  rect ++ List.replicate (blocksize * blocksize - rect.length) 0

/-- The call `memcmp( a, b, n ) == 0` on byte arrays that hold at least `n`
bytes. -/
def memcmp_eq (a b : List Nat) (n : Nat) : Bool := decide (a.take n = b.take n)

/-- The call `memcpy( dst, src, n )` on byte arrays that hold at least `n` bytes:
the contents of `dst` afterwards. -/
def memcpy (dst src : List Nat) (n : Nat) : List Nat := src.take n ++ dst.drop n

/-- The test of the scan `tiles[i].present && tiles[i].size == size &&
memcmp( tempdata, tiles[i].data, size ) == 0`; `temp` is the bytes of `tempdata`.
The third operand is evaluated only when the first two hold, and `memcmp` with a
negative `size` is `none`. -/
def scanTest (t : tile) (temp : List Nat) (size : Int) : Option Bool :=
  if t.present = true ∧ t.size = size then
    if size < 0 then none else some (memcmp_eq temp t.data size.toNat)
  else some false

/-- The scan `while( ( i < cache->size ) && ( ! found ) )` (lines 173-184); the
first argument is the number of entries left, `i` the current one. The result is
the entry found, if any. -/
def scan (cache : tilecache) (temp : List Nat) (size : Int) : Nat → Nat → Option (Option Nat)
  | 0, _ => some none
  | n + 1, i =>
    match scanTest (cache.tiles i) temp size with
    | none => none
    | some true => some (some i)
    | some false => scan cache temp size n (i + 1)

/-- The loop `while( i != -1 )` that looks for `cache->index` behind entry `j`
(lines 204-214) and takes it out of the chain; the first argument bounds the
number of rounds, `none` means the bound was reached or `i` left `tiles`. -/
def unlink_walk (size index : Nat) : Nat → (Nat → tile) → Nat → Int → Option (Nat → tile)
  | 0, tiles, _, i => if i = -1 then some tiles else none
  | fuel + 1, tiles, j, i =>
    if i = -1 then some tiles
    else if i = (index : Int) then
      some (Function.update tiles j { tiles j with next := (tiles index).next })
    else if 0 ≤ i ∧ i < (size : Int) then
      unlink_walk size index fuel tiles i.toNat (tiles i.toNat).next
    else none

/-- The block of `tilecache_write` that unlinks the entry at `cache->index` from
its bucket chain when it is present (lines 191-216). A chain of more than `size`
entries repeats one and is never left by the loop, so `size` rounds are all a
run that ends ever needs. -/
def unlink (cache : tilecache) : Option tilecache :=
  if (cache.tiles cache.index).present = true then
    let h := (cache.tiles cache.index).hash
    let i := cache.tileindex h
    if i = (cache.index : Int) then
      some { cache with tileindex := Function.update cache.tileindex h (cache.tiles cache.index).next }
    else if 0 ≤ i ∧ i < (cache.size : Int) then
      match unlink_walk cache.size cache.index cache.size cache.tiles i.toNat (cache.tiles i.toNat).next with
      | none => none
      | some tiles => some { cache with tiles := tiles }
    else none
  else some cache

/-- The function `tilecache_write`: the return value and the cache afterwards.
`pixels` is the caller's image as a map from index to pixel. The result is
`none` when the copy loop or `fletcher16` leaves `tempdata`, when `memcmp` gets a
negative length, when `cache->size` is zero at `%=`, or when the unlinking leaves
`tiles` or does not end. -/
def tilecache_write (cache : tilecache) (pixels : Int → Nat) (x1 x2 y1 y2 width : Int) (mask : Nat) :
    Option (Int × tilecache) :=
  let rect := rectPixels pixels x1 x2 y1 y2 width mask
  let size : Int := (x2 - x1) * (y2 - y1)
  if rect.length > cache.blocksize * cache.blocksize then none
  else if size > ((cache.blocksize * cache.blocksize : Nat) : Int) then none
  else
    let tempdata := scratchTile cache.blocksize rect
    let temp := bytesOf tempdata
    let hash := fletcher16 temp ((pixelSize : Int) * size)
    let c1 : tilecache := { cache with numblocks := cache.numblocks + 1, tempdata := tempdata }
    match scan c1 temp size c1.size 0 with
    | none => none
    | some (some i) => some ((i : Int), { c1 with hits := c1.hits + 1 })
    | some none =>
      if c1.size = 0 then none
      else
        match unlink { c1 with index := (c1.index + 1) % c1.size } with
        | none => none
        | some c2 =>
          some (-1,
            { c2 with
              tiles := Function.update c2.tiles c2.index
                { present := true, size := size, hash := hash, next := c2.tileindex hash,
                  data := memcpy (c2.tiles c2.index).data temp (c2.blocksize * c2.blocksize) }
              tileindex := Function.update c2.tileindex hash (c2.index : Int) })

/-! ## Specification of the range coder -/

/-- The sizes of a coder are the ones `rangecoder_create` derives from `order`
and `bits`. -/
def Sized (c : rangecoder) : Prop :=
  c.symbols = 2 ^ c.bits ∧ c.fsize = 2 ^ (c.bits * (c.order + 1)) ∧ c.tsize = 2 ^ (c.bits * c.order)

/-- The sum of the `symbols` frequencies of context `ctx`. -/
def blockSum (c : rangecoder) (ctx : Nat) : Int :=
  ∑ s ∈ Finset.range c.symbols, c.freqs (ctx * c.symbols + s)

/-- The model invariant: every `freqs[i]` is at least one, and every
`totals[ctx]` is the sum of the frequencies of its context. -/
def ModelInv (c : rangecoder) : Prop :=
  (∀ i, i < c.fsize → 1 ≤ c.freqs i) ∧ (∀ ctx, ctx < c.tsize → c.totals ctx = blockSum c ctx)

/-- Every total is below the threshold `0xFFFF` of the rescaling. -/
def TotalsBounded (c : rangecoder) : Prop := ∀ ctx, ctx < c.tsize → c.totals ctx < 0xFFFF

/-- What the rescaling makes of a frequency: `f / 2`, or one when that is zero. -/
def halve (f : Int) : Int := if Int.tdiv f 2 = 0 then 1 else Int.tdiv f 2

/-- The tables of a coder are in order: sizes as created, symbols of at most
eight bits, the model invariant, and totals below the rescaling threshold. -/
structure TablesOK (c : rangecoder) : Prop where
  sized : Sized c
  small : c.bits ≤ 8
  inv : ModelInv c
  bounded : TotalsBounded c

/-- A run of the renormalisation loop of the encoder ends, with a `low` and a
`range` of 32 bits and a `range` of at least `bottom`. -/
def RenormEnds (fuel low range : Nat) (out : List Nat) : Prop :=
  ∃ low' range' out', compress_renorm fuel low range out = some (low', range', out') ∧
    low' < 4294967296 ∧ 65536 ≤ range' ∧ range' < 4294967296

/-- The invariant of the symbol loop of `rangecode_compress`: tables in order,
`idx` the start of a context, `low` and `range` of 32 bits, `range` at least
`bottom`. -/
structure EncInv (s : EncState) : Prop where
  tables : TablesOK s.coder
  ctx : ∃ k, k < s.coder.tsize ∧ s.idx = k * s.coder.symbols
  low_lt : s.low < 4294967296
  range_ge : 65536 ≤ s.range
  range_lt : s.range < 4294967296

/-- A coder of order 1 with 1-bit symbols whose tables hold arbitrary values, as
a coder may be found before `rangecoder_reset`. -/
def usedCoder : rangecoder :=
  { order := 1, bits := 1, symbols := 2, fsize := 4, tsize := 2, freqs := fun _ => 7, totals := fun _ => 0 }

/-- The state after `k` rounds of the symbol loop of `rangecode_decompress`, none
of which stops with the decompression error. -/
def decompress_rounds (rd : Nat → Nat) : Nat → DecState → Option DecState
  | 0, s => some s
  | k + 1, s =>
    match decompress_step rd s with
    | some (DecStep.next s1) => decompress_rounds rd k s1
    | _ => none

/-! ## Specification of the tile cache -/

/-- The list `l` is the bucket chain that starts at `start`: it follows `next`
from entry to entry, stays inside `tiles`, and ends at `-1`. -/
def IsChain (tiles : Nat → tile) (size : Nat) : Int → List Nat → Prop
  | start, [] => start = -1
  | start, i :: l => start = (i : Int) ∧ i < size ∧ IsChain tiles size (tiles i).next l

/-- The bucket-chain invariant: the stored hash of a present entry is a 16-bit
value, and for every hash `h` the chain from `tileindex[h]` is finite, ends at
`-1`, repeats no entry, and consists of exactly the present entries whose stored
hash is `h`. -/
def BucketInv (c : tilecache) : Prop :=
  (∀ i, i < c.size → (c.tiles i).present = true → (c.tiles i).hash < indexsize) ∧
  ∀ h, h < indexsize → ∃ l, IsChain c.tiles c.size (c.tileindex h) l ∧ l.Nodup ∧
    ∀ i, i ∈ l ↔ (i < c.size ∧ (c.tiles i).present = true ∧ (c.tiles i).hash = h)

/-- The rect of a call is a rect (`x1 <= x2`, `y1 <= y2`) of at most
`blocksize*blocksize` pixels. -/
def FitsBlock (c : tilecache) (x1 x2 y1 y2 : Int) : Prop :=
  x1 ≤ x2 ∧ y1 ≤ y2 ∧ (x2 - x1) * (y2 - y1) ≤ ((c.blocksize * c.blocksize : Nat) : Int)

instance (c : tilecache) (x1 x2 y1 y2 : Int) : Decidable (FitsBlock c x1 x2 y1 y2) := by
  unfold FitsBlock
  infer_instance

/-- The caches that the interface produces: `tilecache_create` with at least one
entry, `tilecache_reset`, and `tilecache_write` on rects that fit a block. -/
inductive Reachable : tilecache → Prop
  | create (size blocksize : Nat) (h : 1 ≤ size) : Reachable (tilecache_create size blocksize)
  | reset (c : tilecache) (h : Reachable c) : Reachable (tilecache_reset c)
  | write (c : tilecache) (pixels : Int → Nat) (x1 x2 y1 y2 width : Int) (mask : Nat) (r : Int) (c' : tilecache)
      (h : Reachable c) (hfit : FitsBlock c x1 x2 y1 y2)
      (hw : tilecache_write c pixels x1 x2 y1 y2 width mask = some (r, c')) : Reachable c'

/-- The test of the scan holds for entry `t`: it is present, has the size of the
tile, and its first `size` bytes are those of the tile. -/
def Matches (t : tile) (temp : List Nat) (size : Int) : Prop :=
  t.present = true ∧ t.size = size ∧ temp.take size.toNat = t.data.take size.toNat

instance (t : tile) (temp : List Nat) (size : Int) : Decidable (Matches t temp size) := by
  unfold Matches
  infer_instance

/-- No two present entries pass the test of the scan for the same tile: present
entries of equal size differ within their first `size` bytes. -/
def NoTwins (c : tilecache) : Prop :=
  ∀ i j, i < c.size → j < c.size → (c.tiles i).present = true → (c.tiles j).present = true →
    (c.tiles i).size = (c.tiles j).size →
    (c.tiles i).data.take (c.tiles i).size.toNat = (c.tiles j).data.take (c.tiles i).size.toNat → i = j

/-- The invariant of the reachable caches. -/
structure CacheInv (c : tilecache) : Prop where
  size_pos : 1 ≤ c.size
  index_lt : c.index < c.size
  buckets : BucketInv c
  twins : NoTwins c

/-- The entry behind which `index` sits in the chain `j :: l`. -/
def predOf (index : Nat) : Nat → List Nat → Nat
  | j, [] => j
  | j, x :: xs => if x = index then j else predOf index x xs

/-- The size `(x2-x1)*(y2-y1)` that a call of `tilecache_write` computes. -/
def callSize (x1 x2 y1 y2 : Int) : Int := (x2 - x1) * (y2 - y1)

/-- The bytes of `tempdata` that a call of `tilecache_write` hashes and compares:
the masked rect in scan order, then zeroes up to `blocksize*blocksize` pixels. -/
def callTemp (c : tilecache) (pixels : Int → Nat) (x1 x2 y1 y2 width : Int) (mask : Nat) : List Nat :=
  bytesOf (scratchTile c.blocksize (rectPixels pixels x1 x2 y1 y2 width mask))

/-- The cache `c2` is the cache `c` with the entry at the cursor taken out of its
bucket chain: only `next` fields and bucket heads differ, the head of a bucket
changes only if the entry at the cursor was present and headed it, and every
chain consists of the present entries of its hash other than the cursor's. -/
structure Unlinked (c c2 : tilecache) : Prop where
  size_eq : c2.size = c.size
  blocksize_eq : c2.blocksize = c.blocksize
  index_eq : c2.index = c.index
  numblocks_eq : c2.numblocks = c.numblocks
  hits_eq : c2.hits = c.hits
  tempdata_eq : c2.tempdata = c.tempdata
  fields : ∀ i, (c2.tiles i).present = (c.tiles i).present ∧ (c2.tiles i).size = (c.tiles i).size ∧
    (c2.tiles i).hash = (c.tiles i).hash ∧ (c2.tiles i).data = (c.tiles i).data
  heads : ∀ h, c2.tileindex h =
    if (c.tiles c.index).present = true ∧ (c.tiles c.index).hash = h ∧ c.tileindex h = (c.index : Int)
    then (c.tiles c.index).next else c.tileindex h
  chains : ∀ h, h < indexsize → ∃ l, IsChain c2.tiles c.size (c2.tileindex h) l ∧ l.Nodup ∧
    ∀ i, i ∈ l ↔ (i < c.size ∧ i ≠ c.index ∧ (c.tiles i).present = true ∧ (c.tiles i).hash = h)

/-- The cache after a call of `tilecache_write` (the cache itself when the call
has no defined result). -/
def after (c : tilecache) (pixels : Int → Nat) (x1 x2 y1 y2 width : Int) (mask : Nat) : tilecache :=
  match tilecache_write c pixels x1 x2 y1 y2 width mask with
  | some (_, c') => c'
  | none => c

/-- The value that a call of `tilecache_write` returns, if any. -/
def returned (c : tilecache) (pixels : Int → Nat) (x1 x2 y1 y2 width : Int) (mask : Nat) : Option Int :=
  (tilecache_write c pixels x1 x2 y1 y2 width mask).map Prod.fst

/-- An image given by the list of its pixels, as the map from index to pixel. -/
def image (ps : List Nat) : Int → Nat := fun i => ps.getD i.toNat 0

/-- A cache as `tilecache_create` (with at least one entry) or `tilecache_reset`
leaves it. -/
def Fresh (c0 : tilecache) : Prop :=
  (∃ size blocksize, 1 ≤ size ∧ c0 = tilecache_create size blocksize) ∨
  (∃ c, Reachable c ∧ c0 = tilecache_reset c)

/-- The arguments of a call of `tilecache_write`. -/
structure Call where
  pixels : Int → Nat
  x1 : Int
  x2 : Int
  y1 : Int
  y2 : Int
  width : Int
  mask : Nat

/-- A run of calls with its bookkeeping: the cache, the number of calls that
missed so far, and for every slot the number of the miss that installed its
entry. -/
structure Run where
  cache : tilecache
  misses : Nat
  stamp : Nat → Nat

/-- One call of a run: a miss (return value `-1`) is counted and stamps the slot
at the cursor with its number; a hit leaves the bookkeeping as it is. -/
def runStep (s : Run) (call : Call) : Option Run :=
  match tilecache_write s.cache call.pixels call.x1 call.x2 call.y1 call.y2 call.width call.mask with
  | none => none
  | some (r, c') =>
    if r = -1 then
      some { cache := c', misses := s.misses + 1, stamp := Function.update s.stamp c'.index (s.misses + 1) }
    else some { cache := c', misses := s.misses, stamp := s.stamp }

/-- A run over a list of calls. -/
def runCalls : Run → List Call → Option Run
  | s, [] => some s
  | s, call :: rest =>
    match runStep s call with
    | none => none
    | some s1 => runCalls s1 rest

/-- The invariant of a run on a cache of `n` entries and blocks of `bs*bs`
pixels: the cursor is the number of misses modulo `n`, and a present entry in
slot `j` was installed by one of the last `n` misses, whose number is `j` modulo
`n`. -/
structure RunInv (n bs : Nat) (s : Run) : Prop where
  inv : CacheInv s.cache
  size_eq : s.cache.size = n
  blocksize_eq : s.cache.blocksize = bs
  cursor : s.cache.index = s.misses % n
  stamps : ∀ j, j < n → (s.cache.tiles j).present = true →
    s.stamp j % n = j ∧ 1 ≤ s.stamp j ∧ s.stamp j ≤ s.misses ∧ s.misses < s.stamp j + n

/-- The cache of two entries (blocks of one pixel) after the writes of the pixels
5, 6 and 7: the third write evicts the entry of the first. -/
def threeWrites : tilecache :=
  after (after (after (tilecache_create 2 1) (image [5]) 0 1 0 1 1 0xFFFFFFFF)
    (image [6]) 0 1 0 1 1 0xFFFFFFFF) (image [7]) 0 1 0 1 1 0xFFFFFFFF


/-- The cache of one entry (blocks of one pixel) after the write of the pixel 5. -/
def oneWrite : tilecache := after (tilecache_create 1 1) (image [5]) 0 1 0 1 1 0xFFFFFFFF

/-! ## Further specification: stored pixels, checksums, repeated tiles, output bytes and round trips -/

/-- The pixel `((unsigned int *)data)[j]` of a block given by its bytes, least
significant byte first (the layout of `pixelBytes`). -/
def pixelAt (data : List Nat) (j : Nat) : Nat :=
  data.getD (pixelSize * j) 0 + 256 * data.getD (pixelSize * j + 1) 0 +
    65536 * data.getD (pixelSize * j + 2) 0 + 16777216 * data.getD (pixelSize * j + 3) 0

/-- The sum `s1` of the bytes `d[0] .. d[n-1]`. -/
def byteSum (d : List Nat) (n : Nat) : Nat := ∑ i in Finset.range n, d.getD i 0

/-- The sum `s2` of `(n - i) * d[i]` over `i` in `0 .. n-1`. -/
def weightedSum (d : List Nat) (n : Nat) : Nat := ∑ i in Finset.range n, (n - i) * d.getD i 0

/-- The call `tilecache_write( cache, call... )`. -/
def writeCall (c : tilecache) (call : Call) : Option (Int × tilecache) :=
  tilecache_write c call.pixels call.x1 call.x2 call.y1 call.y2 call.width call.mask

/-- The tile of a call: the masked pixels of its rect in scan order. -/
def callTile (call : Call) : List Nat :=
  rectPixels call.pixels call.x1 call.x2 call.y1 call.y2 call.width call.mask

/-- The value of `size` in a call. -/
def callArea (call : Call) : Int := callSize call.x1 call.x2 call.y1 call.y2

/-- The rect of a call fits a block of `bs*bs` pixels. -/
def Fits (bs : Nat) (call : Call) : Prop :=
  call.x1 ≤ call.x2 ∧ call.y1 ≤ call.y2 ∧
    (call.x2 - call.x1) * (call.y2 - call.y1) ≤ ((bs * bs : Nat) : Int)

instance (bs : Nat) (call : Call) : Decidable (Fits bs call) := by
  unfold Fits
  infer_instance

/-- Two calls write the same tile: the same pixels in scan order and the same
`size`. -/
def SameTile (a b : Call) : Prop := callTile a = callTile b ∧ callArea a = callArea b

/-- The return values of a sequence of calls of `tilecache_write`, and the cache
afterwards. -/
def writeAll : tilecache → List Call → Option (List Int × tilecache)
  | c, [] => some ([], c)
  | c, call :: rest =>
    match writeCall c call with
    | none => none
    | some (r, c1) =>
      match writeAll c1 rest with
      | none => none
      | some (rs, c2) => some (r :: rs, c2)

/-- A 32x32 image made of four copies of one 16x16 tile. -/
def quadImage : Int → Nat := fun i => (i % 16).toNat + 16 * (i / 32 % 16).toNat

/-- The write of the 16x16 tile of `quadImage` at `(x, y)`. -/
def quadCall (x y : Int) : Call :=
  { pixels := quadImage, x1 := x, x2 := x + 16, y1 := y, y2 := y + 16, width := 32, mask := 0xFFFFFFFF }

/-- The bytes that a run of the renormalisation loop of `rangecode_compress`
writes: for every shift the top byte `(low >> 24) & 0xFF` of `low` at that
moment. The first argument bounds the number of rounds. -/
def renormBytes : Nat → Nat → Nat → List Nat
  | 0, _, _ => []
  | fuel + 1, low, range =>
    if renormCond low range then
      ((low >>> 24) &&& 0xFF) ::
        renormBytes fuel ((low <<< 8) % 4294967296) ((clampRange low range <<< 8) % 4294967296)
    else []

/-- The values of `low` and `range` after `range /= total; low += start * range;
range *= size;` (lines 153-155) in a round of the symbol loop of
`rangecode_compress`, before the renormalisation. -/
def coded (s : EncState) (symbol : Nat) : Option (Nat × Nat) :=
  match sumFreqs s.coder s.idx symbol,
        tableGet s.coder.freqs s.coder.fsize ((s.idx : Int) + symbol),
        tableGet s.coder.totals s.coder.tsize ((s.idx >>> s.coder.bits : Nat) : Int) with
  | some start, some size, some total =>
    if toU32 total = 0 then none
    else
      some ((s.low + toU32 start * (s.range / toU32 total)) % 4294967296,
        ((s.range / toU32 total) * toU32 size) % 4294967296)
  | _, _, _ => none

/-- The four bytes of a 32-bit value, most significant first. -/
def bytesBE (low : Nat) : List Nat :=
  [low / 16777216 % 256, low / 65536 % 256, low / 256 % 256, low % 256]

/-- The 32-bit value of the four bytes at read positions `p .. p+3` of the input
read through `rd`, most significant first: what `code` holds when the next byte
to read is the one at `p+4`. -/
def window (rd : Nat → Nat) (p : Nat) : Nat :=
  (rd p % 256) * 16777216 + (rd (p + 1) % 256) * 65536 + (rd (p + 2) % 256) * 256 + rd (p + 3) % 256

/-- The round trip of a symbol sequence through `rangecode_compress` and
`rangecode_decompress`, both started on the coder `c`: the compression returns
1, the decompression of its output with `length = |S|` returns 1 and gives back
`S`, both leave the same model, and the rounds of the decoder end with the read
position at the end of the compressed bytes. -/
def RoundTrips (c : rangecoder) (S : List Nat) : Prop :=
  ∃ out c', rangecode_compress c S = some (1, out, c') ∧
    rangecode_decompress c out S.length = some (1, S, c') ∧
    ∃ dl, decompress_rounds (getByte out) S.length
        { coder := c, low := 0x00, range := maxrange, code := decompress_fill (getByte out) 4,
          idx := 0x00, pos := 4, out := [] } = some dl ∧
      dl.pos = out.length ∧ dl.out = S

/-- The coder that `rangecoder_create( 0, 16 )` returns: order 0 with 16-bit
symbols. -/
def wideCoder : rangecoder :=
  { order := 0, bits := 16, symbols := 65536, fsize := 65536, tsize := 1,
    freqs := fun _ => 1, totals := fun _ => 65536 }

/-! ## Specification of the symbol steps and a long run of the decoder -/

/-- The invariant of the symbol loop of `rangecode_decompress` in order 0: tables
in order, `idx = 0`, `low` and `range` of 32 bits, `range` at least `bottom`. -/
structure DecInv (s : DecState) : Prop where
  tables : TablesOK s.coder
  order0 : s.coder.order = 0
  idx0 : s.idx = 0
  low_lt : s.low < 4294967296
  range_ge : 65536 ≤ s.range
  range_lt : s.range < 4294967296

/-- The divisions and products of a symbol step are safe: the total read at
`totals[tidx]` lies in `1 .. 2^16 - 1` and below `range`, the divisor
`range / total` is at least 1, and for every symbol the products
`start * (range / total)` and `(range / total) * size` fit 32 bits, the second
being at least 1 and at most `range`. -/
def SafeStep (c : rangecoder) (tidx idx range : Nat) : Prop :=
  ∃ total, tableGet c.totals c.tsize (tidx : Int) = some total ∧ 1 ≤ total ∧ total < 65536 ∧
    65536 ≤ range ∧ toU32 total ≠ 0 ∧ 1 ≤ range / toU32 total ∧
    ∀ sym, sym < c.symbols → ∃ start size, sumFreqs c idx sym = some start ∧
      tableGet c.freqs c.fsize ((idx : Int) + (sym : Nat)) = some size ∧
      toU32 start * (range / toU32 total) < 4294967296 ∧
      range / toU32 total * toU32 size < 4294967296 ∧
      1 ≤ range / toU32 total * toU32 size ∧ range / toU32 total * toU32 size ≤ range

/-- One round of the symbol loop of `rangecode_compress` for the symbol 0, in
numbers: order 0, 8-bit symbols, after `n` symbols 0 (`freqs[0] = 1 + 32 n`,
total `256 + 32 n`); the state is `low`, `range` and the bytes written. -/
def zeroStep (n : Nat) (st : Nat × Nat × List Nat) : Option (Nat × Nat × List Nat) :=
  compress_renorm renormFuel ((st.1 + 0 * (st.2.1 / (256 + 32 * n))) % 4294967296)
    ((st.2.1 / (256 + 32 * n) * (1 + 32 * n)) % 4294967296) st.2.2

/-- The numbers after `k` more symbols 0. -/
def zeroRun : Nat → Nat → Nat × Nat × List Nat → Option (Nat × Nat × List Nat)
  | 0, _, st => some st
  | k + 1, n, st =>
    match zeroStep n st with
    | none => none
    | some st1 => zeroRun k (n + 1) st1

/-- The tables of a coder of order 0 with 8-bit symbols hold the frequencies `g`
and the total `T`. -/
structure TabIs (c : rangecoder) (g : Nat → Int) (T : Int) : Prop where
  order_eq : c.order = 0
  bits_eq : c.bits = 8
  symbols_eq : c.symbols = 256
  fsize_eq : c.fsize = 256
  tsize_eq : c.tsize = 1
  freqs_eq : ∀ i, i < 256 → c.freqs i = g i
  totals_eq : c.totals 0 = T

/-- The frequencies after `n` symbols 0 on the reset model of 8-bit symbols. -/
def zeroFreqs (n : Nat) : Nat → Int := fun i => if i = 0 then 1 + 32 * (n : Int) else 1

/-- The frequencies after the symbols `0^1982, 50, 0`. -/
def tailFreqs : Nat → Int := fun i => if i = 0 then 63457 else if i = 50 then 33 else 1

/-- An input of `rangecode_decompress` (order 0, `bits = 8`, 18 bytes) on which
the round `count = 1985` computes a negative `value`. -/
def badInput : List Nat := [0, 0, 0, 0, 0, 0, 0, 0, 0, 0, 172, 231, 198, 0, 127, 255, 0, 0]

/-! ## Properties of the range coder -/

theorem xor_shiftRight (a b k : Nat) : (a ^^^ b) >>> k = (a >>> k) ^^^ (b >>> k) := by
  apply Nat.eq_of_testBit_eq
  intro i
  simp [Nat.testBit_shiftRight, Nat.testBit_xor]

theorem xor_lt_top_iff (a b : Nat) : a ^^^ b < 16777216 ↔ a / 16777216 = b / 16777216 := by
  have h1 : (a ^^^ b) / 16777216 = (a / 16777216) ^^^ (b / 16777216) := by
    have := xor_shiftRight a b 24
    simpa [Nat.shiftRight_eq_div_pow] using this
  constructor
  · intro h
    have h2 : (a ^^^ b) / 16777216 = 0 := Nat.div_eq_of_lt h
    rw [h1] at h2
    exact Nat.xor_eq_zero.mp h2 
  · intro h
    have h2 : (a ^^^ b) / 16777216 = 0 := by rw [h1, h]; exact Nat.xor_self _
    omega

theorem top_eq : top = 16777216 := rfl

theorem bottom_eq : bottom = 65536 := rfl

theorem renormCond_iff (low range : Nat) :
    renormCond low range = true ↔
      (low / 16777216 = (low + range) % 4294967296 / 16777216 ∨ range < 65536) := by
  simp [renormCond, top_eq, bottom_eq, xor_lt_top_iff]

theorem clampRange_eq (low range : Nat) :
    clampRange low range =
      if range < 65536 ∧ ¬ (low / 16777216 = (low + range) % 4294967296 / 16777216) then
        (4294967296 - low) % 4294967296 % 65536
      else range := by
  have h : (65536 : Nat) - 1 = 2 ^ 16 - 1 := by norm_num
  simp only [clampRange, top_eq, bottom_eq, ge_iff_le, ← not_lt, xor_lt_top_iff]
  rw [h, Nat.and_pow_two_sub_one_eq_mod]

/-- The first round of a renormalisation leaves multiples of 256. -/
theorem renorm_round0 (low range : Nat) (hl : low < 4294967296) (hr : range < 4294967296) (h1 : 1 ≤ range)
    (hc : renormCond low range = true) :
    1 ≤ (clampRange low range <<< 8) % 4294967296 ∧
    ((clampRange low range <<< 8) % 4294967296) % 256 = 0 ∧ ((low <<< 8) % 4294967296) % 256 = 0 := by
  rw [renormCond_iff] at hc
  rw [clampRange_eq, Nat.shiftLeft_eq, Nat.shiftLeft_eq]
  split_ifs <;> omega

theorem renorm_round1 (low range : Nat) (hl : low < 4294967296) (hr : range < 4294967296) (h1 : 1 ≤ range)
    (hl8 : low % 256 = 0) (hr8 : range % 256 = 0)
    (hc : renormCond low range = true) :
    1 ≤ (clampRange low range <<< 8) % 4294967296 ∧
    ((clampRange low range <<< 8) % 4294967296) % 65536 = 0 ∧ ((low <<< 8) % 4294967296) % 65536 = 0 := by
  rw [renormCond_iff] at hc
  rw [clampRange_eq, Nat.shiftLeft_eq, Nat.shiftLeft_eq]
  split_ifs <;> omega

theorem renorm_round2 (low range : Nat) (_hl : low < 4294967296) (hr : range < 4294967296) (h1 : 1 ≤ range)
    (hl8 : low % 65536 = 0) (hr8 : range % 65536 = 0)
    (hc : renormCond low range = true) :
    1 ≤ (clampRange low range <<< 8) % 4294967296 ∧
    ((clampRange low range <<< 8) % 4294967296) % 16777216 = 0 ∧ ((low <<< 8) % 4294967296) % 16777216 = 0 := by
  rw [renormCond_iff] at hc
  rw [clampRange_eq, Nat.shiftLeft_eq, Nat.shiftLeft_eq]
  split_ifs <;> omega

theorem renorm_round3 (low range : Nat) (_hl : low < 4294967296) (hr : range < 4294967296) (h1 : 1 ≤ range)
    (hl8 : low % 16777216 = 0) (hr8 : range % 16777216 = 0) :
    renormCond low range = false := by
  have : ¬ (renormCond low range = true) := by
    rw [renormCond_iff]
    omega
  simpa using this

theorem tableGet_nat (t : Nat → Int) (n a : Nat) (h : a < n) : tableGet t n (a : Int) = some (t a) := by
  simp [tableGet, h]

theorem tableGet_add (t : Nat → Int) (n a b : Nat) (h : a + b < n) :
    tableGet t n ((a : Int) + (b : Nat)) = some (t (a + b)) := by
  have : ((a : Int) + (b : Nat)) = ((a + b : Nat) : Int) := by push_cast; rfl
  rw [this, tableGet_nat _ _ _ h]

theorem sized_fsize_eq {c : rangecoder} (h : Sized c) : c.fsize = c.tsize * c.symbols := by
  obtain ⟨h1, h2, h3⟩ := h
  rw [h1, h2, h3, ← pow_add]
  congr 1

theorem sized_symbols_pos {c : rangecoder} (h : Sized c) : 0 < c.symbols := by
  rw [h.1]; positivity

theorem block_index_lt {c : rangecoder} (h : Sized c) {k s : Nat} (hk : k < c.tsize) (hs : s < c.symbols) :
    k * c.symbols + s < c.fsize := by
  rw [(sized_fsize_eq h)]
  calc k * c.symbols + s < k * c.symbols + c.symbols := by omega
    _ = (k + 1) * c.symbols := by ring
    _ ≤ c.tsize * c.symbols := Nat.mul_le_mul_right _ hk

theorem block_index_inj {m k k' s s' : Nat} (hs : s < m) (hs' : s' < m) (h : k * m + s = k' * m + s') :
    k = k' ∧ s = s' := by
  have hm : 0 < m := by omega
  have h1 : (k * m + s) / m = k := by
    rw [Nat.add_comm, Nat.add_mul_div_right _ _ hm, Nat.div_eq_of_lt hs]; simp
  have h2 : (k' * m + s') / m = k' := by
    rw [Nat.add_comm, Nat.add_mul_div_right _ _ hm, Nat.div_eq_of_lt hs']; simp
  have hk : k = k' := by rw [← h1, ← h2, h]
  subst hk
  exact ⟨rfl, by omega⟩

theorem idx_shift {c : rangecoder} (h : Sized c) (k : Nat) : (k * c.symbols) >>> c.bits = k := by
  rw [Nat.shiftRight_eq_div_pow, h.1]
  exact Nat.mul_div_cancel _ (by positivity)

/-- The loop that computes `start` yields the sum of the frequencies below the symbol. -/
theorem sumFreqs_eq {c : rangecoder} (idx : Nat) (n : Nat) (h : idx + n ≤ c.fsize) :
    sumFreqs c idx n = some (∑ s ∈ Finset.range n, c.freqs (idx + s)) := by
  induction n with
  | zero => simp [sumFreqs]
  | succ n ih =>
    rw [sumFreqs, ih (by omega), tableGet_add _ _ _ _ (by omega)]
    simp [Finset.sum_range_succ]

theorem rescale_spec (idx : Nat) (n : Nat) (c : rangecoder) (hn : idx + n ≤ c.fsize)
    (hk : idx >>> c.bits < c.tsize) :
    ∃ c', rescale idx n c = some c' ∧ c'.order = c.order ∧ c'.bits = c.bits ∧ c'.symbols = c.symbols ∧
      c'.fsize = c.fsize ∧ c'.tsize = c.tsize ∧
      (∀ i, c'.freqs i = if idx ≤ i ∧ i < idx + n then halve (c.freqs i) else c.freqs i) ∧
      c'.totals (idx >>> c.bits) = c.totals (idx >>> c.bits) + ∑ s ∈ Finset.range n, halve (c.freqs (idx + s)) ∧
      (∀ j, j ≠ idx >>> c.bits → c'.totals j = c.totals j) := by
  induction n with
  | zero =>
    refine ⟨c, by simp [rescale], rfl, rfl, rfl, rfl, rfl, ?_, by simp, fun _ _ => rfl⟩
    intro i
    rw [if_neg (by omega)]
  | succ n ih =>
    obtain ⟨c1, h1, ho, hb, hs, hf, ht, hfr, htot, hoth⟩ := ih (by omega)
    have hget : tableGet c1.freqs c1.fsize ((idx : Int) + (n : Nat)) = some (c1.freqs (idx + n)) :=
      tableGet_add _ _ _ _ (by omega)
    have hgett : tableGet c1.totals c1.tsize ((idx >>> c1.bits : Nat) : Int) = some (c1.totals (idx >>> c1.bits)) :=
      tableGet_nat _ _ _ (by rw [hb, ht]; exact hk)
    have hold : c1.freqs (idx + n) = c.freqs (idx + n) := by rw [hfr, if_neg (by omega)]
    have hres : rescale idx (n + 1) c = some
        { c1 with
          freqs := Function.update c1.freqs (idx + n) (halve (c1.freqs (idx + n)))
          totals := Function.update c1.totals (idx >>> c1.bits)
            (c1.totals (idx >>> c1.bits) + halve (c1.freqs (idx + n))) } := by
      rw [rescale, h1]; simp only [hget, hgett]; rfl
    refine ⟨_, hres, ho, hb, hs, hf, ht, ?_, ?_, ?_⟩
    · intro i
      simp only [Function.update_apply]
      by_cases hi : i = idx + n
      · subst hi
        rw [if_pos rfl, if_pos (by omega), hold]
      · rw [if_neg hi, hfr]
        have : (idx ≤ i ∧ i < idx + (n + 1)) ↔ (idx ≤ i ∧ i < idx + n) := by omega
        simp only [this]
    · simp only [Function.update_apply, hb, if_true, hold]
      rw [htot, Finset.sum_range_succ]
      ring
    · intro j hj
      simp only [Function.update_apply, hb, if_neg hj]
      exact hoth j hj

theorem sum_block_update (f : Nat → Int) (m k sym : Nat) (v : Int) (hsym : sym < m) :
    ∑ s ∈ Finset.range m, Function.update f (k * m + sym) v (k * m + s) =
      (∑ s ∈ Finset.range m, f (k * m + s)) + (v - f (k * m + sym)) := by
  have h : ∀ s ∈ Finset.range m, Function.update f (k * m + sym) v (k * m + s) =
      f (k * m + s) + (if s = sym then v - f (k * m + sym) else 0) := by
    intro s _
    by_cases hs : s = sym
    · subst hs; simp
    · have : k * m + s ≠ k * m + sym := by omega
      simp [Function.update_noteq this, hs]
  rw [Finset.sum_congr rfl h, Finset.sum_add_distrib, Finset.sum_ite_eq']
  simp [hsym]

theorem sum_block_update_other (f : Nat → Int) (m k k' sym : Nat) (v : Int) (hsym : sym < m) (hk : k' ≠ k) :
    ∑ s ∈ Finset.range m, Function.update f (k * m + sym) v (k' * m + s) =
      ∑ s ∈ Finset.range m, f (k' * m + s) := by
  apply Finset.sum_congr rfl
  intro s hs
  have hs' : s < m := Finset.mem_range.mp hs
  have : k' * m + s ≠ k * m + sym := fun h => hk (block_index_inj hs' hsym h).1
  rw [Function.update_noteq this]

theorem halve_pos (f : Int) (h : 1 ≤ f) : 1 ≤ halve f ∧ 2 * halve f ≤ f + 1 := by
  unfold halve
  have h2 : Int.tdiv f 2 = f / 2 := by
    rw [Int.tdiv_eq_ediv] <;> omega
  rw [h2]
  split_ifs <;> omega

theorem sized_congr {c c' : rangecoder} (h : Sized c) (ho : c'.order = c.order) (hb : c'.bits = c.bits)
    (hs : c'.symbols = c.symbols) (hf : c'.fsize = c.fsize) (ht : c'.tsize = c.tsize) : Sized c' := by
  unfold Sized
  rw [ho, hb, hs, hf, ht]
  exact h

theorem symbols_le {c : rangecoder} (h : Sized c) (hb : c.bits ≤ 8) : c.symbols ≤ 256 := by
  rw [h.1]
  calc 2 ^ c.bits ≤ 2 ^ 8 := Nat.pow_le_pow_right (by norm_num) hb
    _ = 256 := by norm_num

theorem update_model_spec (c : rangecoder) (k sym : Nat) (h : TablesOK c) (hk : k < c.tsize)
    (hs : sym < c.symbols) :
    ∃ c', update_model c (k * c.symbols) (sym : Int) = some c' ∧ c'.order = c.order ∧ c'.bits = c.bits ∧
      c'.symbols = c.symbols ∧ c'.fsize = c.fsize ∧ c'.tsize = c.tsize ∧ TablesOK c' := by
  obtain ⟨hsz, hsmall, ⟨hfreq, htot⟩, hbound⟩ := h
  have hidx : k * c.symbols + sym < c.fsize := block_index_lt hsz hk hs
  have hshift : (k * c.symbols) >>> c.bits = k := idx_shift hsz k
  have hget : tableGet c.freqs c.fsize (((k * c.symbols : Nat) : Int) + (sym : Nat)) =
      some (c.freqs (k * c.symbols + sym)) := tableGet_add _ _ _ _ hidx
  have hgett : tableGet c.totals c.tsize (((k * c.symbols) >>> c.bits : Nat) : Int) = some (c.totals k) := by
    rw [hshift]; exact tableGet_nat _ _ _ hk
  have htoNat : (((k * c.symbols : Nat) : Int) + (sym : Nat)).toNat = k * c.symbols + sym := by
    omega
  have hm := symbols_le hsz hsmall
  -- the tables after the two increments
  have hsum1 : ∑ s ∈ Finset.range c.symbols,
      Function.update c.freqs (k * c.symbols + sym) (c.freqs (k * c.symbols + sym) + 32) (k * c.symbols + s) =
      c.totals k + 32 := by
    rw [sum_block_update _ _ _ _ _ hs, htot k hk, blockSum]; ring
  by_cases hbig : c.totals k + 32 ≥ 0xFFFF
  · -- rescale
    obtain ⟨c', hr, ho, hb, hsy, hf, ht, hfr, htk, hoth⟩ := rescale_spec (k * c.symbols) c.symbols
      { c with
        freqs := Function.update c.freqs (k * c.symbols + sym) (c.freqs (k * c.symbols + sym) + 32)
        totals := Function.update (Function.update c.totals k (c.totals k + 32)) k 0 }
      (by
        show k * c.symbols + c.symbols ≤ c.fsize
        rw [(sized_fsize_eq hsz)]
        calc k * c.symbols + c.symbols = (k + 1) * c.symbols := by ring
          _ ≤ c.tsize * c.symbols := Nat.mul_le_mul_right _ hk)
      (by show (k * c.symbols) >>> c.bits < c.tsize; rw [hshift]; exact hk)
    dsimp only at ho hb hsy hf ht hfr htk hoth
    rw [hshift, Function.update_same, zero_add] at htk
    rw [hshift] at hoth
    have hres : update_model c (k * c.symbols) (sym : Int) = some c' := by
      rw [update_model, hget, hgett]
      simp only [htoNat, hshift, if_pos hbig]
      exact hr
    have hf1 : ∀ i, i < c.fsize → 1 ≤ Function.update c.freqs (k * c.symbols + sym)
        (c.freqs (k * c.symbols + sym) + 32) i := by
      intro i hi
      by_cases h : i = k * c.symbols + sym
      · subst h; rw [Function.update_same]; have := hfreq _ hi; omega
      · rw [Function.update_noteq h]; exact hfreq i hi
    have hblock : ∀ s, s < c.symbols → c'.freqs (k * c.symbols + s) =
        halve (Function.update c.freqs (k * c.symbols + sym) (c.freqs (k * c.symbols + sym) + 32)
          (k * c.symbols + s)) := by
      intro s hs'
      rw [hfr, if_pos (by omega)]
    refine ⟨c', hres, ho, hb, hsy, hf, ht, sized_congr hsz ho hb hsy hf ht, by rw [hb]; exact hsmall, ⟨?_, ?_⟩, ?_⟩
    · intro i hi
      rw [hf] at hi
      rw [hfr]
      split_ifs
      · exact (halve_pos _ (hf1 i hi)).1
      · exact hf1 i hi
    · intro ctx hctx
      rw [ht] at hctx
      by_cases hc : ctx = k
      · subst hc
        rw [htk, blockSum, hsy]
        apply Finset.sum_congr rfl
        intro s hs'
        rw [hblock s (Finset.mem_range.mp hs')]
      · rw [hoth ctx hc, Function.update_noteq hc, Function.update_noteq hc, htot ctx hctx, blockSum, blockSum, hsy]
        apply Finset.sum_congr rfl
        intro s hs'
        have hs2 := Finset.mem_range.mp hs'
        have hne : ctx * c.symbols + s ≠ k * c.symbols + sym := fun h => hc (block_index_inj hs2 hs h).1
        rw [hfr, if_neg, Function.update_noteq hne]
        rintro ⟨h1, h2⟩
        -- ctx*m + s in block k contradiction
        have : ctx * c.symbols + s = k * c.symbols + (ctx * c.symbols + s - k * c.symbols) := by omega
        exact hc (block_index_inj hs2 (by omega) this).1
    · intro ctx hctx
      rw [ht] at hctx
      by_cases hc : ctx = k
      · subst hc
        rw [htk]
        have h2 : ∑ s ∈ Finset.range c.symbols, 2 * halve (Function.update c.freqs (ctx * c.symbols + sym)
            (c.freqs (ctx * c.symbols + sym) + 32) (ctx * c.symbols + s)) ≤
            ∑ s ∈ Finset.range c.symbols, (Function.update c.freqs (ctx * c.symbols + sym)
            (c.freqs (ctx * c.symbols + sym) + 32) (ctx * c.symbols + s) + 1) := by
          apply Finset.sum_le_sum
          intro s hs'
          exact (halve_pos _ (hf1 _ (block_index_lt hsz hk (Finset.mem_range.mp hs')))).2
        rw [← Finset.mul_sum, Finset.sum_add_distrib, hsum1] at h2
        simp only [Finset.sum_const, Finset.card_range, smul_eq_mul, mul_one] at h2
        have := hbound ctx hk
        have hm' : (c.symbols : Int) ≤ 256 := by exact_mod_cast hm
        simp only [nsmul_eq_mul, mul_one] at h2
        omega
      · rw [hoth ctx hc, Function.update_noteq hc, Function.update_noteq hc]
        exact hbound ctx hctx
  · -- no rescale
    have hres : update_model c (k * c.symbols) (sym : Int) = some
        { c with
          freqs := Function.update c.freqs (k * c.symbols + sym) (c.freqs (k * c.symbols + sym) + 32)
          totals := Function.update c.totals k (c.totals k + 32) } := by
      rw [update_model, hget, hgett]
      simp only [htoNat, hshift, if_neg hbig]
    refine ⟨_, hres, rfl, rfl, rfl, rfl, rfl, hsz, hsmall, ⟨?_, ?_⟩, ?_⟩
    · intro i hi
      show 1 ≤ Function.update c.freqs _ _ i
      by_cases h : i = k * c.symbols + sym
      · subst h; rw [Function.update_same]; have := hfreq _ hi; omega
      · rw [Function.update_noteq h]; exact hfreq i hi
    · intro ctx hctx
      show Function.update c.totals k _ ctx = ∑ s ∈ Finset.range c.symbols, Function.update c.freqs _ _ _
      by_cases hc : ctx = k
      · subst hc
        rw [Function.update_same, hsum1]
      · rw [Function.update_noteq hc, sum_block_update_other _ _ _ _ _ _ hs hc]
        exact htot ctx hctx
    · intro ctx hctx
      show Function.update c.totals k _ ctx < 0xFFFF
      by_cases hc : ctx = k
      · subst hc
        rw [Function.update_same]; omega
      · rw [Function.update_noteq hc]
        exact hbound ctx hctx

theorem compress_renorm_exit (fuel low range : Nat) (out : List Nat) (h : renormCond low range = false) :
    compress_renorm fuel low range out = some (low, range, out) := by
  cases fuel <;> simp [compress_renorm, h]

theorem compress_renorm_round (fuel low range : Nat) (out : List Nat) (h : renormCond low range = true) :
    compress_renorm (fuel + 1) low range out =
      compress_renorm fuel ((low <<< 8) % 4294967296) ((clampRange low range <<< 8) % 4294967296)
        (out ++ [(low >>> 24) &&& 0xFF]) := by
  simp [compress_renorm, h]

theorem renormCond_false_range {low range : Nat} (h : renormCond low range = false) : 65536 ≤ range := by
  have : ¬ (renormCond low range = true) := by simp [h]
  rw [renormCond_iff] at this
  omega

theorem renormEnds_exit (fuel low range : Nat) (out : List Nat) (hl : low < 4294967296)
    (hr : range < 4294967296) (h : ¬ renormCond low range = true) : RenormEnds fuel low range out := by
  simp only [Bool.not_eq_true] at h
  exact ⟨low, range, out, compress_renorm_exit _ _ _ _ h, hl, renormCond_false_range h, hr⟩

theorem renormEnds_round (fuel low range : Nat) (out : List Nat) (h : renormCond low range = true)
    (hn : RenormEnds fuel ((low <<< 8) % 4294967296) ((clampRange low range <<< 8) % 4294967296)
        (out ++ [(low >>> 24) &&& 0xFF])) : RenormEnds (fuel + 1) low range out := by
  unfold RenormEnds
  rw [compress_renorm_round _ _ _ _ h]
  exact hn

theorem mod_u32_lt (x : Nat) : x % 4294967296 < 4294967296 := Nat.mod_lt _ (by norm_num)

theorem renormEnds3 (fuel low range : Nat) (out : List Nat) (hl : low < 4294967296)
    (hr : range < 4294967296) (h1 : 1 ≤ range) (hl8 : low % 16777216 = 0) (hr8 : range % 16777216 = 0) :
    RenormEnds fuel low range out :=
  renormEnds_exit _ _ _ _ hl hr (by rw [renorm_round3 low range hl hr h1 hl8 hr8]; simp)

theorem renormEnds2 (fuel low range : Nat) (out : List Nat) (hl : low < 4294967296)
    (hr : range < 4294967296) (h1 : 1 ≤ range) (hl8 : low % 65536 = 0) (hr8 : range % 65536 = 0) :
    RenormEnds (fuel + 1) low range out := by
  by_cases c : renormCond low range = true
  · obtain ⟨a1, a2, a3⟩ := renorm_round2 low range hl hr h1 hl8 hr8 c
    exact renormEnds_round _ _ _ _ c (renormEnds3 _ _ _ _ (mod_u32_lt _) (mod_u32_lt _) a1 a3 a2)
  · exact renormEnds_exit _ _ _ _ hl hr c

theorem renormEnds1 (fuel low range : Nat) (out : List Nat) (hl : low < 4294967296)
    (hr : range < 4294967296) (h1 : 1 ≤ range) (hl8 : low % 256 = 0) (hr8 : range % 256 = 0) :
    RenormEnds (fuel + 2) low range out := by
  by_cases c : renormCond low range = true
  · obtain ⟨a1, a2, a3⟩ := renorm_round1 low range hl hr h1 hl8 hr8 c
    exact renormEnds_round _ _ _ _ c (renormEnds2 _ _ _ _ (mod_u32_lt _) (mod_u32_lt _) a1 a3 a2)
  · exact renormEnds_exit _ _ _ _ hl hr c

theorem compress_renorm_ends (fuel low range : Nat) (out : List Nat) (hl : low < 4294967296)
    (hr : range < 4294967296) (h1 : 1 ≤ range) : RenormEnds (fuel + 3) low range out := by
  by_cases c : renormCond low range = true
  · obtain ⟨a1, a2, a3⟩ := renorm_round0 low range hl hr h1 c
    exact renormEnds_round _ _ _ _ c (renormEnds1 _ _ _ _ (mod_u32_lt _) (mod_u32_lt _) a1 a3 a2)
  · exact renormEnds_exit _ _ _ _ hl hr c

/-- The mask `~((~0x00)<<k)` has exactly the low `k` bits set. -/
theorem mask_eq (k : Nat) : ~~~((~~~(0x00 : Int)) <<< (k : Int)) = ((2 ^ k - 1 : Nat) : Int) := by
  have h0 : ~~~(0x00 : Int) = Int.negSucc 0 := rfl
  rw [h0, Int.shiftLeft_negSucc]
  have h1 := Nat.shiftLeft'_tt_eq_mul_pow 0 k
  have h2 : Nat.shiftLeft' true 0 k = 2 ^ k - 1 := by omega
  rw [h2]
  rfl

theorem land_natCast (a b : Nat) : Int.land (a : Int) (b : Int) = ((a &&& b : Nat) : Int) := rfl

/-- Shift and mask of the context update, in arithmetic. -/
theorem next_idx_eq (c : rangecoder) (idx s : Nat) :
    next_idx c idx (s : Int) = ((idx + s) * 2 ^ c.bits) % 2 ^ (c.bits * (c.order + 1)) := by
  unfold next_idx
  have h1 : ((idx : Int) + (s : Int)) = ((idx + s : Nat) : Int) := by push_cast; rfl
  rw [h1, Int.shiftLeft_coe_nat, mask_eq, land_natCast, Int.toNat_ofNat, Nat.and_pow_two_sub_one_eq_mod,
    Nat.shiftLeft_eq]

theorem next_idx_spec {c : rangecoder} (h : Sized c) (k sym : Nat) :
    ∃ k', k' < c.tsize ∧ next_idx c (k * c.symbols) (sym : Int) = k' * c.symbols := by
  have ht : 0 < c.tsize := by rw [h.2.2]; positivity
  refine ⟨(k * c.symbols + sym) % c.tsize, Nat.mod_lt _ ht, ?_⟩
  rw [next_idx_eq, ← h.1]
  have e1 : 2 ^ (c.bits * (c.order + 1)) = c.tsize * c.symbols := by
    rw [← (sized_fsize_eq h), h.2.1]
  rw [e1, Nat.mul_mod_mul_right]

theorem toU32_of_nonneg (x : Int) (h0 : 0 ≤ x) (h1 : x < 4294967296) : toU32 x = x.toNat := by
  unfold toU32
  rw [Int.emod_eq_of_lt h0 h1]

theorem sum_initial_le (f : Nat → Int) (n m : Nat) (h : n + 1 ≤ m) (hf : ∀ s, s < m → 1 ≤ f s) :
    0 ≤ ∑ s ∈ Finset.range n, f s ∧ (∑ s ∈ Finset.range n, f s) + f n ≤ ∑ s ∈ Finset.range m, f s := by
  constructor
  · apply Finset.sum_nonneg
    intro s hs
    have := hf s (by have := Finset.mem_range.mp hs; omega)
    omega
  · rw [← Finset.sum_range_succ]
    apply Finset.sum_le_sum_of_subset_of_nonneg
    · intro s hs
      rw [Finset.mem_range] at hs ⊢
      omega
    · intro s hs _
      have := hf s (Finset.mem_range.mp hs)
      omega

theorem compress_step_spec (s : EncState) (sym : Nat) (h : EncInv s) (hs : sym < s.coder.symbols) :
    ∃ s', compress_step s sym = some s' ∧ EncInv s' ∧ s'.coder.order = s.coder.order ∧
      s'.coder.bits = s.coder.bits ∧ s'.coder.symbols = s.coder.symbols ∧
      s'.coder.fsize = s.coder.fsize ∧ s'.coder.tsize = s.coder.tsize := by
  obtain ⟨htab, ⟨k, hk, hidx⟩, hlow, hrge, hrlt⟩ := h
  have hsz := htab.sized
  have hfreq := htab.inv.1
  have hshift : s.idx >>> s.coder.bits = k := by rw [hidx]; exact idx_shift hsz k
  have hblk : k * s.coder.symbols + s.coder.symbols ≤ s.coder.fsize := by
    rw [(sized_fsize_eq hsz)]
    calc k * s.coder.symbols + s.coder.symbols = (k + 1) * s.coder.symbols := by ring
      _ ≤ s.coder.tsize * s.coder.symbols := Nat.mul_le_mul_right _ hk
  have hstart : sumFreqs s.coder s.idx sym = some (∑ i ∈ Finset.range sym, s.coder.freqs (s.idx + i)) :=
    sumFreqs_eq _ _ (by rw [hidx]; omega)
  have hsize : tableGet s.coder.freqs s.coder.fsize ((s.idx : Int) + (sym : Nat)) =
      some (s.coder.freqs (s.idx + sym)) := tableGet_add _ _ _ _ (by rw [hidx]; omega)
  have htotal : tableGet s.coder.totals s.coder.tsize ((s.idx >>> s.coder.bits : Nat) : Int) =
      some (s.coder.totals k) := by rw [hshift]; exact tableGet_nat _ _ _ hk
  -- the numbers
  have hsum := sum_initial_le (fun i => s.coder.freqs (s.idx + i)) sym s.coder.symbols (by omega)
    (fun i hi => hfreq _ (by rw [hidx]; omega))
  have htk : s.coder.totals k = ∑ i ∈ Finset.range s.coder.symbols, s.coder.freqs (s.idx + i) := by
    rw [htab.inv.2 k hk, blockSum, hidx]
  have hsz1 : 1 ≤ s.coder.freqs (s.idx + sym) := hfreq _ (by rw [hidx]; omega)
  have htb := htab.bounded k hk
  simp only [] at hsum
  rw [← htk] at hsum
  obtain ⟨hst0, hst1⟩ := hsum
  set start := ∑ i ∈ Finset.range sym, s.coder.freqs (s.idx + i) with hstartdef
  set size := s.coder.freqs (s.idx + sym) with hsizedef
  set total := s.coder.totals k with htotaldef
  have hT : toU32 total = total.toNat := toU32_of_nonneg _ (by omega) (by omega)
  have hS : toU32 size = size.toNat := toU32_of_nonneg _ (by omega) (by omega)
  have hTpos : 1 ≤ total.toNat := by omega
  have hTlt : total.toNat < 65535 := by omega
  have hSle : size.toNat ≤ total.toNat := by omega
  have hSpos : 1 ≤ size.toNat := by omega
  have hr1 : 1 ≤ s.range / total.toNat := by
    apply (Nat.le_div_iff_mul_le (by omega)).mpr
    omega
  have hr2 : s.range / total.toNat * size.toNat ≤ s.range :=
    calc s.range / total.toNat * size.toNat ≤ s.range / total.toNat * total.toNat := Nat.mul_le_mul_left _ hSle
      _ ≤ s.range := Nat.div_mul_le_self _ _
  have hr3 : 1 ≤ s.range / total.toNat * size.toNat := Nat.mul_pos hr1 hSpos
  have hr4 : (s.range / total.toNat * size.toNat) % 4294967296 = s.range / total.toNat * size.toNat :=
    Nat.mod_eq_of_lt (by omega)
  obtain ⟨low2, range3, out2, hren, hl2, hr3ge, hr3lt⟩ :=
    compress_renorm_ends 29 ((s.low + toU32 start * (s.range / total.toNat)) % 4294967296)
      (s.range / total.toNat * size.toNat) s.out (mod_u32_lt _) (by omega) hr3
  obtain ⟨c', hupd, ho, hb, hsy, hf, ht, htab'⟩ := update_model_spec s.coder k sym htab hk hs
  obtain ⟨k', hk', hnext⟩ := next_idx_spec hsz k sym
  rw [← hidx] at hupd hnext
  refine ⟨{ coder := c', low := low2, range := range3, idx := next_idx s.coder s.idx sym, out := out2 },
    ?_, ⟨htab', ⟨k', by rw [ht]; exact hk', by rw [hsy]; exact hnext⟩, hl2, hr3ge, hr3lt⟩, ho, hb, hsy, hf, ht⟩
  unfold compress_step
  rw [hstart, hsize, htotal]
  have hne : ¬ (toU32 total = 0) := by rw [hT]; omega
  simp only [hne, if_false, hT, hS, hr4]
  have hfu : renormFuel = 29 + 3 := rfl
  rw [hfu, hren]
  simp only [hupd]
  rw [if_neg (by omega)]

theorem compress_loop_spec (input : List Nat) : ∀ (s : EncState), EncInv s →
    (∀ sym ∈ input, sym < s.coder.symbols) →
    ∃ s', compress_loop s input = some s' ∧ EncInv s' ∧ s'.coder.order = s.coder.order ∧
      s'.coder.bits = s.coder.bits ∧ s'.coder.symbols = s.coder.symbols ∧
      s'.coder.fsize = s.coder.fsize ∧ s'.coder.tsize = s.coder.tsize := by
  induction input with
  | nil => intro s h _; exact ⟨s, rfl, h, rfl, rfl, rfl, rfl, rfl⟩
  | cons sym rest ih =>
    intro s h hin
    obtain ⟨s1, h1, hinv1, ho, hb, hsy, hf, ht⟩ := compress_step_spec s sym h (hin sym (List.mem_cons_self _ _))
    obtain ⟨s2, h2, hinv2, ho2, hb2, hsy2, hf2, ht2⟩ := ih s1 hinv1
      (fun x hx => by rw [hsy]; exact hin x (List.mem_cons_of_mem _ hx))
    refine ⟨s2, ?_, hinv2, ho2.trans ho, hb2.trans hb, hsy2.trans hsy, hf2.trans hf, ht2.trans ht⟩
    simp only [compress_loop, h1, h2]

theorem rangecode_compress_spec (c : rangecoder) (input : List Nat) (h : TablesOK c)
    (hin : ∀ sym ∈ input, sym < c.symbols) :
    ∃ out c', rangecode_compress c input = some (1, out, c') ∧ TablesOK c' := by
  have h0 : EncInv { coder := c, low := 0x00, range := maxrange, idx := 0x00, out := [] } :=
    ⟨h, ⟨0, by have := h.sized.2.2; show 0 < c.tsize; rw [this]; positivity, by simp⟩, by norm_num,
      by simp [maxrange], by simp [maxrange]⟩
  obtain ⟨s', hs', hinv, _⟩ := compress_loop_spec input _ h0 hin
  exact ⟨compress_flush 4 s'.low s'.out, s'.coder, by simp only [rangecode_compress, hs'], hinv.tables⟩

theorem renormCond_zero (low : Nat) : renormCond low 0 = true := by
  rw [renormCond_iff]
  right
  norm_num

theorem clampRange_zero (low : Nat) (hl : low < 4294967296) : clampRange low 0 = 0 := by
  rw [clampRange_eq, if_neg]
  rintro ⟨_, h⟩
  apply h
  rw [Nat.add_zero, Nat.mod_eq_of_lt hl]

/-- With `range = 0` the renormalisation loop of the encoder never exits: no bound
on the number of rounds lets the embedding return. -/
theorem compress_renorm_zero (fuel : Nat) : ∀ (low : Nat) (out : List Nat), low < 4294967296 →
    compress_renorm fuel low 0 out = none := by
  induction fuel with
  | zero => intro low out _; simp [compress_renorm, renormCond_zero]
  | succ n ih =>
    intro low out hl
    rw [compress_renorm_round _ _ _ _ (renormCond_zero low), clampRange_zero low hl]
    exact ih _ _ (mod_u32_lt _)

theorem decompress_renorm_exit (rd : Nat → Nat) (fuel low range code pos : Nat)
    (h : renormCond low range = false) :
    decompress_renorm rd fuel low range code pos = some (low, range, code, pos) := by
  cases fuel <;> simp [decompress_renorm, h]

theorem decompress_renorm_round (rd : Nat → Nat) (fuel low range code pos : Nat)
    (h : renormCond low range = true) :
    decompress_renorm rd (fuel + 1) low range code pos =
      decompress_renorm rd fuel ((low <<< 8) % 4294967296) ((clampRange low range <<< 8) % 4294967296)
        (((code <<< 8) % 4294967296) ||| (rd pos &&& 0xFF)) (pos + 1) := by
  simp [decompress_renorm, h]

/-- With `range = 0` the renormalisation loop of the decoder never exits. -/
theorem decompress_renorm_zero (rd : Nat → Nat) (fuel : Nat) : ∀ (low code pos : Nat), low < 4294967296 →
    decompress_renorm rd fuel low 0 code pos = none := by
  induction fuel with
  | zero => intro low code pos _; simp [decompress_renorm, renormCond_zero]
  | succ n ih =>
    intro low code pos hl
    rw [decompress_renorm_round _ _ _ _ _ _ (renormCond_zero low), clampRange_zero low hl]
    exact ih _ _ _ (mod_u32_lt _)

/-- The decoder's renormalisation runs in lockstep with the encoder's: same
rounds, same `low` and `range`, one input byte read per byte the encoder writes. -/
theorem decompress_renorm_lockstep (rd : Nat → Nat) (fuel : Nat) :
    ∀ (low range code pos : Nat) (out : List Nat),
    (decompress_renorm rd fuel low range code pos).map (fun r => (r.1, r.2.1)) =
      (compress_renorm fuel low range out).map (fun r => (r.1, r.2.1)) ∧
    (decompress_renorm rd fuel low range code pos).map (fun r => r.2.2.2 + out.length) =
      (compress_renorm fuel low range out).map (fun r => pos + r.2.2.length) := by
  induction fuel with
  | zero =>
    intro low range code pos out
    unfold decompress_renorm compress_renorm
    split_ifs
    · exact ⟨rfl, rfl⟩
    · exact ⟨rfl, by simp [Nat.add_comm]⟩
  | succ n ih =>
    intro low range code pos out
    unfold decompress_renorm compress_renorm
    split_ifs
    · obtain ⟨h1, h2⟩ := ih ((low <<< 8) % 4294967296) ((clampRange low range <<< 8) % 4294967296)
        (((code <<< 8) % 4294967296) ||| (rd pos &&& 0xFF)) (pos + 1) (out ++ [(low >>> 24) &&& 0xFF])
      refine ⟨h1, ?_⟩
      have e1 : (fun r : Nat × Nat × Nat × Nat => r.2.2.2 + out.length) =
          (fun k => k - 1) ∘ (fun r : Nat × Nat × Nat × Nat => r.2.2.2 + (out ++ [(low >>> 24) &&& 0xFF]).length) := by
        funext r; simp
      have e2 : (fun r : Nat × Nat × List Nat => pos + r.2.2.length) =
          (fun k => k - 1) ∘ (fun r : Nat × Nat × List Nat => pos + 1 + r.2.2.length) := by
        funext r; simp
      rw [e1, e2, ← Option.map_map, ← Option.map_map, h2]
    · exact ⟨rfl, by simp [Nat.add_comm]⟩

theorem compress_loop_append (p q : List Nat) : ∀ s : EncState,
    compress_loop s (p ++ q) = (compress_loop s p).bind (fun s1 => compress_loop s1 q) := by
  induction p with
  | nil => intro s; rfl
  | cons x xs ih =>
    intro s
    simp only [List.cons_append, compress_loop]
    cases compress_step s x with
    | none => rfl
    | some s1 => exact ih s1

theorem decompress_step_error (rd : Nat → Nat) (s s1 : DecState)
    (h : decompress_step rd s = some (DecStep.error s1)) : s1 = s := by
  unfold decompress_step at h
  split at h
  · exact absurd h (by simp)
  · split_ifs at h
    dsimp only at h
    split at h
    · exact absurd h (by simp)
    · split_ifs at h
      · exact ((DecStep.error.injEq _ _).mp (Option.some.inj h)).symm
      · split at h
        · split at h
          · exact absurd h (by simp)
          · split at h
            · exact absurd h (by simp)
            · exact absurd h (by simp)
        · exact absurd h (by simp)

theorem decompress_step_next (rd : Nat → Nat) (s s1 : DecState)
    (h : decompress_step rd s = some (DecStep.next s1)) : s1.out.length = s.out.length + 1 := by
  unfold decompress_step at h
  split at h
  · exact absurd h (by simp)
  · split_ifs at h
    dsimp only at h
    split at h
    · exact absurd h (by simp)
    · split_ifs at h
      · exact absurd h (by simp)
      · split at h
        · split at h
          · exact absurd h (by simp)
          · split at h
            · exact absurd h (by simp)
            · have := (DecStep.next.injEq _ _).mp (Option.some.inj h)
              rw [← this]
              simp
        · exact absurd h (by simp)

theorem decompress_rounds_length (rd : Nat → Nat) : ∀ (k : Nat) (s sk : DecState),
    decompress_rounds rd k s = some sk → sk.out.length = s.out.length + k := by
  intro k
  induction k with
  | zero => intro s sk h; rw [← Option.some.inj h]; rfl
  | succ k ih =>
    intro s sk h
    unfold decompress_rounds at h
    split at h
    · rename_i s1 hs1
      rw [ih s1 sk h, decompress_step_next rd s s1 hs1]
      omega
    · exact absurd h (by simp)

/-- Where a run of the symbol loop of the decoder has a result: it is 1 after
`length` rounds without error, with the symbols and the coder of the state
reached, or it is 0 at the first round that stops with the error, with the
symbols and the coder of the state before that round. -/
theorem decompress_loop_result (rd : Nat → Nat) : ∀ (length : Nat) (s : DecState) (r : Int)
    (out : List Nat) (c : rangecoder),
    decompress_loop rd length s = some (r, out, c) ↔
      (r = 1 ∧ ∃ sl, decompress_rounds rd length s = some sl ∧ out = sl.out ∧ c = sl.coder) ∨
      (r = 0 ∧ ∃ k, k < length ∧ ∃ sk, decompress_rounds rd k s = some sk ∧
        decompress_step rd sk = some (DecStep.error sk) ∧ out = sk.out ∧ c = sk.coder) := by
  intro length
  induction length with
  | zero =>
    intro s r out c
    simp only [decompress_loop, decompress_rounds]
    constructor
    · intro h
      have := Option.some.inj h
      simp only [Prod.mk.injEq] at this
      exact Or.inl ⟨this.1.symm, s, rfl, this.2.1.symm, this.2.2.symm⟩
    · rintro (⟨h1, sl, h2, h3, h4⟩ | ⟨_, k, hk, _⟩)
      · rw [← Option.some.inj h2] at h3 h4
        rw [h1, h3, h4]
      · omega
  | succ n ih =>
    intro s r out c
    unfold decompress_loop
    cases hstep : decompress_step rd s with
    | none =>
      simp only []
      constructor
      · intro h; exact absurd h (by simp)
      · rintro (⟨_, sl, h2, _⟩ | ⟨_, k, hk, sk, h2, h3, _⟩)
        · simp [decompress_rounds, hstep] at h2
        · cases k with
          | zero =>
            simp only [decompress_rounds] at h2
            rw [← Option.some.inj h2, hstep] at h3
            exact absurd h3 (by simp)
          | succ k => simp [decompress_rounds, hstep] at h2
    | some st =>
      cases st with
      | error s1 =>
        have hs1 := decompress_step_error rd s s1 hstep
        subst hs1
        simp only []
        constructor
        · intro h
          have := Option.some.inj h
          simp only [Prod.mk.injEq] at this
          exact Or.inr ⟨this.1.symm, 0, by omega, s1, rfl, hstep, this.2.1.symm, this.2.2.symm⟩
        · rintro (⟨_, sl, h2, _⟩ | ⟨h1, k, hk, sk, h2, h3, h4, h5⟩)
          · simp [decompress_rounds, hstep] at h2
          · cases k with
            | zero =>
              simp only [decompress_rounds] at h2
              rw [← Option.some.inj h2] at h4 h5
              rw [h1, h4, h5]
            | succ k => simp [decompress_rounds, hstep] at h2
      | next s1 =>
        simp only []
        rw [ih s1 r out c]
        constructor
        · rintro (⟨h1, sl, h2, h3, h4⟩ | ⟨h1, k, hk, sk, h2, h3, h4, h5⟩)
          · exact Or.inl ⟨h1, sl, by simp only [decompress_rounds, hstep]; exact h2, h3, h4⟩
          · exact Or.inr ⟨h1, k + 1, by omega, sk, by simp only [decompress_rounds, hstep]; exact h2, h3, h4, h5⟩
        · rintro (⟨h1, sl, h2, h3, h4⟩ | ⟨h1, k, hk, sk, h2, h3, h4, h5⟩)
          · simp only [decompress_rounds, hstep] at h2
            exact Or.inl ⟨h1, sl, h2, h3, h4⟩
          · cases k with
            | zero =>
              simp only [decompress_rounds] at h2
              rw [← Option.some.inj h2, hstep] at h3
              exact absurd h3 (by simp)
            | succ k =>
              simp only [decompress_rounds, hstep] at h2
              exact Or.inr ⟨h1, k, by omega, sk, h2, h3, h4, h5⟩

/-- The frequency search ends, and it ends with a `value` that is not negative
exactly when it ran past the end of the table: when the `value` it started from
is at least the sum of the frequencies still ahead (frequencies not negative). -/
theorem decompress_search_spec (coder : rangecoder) (idx : Nat) (hin : idx + coder.symbols ≤ coder.fsize)
    (hf : ∀ t, t < coder.symbols → 0 ≤ coder.freqs (idx + t)) : ∀ (n : Nat) (value : Int) (i : Nat),
    i + n = coder.symbols →
    ∃ v j, decompress_search coder idx n value i = some (v, j) ∧
      (0 ≤ v ↔ (∑ t ∈ Finset.range n, coder.freqs (idx + (i + t))) ≤ value) := by
  intro n
  induction n with
  | zero =>
    intro value i _
    exact ⟨value, i, rfl, by simp⟩
  | succ n ih =>
    intro value i hi
    have hsum : ∑ t ∈ Finset.range (n + 1), coder.freqs (idx + (i + t)) =
        coder.freqs (idx + i) + ∑ t ∈ Finset.range n, coder.freqs (idx + (i + 1 + t)) := by
      rw [Finset.sum_range_succ', Nat.add_zero, add_comm]
      congr 1
      apply Finset.sum_congr rfl
      intro t _
      congr 2
      omega
    have hnn : 0 ≤ ∑ t ∈ Finset.range n, coder.freqs (idx + (i + 1 + t)) := by
      apply Finset.sum_nonneg
      intro t ht
      have := Finset.mem_range.mp ht
      have h2 := hf (i + 1 + t) (by omega)
      exact h2
    have hfi := hf i (by omega)
    unfold decompress_search
    by_cases hv : value ≥ 0
    · rw [if_pos ⟨hv, by omega⟩]
      have hget : tableGet coder.freqs coder.fsize ((idx : Int) + (i : Nat)) = some (coder.freqs (idx + i)) :=
        tableGet_add _ _ _ _ (by omega)
      rw [hget]
      obtain ⟨v, j, h1, h2⟩ := ih (value - coder.freqs (idx + i)) (i + 1) (by omega)
      refine ⟨v, j, h1, ?_⟩
      rw [h2, hsum]
      constructor <;> intro h <;> omega
    · rw [if_neg (fun h => hv h.1)]
      refine ⟨value, i, rfl, ?_⟩
      rw [hsum]
      constructor <;> intro h <;> omega

/-- What a call of `rangecoder_create` returns when the arithmetic on `int` is
defined and the three allocations succeed. -/
theorem create_with_some (alloc : Nat → Bool) (order bits : Int) (ho : 0 ≤ order) (hb : 0 ≤ bits)
    (hint : order < 2147483647) (hfit : bits * (order + 1) ≤ 30)
    (h0 : alloc 0 = true) (h1 : alloc 1 = true) (h2 : alloc 2 = true) :
    rangecoder_create_with alloc order bits =
      some (some
        { order := order.toNat
          bits := bits.toNat
          symbols := 1 <<< bits.toNat
          fsize := 1 <<< (bits.toNat * (order.toNat + 1))
          tsize := 1 <<< (bits.toNat * order.toNat)
          freqs := fun _ => 1
          totals := fun _ => ((1 <<< bits.toNat : Nat) : Int) }) := by
  unfold rangecoder_create_with
  rw [if_neg (by omega), if_neg (by rw [h0]; simp), if_neg (by omega), if_neg (by rw [h1]; simp),
    if_neg (by rw [h2]; simp)]

/-- The calls of `rangecoder_create` whose size `1<<(bits*(order+1))` does not fit
the `int` have no defined result once the struct is allocated. -/
theorem create_with_wide (alloc : Nat → Bool) (order bits : Int) (ho : 0 ≤ order) (h0 : alloc 0 = true)
    (hwide : 30 < bits * (order + 1)) : rangecoder_create_with alloc order bits = none := by
  unfold rangecoder_create_with
  rw [if_neg (by omega), if_neg (by rw [h0]; simp), if_pos (Or.inr (Or.inr hwide))]

theorem create_with_coder (alloc : Nat → Bool) (order bits : Int) (c : rangecoder)
    (h : rangecoder_create_with alloc order bits = some (some c)) :
    0 ≤ order ∧ 0 ≤ bits ∧ order < 2147483647 ∧ bits * (order + 1) ≤ 30 ∧
    alloc 0 = true ∧ alloc 1 = true ∧ alloc 2 = true ∧
    c = { order := order.toNat
          bits := bits.toNat
          symbols := 1 <<< bits.toNat
          fsize := 1 <<< (bits.toNat * (order.toNat + 1))
          tsize := 1 <<< (bits.toNat * order.toNat)
          freqs := fun _ => 1
          totals := fun _ => ((1 <<< bits.toNat : Nat) : Int) } := by
  unfold rangecoder_create_with at h
  split at h
  · exact absurd h (by simp)
  · split at h
    · exact absurd h (by simp)
    · split at h
      · exact absurd h (by simp)
      · split at h
        · exact absurd h (by simp)
        · split at h
          · exact absurd h (by simp)
          · rename_i n1 n2 n3 n4 n5
            refine ⟨by omega, by omega, by omega, by omega, by simpa using n2, by simpa using n4,
              by simpa using n5, ?_⟩
            exact (Option.some.inj (Option.some.inj h)).symm

theorem create_some (order bits : Int) (ho : 0 ≤ order) (hb : 0 ≤ bits)
    (hint : order < 2147483647) (hfit : bits * (order + 1) ≤ 30) :
    rangecoder_create order bits =
      some
        { order := order.toNat
          bits := bits.toNat
          symbols := 1 <<< bits.toNat
          fsize := 1 <<< (bits.toNat * (order.toNat + 1))
          tsize := 1 <<< (bits.toNat * order.toNat)
          freqs := fun _ => 1
          totals := fun _ => ((1 <<< bits.toNat : Nat) : Int) } := by
  unfold rangecoder_create
  rw [create_with_some _ order bits ho hb hint hfit rfl rfl rfl]

/-- The coder that `rangecoder_create` returns, for a `bits` that is not
negative: the parameters are in the range of the `int` arithmetic, and the coder
holds the sizes `1<<bits`, `1<<(bits*(order+1))`, `1<<(bits*order)`, every
`freqs[i] = 1` and every `totals[i] = symbols`. -/
theorem create_eq (order : Int) (bits : Nat) (c : rangecoder) (h : rangecoder_create order bits = some c) :
    0 ≤ order ∧ bits * (order.toNat + 1) ≤ 30 ∧
    c = { order := order.toNat
          bits := bits
          symbols := 1 <<< bits
          fsize := 1 <<< (bits * (order.toNat + 1))
          tsize := 1 <<< (bits * order.toNat)
          freqs := fun _ => 1
          totals := fun _ => ((1 <<< bits : Nat) : Int) } := by
  unfold rangecoder_create at h
  split at h
  · rename_i c1 hc1
    obtain ⟨h1, _, _, h4, _, _, _, h8⟩ := create_with_coder _ _ _ _ hc1
    have hc : c = c1 := (Option.some.inj h).symm
    rw [hc, h8, Int.toNat_ofNat]
    refine ⟨h1, ?_, rfl⟩
    have : ((bits * (order.toNat + 1) : Nat) : Int) ≤ 30 := by
      push_cast
      rw [Int.toNat_of_nonneg h1]
      exact h4
    exact_mod_cast this
  · exact absurd h (by simp)

theorem create_fields (order : Int) (bits : Nat) (c : rangecoder) (h : rangecoder_create order bits = some c) :
    c.order = order.toNat ∧ c.bits = bits := by
  obtain ⟨_, _, hc⟩ := create_eq order bits c h
  rw [hc]
  exact ⟨rfl, rfl⟩

theorem tablesOK_create (order : Int) (bits : Nat) (c : rangecoder) (hb : bits ≤ 8)
    (h : rangecoder_create order bits = some c) : TablesOK c := by
  obtain ⟨_, _, hc⟩ := create_eq order bits c h
  · subst hc
    have h256 : (2 : Nat) ^ bits ≤ 2 ^ 8 := Nat.pow_le_pow_right (by norm_num) hb
    refine ⟨⟨by simp [Nat.shiftLeft_eq], by simp [Nat.shiftLeft_eq], by simp [Nat.shiftLeft_eq]⟩, hb,
      ⟨fun i _ => le_refl _, fun ctx _ => ?_⟩, fun ctx _ => ?_⟩
    · simp [blockSum, Nat.shiftLeft_eq]
    · show ((1 <<< bits : Nat) : Int) < 0xFFFF
      rw [Nat.shiftLeft_eq, one_mul]
      have : ((2 ^ bits : Nat) : Int) ≤ 256 := by exact_mod_cast h256
      omega

theorem tablesOK_reset (c : rangecoder) (hs : Sized c) (hb : c.bits ≤ 8) : TablesOK (rangecoder_reset c) := by
  have hm := symbols_le hs hb
  refine ⟨hs, hb, ⟨fun i hi => ?_, fun ctx hctx => ?_⟩, fun ctx hctx => ?_⟩
  · have hi2 : i < c.fsize := hi
    simp [rangecoder_reset, hi2]
  · have hctx2 : ctx < c.tsize := hctx
    have hall : ∀ s ∈ Finset.range c.symbols,
        (rangecoder_reset c).freqs (ctx * c.symbols + s) = 1 := by
      intro s hmem
      have := block_index_lt hs hctx2 (Finset.mem_range.mp hmem)
      simp [rangecoder_reset, this]
    show (rangecoder_reset c).totals ctx = ∑ s ∈ Finset.range c.symbols, (rangecoder_reset c).freqs (ctx * c.symbols + s)
    rw [Finset.sum_congr rfl hall]
    simp [rangecoder_reset, hctx2]
  · have hctx2 : ctx < c.tsize := hctx
    show (rangecoder_reset c).totals ctx < 0xFFFF
    simp only [rangecoder_reset, hctx2, if_true]
    have : (c.symbols : Int) ≤ 256 := by exact_mod_cast hm
    omega

theorem getByte_dropLast_append (input : List Nat) :
    getByte input.dropLast = getByte (input.dropLast ++ [0]) := by
  funext pos
  unfold getByte
  by_cases h : pos < input.dropLast.length
  · rw [List.getD_append _ _ _ _ h]
  · have h1 : input.dropLast.length ≤ pos := Nat.le_of_not_lt h
    rw [List.getD_eq_default _ _ h1, List.getD_append_right _ _ _ _ h1]
    cases pos - input.dropLast.length <;> rfl

/-! ## Properties of the tile cache -/

theorem fletcher16_lt (data : List Nat) (length : Int) : fletcher16 data length < indexsize := by
  unfold fletcher16
  have key : ∀ (l : List Nat) (s : Nat × Nat), s.1 < 256 → s.2 < 256 →
      (l.foldl fletcher16_step s).1 < 256 ∧ (l.foldl fletcher16_step s).2 < 256 := by
    intro l
    induction l with
    | nil => intro s h1 h2; exact ⟨h1, h2⟩
    | cons b l ih =>
      intro s _ _
      rw [List.foldl_cons]
      exact ih _ (Nat.mod_lt _ (by norm_num)) (Nat.mod_lt _ (by norm_num))
  obtain ⟨h1, h2⟩ := key (data.take length.toNat) (0, 0) (by norm_num) (by norm_num)
  show _ ||| _ < 2 ^ 16
  apply Nat.or_lt_two_pow
  · rw [Nat.shiftLeft_eq]; omega
  · omega

theorem scanTest_eq (t : tile) (temp : List Nat) (size : Int) (h0 : 0 ≤ size) :
    scanTest t temp size = some (decide (Matches t temp size)) := by
  unfold scanTest Matches memcmp_eq
  by_cases h : t.present = true ∧ t.size = size
  · rw [if_pos h, if_neg (by omega)]
    simp [h.1, h.2]
  · rw [if_neg h]
    have : ¬ (t.present = true ∧ t.size = size ∧ List.take size.toNat temp = List.take size.toNat t.data) :=
      fun hh => h ⟨hh.1, hh.2.1⟩
    simp [this]

theorem scan_spec (c : tilecache) (temp : List Nat) (size : Int) (h0 : 0 ≤ size) : ∀ n i,
    (scan c temp size n i = some none ∧ ∀ j, i ≤ j → j < i + n → ¬ Matches (c.tiles j) temp size) ∨
    (∃ r, scan c temp size n i = some (some r) ∧ i ≤ r ∧ r < i + n ∧ Matches (c.tiles r) temp size ∧
      ∀ j, i ≤ j → j < r → ¬ Matches (c.tiles j) temp size) := by
  intro n
  induction n with
  | zero => intro i; left; exact ⟨rfl, fun j h1 h2 => by omega⟩
  | succ n ih =>
    intro i
    by_cases hm : Matches (c.tiles i) temp size
    · right
      refine ⟨i, ?_, le_refl _, by omega, hm, fun j h1 h2 => by omega⟩
      rw [scan, scanTest_eq _ _ _ h0]
      simp [hm]
    · have hstep : scan c temp size (n + 1) i = scan c temp size n (i + 1) := by
        rw [scan, scanTest_eq _ _ _ h0]
        simp [hm]
      rcases ih (i + 1) with ⟨h1, h2⟩ | ⟨r, h1, h2, h3, h4, h5⟩
      · left
        refine ⟨hstep.trans h1, fun j hj1 hj2 => ?_⟩
        by_cases hji : j = i
        · subst hji; exact hm
        · exact h2 j (by omega) (by omega)
      · right
        refine ⟨r, hstep.trans h1, by omega, by omega, h4, fun j hj1 hj2 => ?_⟩
        by_cases hji : j = i
        · subst hji; exact hm
        · exact h5 j (by omega) hj2

theorem isChain_mem_lt {tiles : Nat → tile} {size : Nat} : ∀ {l : List Nat} {start : Int},
    IsChain tiles size start l → ∀ i ∈ l, i < size := by
  intro l
  induction l with
  | nil => intro _ _ i hi; exact absurd hi (List.not_mem_nil _)
  | cons x xs ih =>
    intro start h i hi
    obtain ⟨_, hx, hrest⟩ := h
    rcases List.mem_cons.mp hi with h1 | h1
    · rw [h1]; exact hx
    · exact ih hrest i h1

theorem isChain_congr {tiles tiles' : Nat → tile} {size : Nat} : ∀ {l : List Nat} {start : Int},
    (∀ i ∈ l, (tiles' i).next = (tiles i).next) → IsChain tiles size start l → IsChain tiles' size start l := by
  intro l
  induction l with
  | nil => intro _ _ h; exact h
  | cons x xs ih =>
    intro start hn h
    obtain ⟨h1, hx, hrest⟩ := h
    refine ⟨h1, hx, ?_⟩
    rw [hn x (List.mem_cons_self _ _)]
    exact ih (fun i hi => hn i (List.mem_cons_of_mem _ hi)) hrest

theorem isChain_head_ne {tiles : Nat → tile} {size : Nat} {start : Int} {l : List Nat}
    (h : IsChain tiles size start l) : start = -1 ↔ l = [] := by
  cases l with
  | nil => exact ⟨fun _ => rfl, fun _ => h⟩
  | cons x xs =>
    obtain ⟨h1, _, _⟩ := h
    constructor
    · intro h2; omega
    · intro h2; exact absurd h2 (List.cons_ne_nil _ _)

theorem nodup_length_le {l : List Nat} {n : Nat} (hn : l.Nodup) (hl : ∀ i ∈ l, i < n) : l.length ≤ n := by
  have h1 : l.toFinset ⊆ Finset.range n := by
    intro i hi
    rw [List.mem_toFinset] at hi
    exact Finset.mem_range.mpr (hl i hi)
  have h2 := Finset.card_le_card h1
  rw [List.toFinset_card_of_nodup hn, Finset.card_range] at h2
  exact h2

theorem predOf_mem (index : Nat) : ∀ (l : List Nat) (j : Nat), predOf index j l ∈ j :: l := by
  intro l
  induction l with
  | nil => intro j; simp [predOf]
  | cons x xs ih =>
    intro j
    unfold predOf
    split_ifs
    · exact List.mem_cons_self _ _
    · exact List.mem_cons_of_mem _ (ih x)

theorem chain_unlink {tiles : Nat → tile} {size index : Nat} : ∀ (rest : List Nat) (j : Nat) (start : Int),
    IsChain tiles size start (j :: rest) → (j :: rest).Nodup → index ∈ rest →
    IsChain (Function.update tiles (predOf index j rest)
      { tiles (predOf index j rest) with next := (tiles index).next }) size start (j :: rest.erase index) := by
  intro rest
  induction rest with
  | nil => intro j start _ _ h; exact absurd h (List.not_mem_nil _)
  | cons x xs ih =>
    intro j start hc hn hmem
    obtain ⟨h1, hj, h2, hx, hrest⟩ := hc
    have hjn : j ∉ x :: xs := (List.nodup_cons.mp hn).1
    have hxn : x ∉ xs := (List.nodup_cons.mp (List.nodup_cons.mp hn).2).1
    by_cases hxi : x = index
    · subst hxi
      have hp : predOf x j (x :: xs) = j := by simp [predOf]
      rw [hp, List.erase_cons_head]
      refine ⟨h1, hj, ?_⟩
      rw [Function.update_same]
      refine isChain_congr (fun i hi => ?_) hrest
      have : i ≠ j := fun h => hjn (by rw [← h]; exact List.mem_cons_of_mem _ hi)
      rw [Function.update_noteq this]
    · have hp : predOf index j (x :: xs) = predOf index x xs := by simp [predOf, hxi]
      have hmem' : index ∈ xs := by
        rcases List.mem_cons.mp hmem with h | h
        · exact absurd h.symm hxi
        · exact h
      have hpm := predOf_mem index xs x
      have hpj : j ≠ predOf index x xs := fun h => hjn (by rw [h]; exact hpm)
      rw [hp, List.erase_cons_tail (by simpa using hxi)]
      refine ⟨h1, hj, ?_⟩
      rw [Function.update_noteq hpj]
      exact ih x (tiles j).next ⟨h2, hx, hrest⟩ (List.nodup_cons.mp hn).2 hmem'

theorem unlink_walk_spec {size index : Nat} (tiles : Nat → tile) : ∀ (rest : List Nat) (fuel j : Nat) (cur : Int),
    IsChain tiles size cur rest → index ∈ rest → rest.length ≤ fuel →
    unlink_walk size index fuel tiles j cur =
      some (Function.update tiles (predOf index j rest)
        { tiles (predOf index j rest) with next := (tiles index).next }) := by
  intro rest
  induction rest with
  | nil => intro _ _ _ _ h; exact absurd h (List.not_mem_nil _)
  | cons x xs ih =>
    intro fuel j cur hc hmem hlen
    obtain ⟨h1, hx, hrest⟩ := hc
    cases fuel with
    | zero => simp at hlen
    | succ f =>
      have hne : ¬ (cur = -1) := by omega
      unfold unlink_walk
      rw [if_neg hne]
      by_cases hxi : x = index
      · subst hxi
        rw [if_pos h1]
        simp [predOf]
      · have hci : ¬ (cur = (index : Int)) := by omega
        rw [if_neg hci, if_pos (by omega)]
        have hto : cur.toNat = x := by omega
        rw [hto]
        have hmem' : index ∈ xs := by
          rcases List.mem_cons.mp hmem with h | h
          · exact absurd h.symm hxi
          · exact h
        rw [ih f x (tiles x).next hrest hmem' (by simpa using hlen)]
        simp [predOf, hxi]

theorem unlink_spec (c : tilecache) (hb : BucketInv c) (hidx : c.index < c.size) :
    ∃ c2, unlink c = some c2 ∧ c2.size = c.size ∧ c2.blocksize = c.blocksize ∧ c2.index = c.index ∧
      c2.numblocks = c.numblocks ∧ c2.hits = c.hits ∧ c2.tempdata = c.tempdata ∧
      (∀ i, (c2.tiles i).present = (c.tiles i).present ∧ (c2.tiles i).size = (c.tiles i).size ∧
        (c2.tiles i).hash = (c.tiles i).hash ∧ (c2.tiles i).data = (c.tiles i).data) ∧
      (∀ h, c2.tileindex h =
        if (c.tiles c.index).present = true ∧ (c.tiles c.index).hash = h ∧ c.tileindex h = (c.index : Int)
        then (c.tiles c.index).next else c.tileindex h) ∧
      (∀ h, h < indexsize → ∃ l, IsChain c2.tiles c.size (c2.tileindex h) l ∧ l.Nodup ∧
        ∀ i, i ∈ l ↔ (i < c.size ∧ i ≠ c.index ∧ (c.tiles i).present = true ∧ (c.tiles i).hash = h)) := by
  obtain ⟨hhash, hchain⟩ := hb
  by_cases hp : (c.tiles c.index).present = true
  · -- the entry is present: it sits in the chain of its hash
    have hh0 := hhash c.index hidx hp
    obtain ⟨l0, hc0, hn0, hm0⟩ := hchain _ hh0
    have hin0 : c.index ∈ l0 := (hm0 c.index).mpr ⟨hidx, hp, rfl⟩
    cases l0 with
    | nil => exact absurd hin0 (List.not_mem_nil _)
    | cons x rest =>
      obtain ⟨hx1, hxs, hrest⟩ := hc0
      by_cases hxi : x = c.index
      · -- head of the chain
        subst hxi
        have hun : unlink c = some
            { c with
              tileindex := Function.update c.tileindex (c.tiles c.index).hash (c.tiles c.index).next } := by
          unfold unlink
          rw [if_pos hp]
          simp only [hx1, if_true]
        refine ⟨_, hun, rfl, rfl, rfl, rfl, rfl, rfl, fun i => ⟨rfl, rfl, rfl, rfl⟩, ?_, ?_⟩
        · intro h
          show Function.update c.tileindex _ _ h = _
          by_cases hh : h = (c.tiles c.index).hash
          · subst hh
            rw [Function.update_same, if_pos ⟨hp, rfl, hx1⟩]
          · rw [Function.update_noteq hh, if_neg (fun hc => hh hc.2.1.symm)]
        · intro h hlt
          show ∃ l, IsChain c.tiles c.size (Function.update c.tileindex _ _ h) l ∧ _
          by_cases hh : h = (c.tiles c.index).hash
          · subst hh
            rw [Function.update_same]
            refine ⟨rest, hrest, (List.nodup_cons.mp hn0).2, fun i => ?_⟩
            have hni : c.index ∉ rest := (List.nodup_cons.mp hn0).1
            constructor
            · intro hi
              have := (hm0 i).mp (List.mem_cons_of_mem _ hi)
              exact ⟨this.1, fun h => hni (h ▸ hi), this.2⟩
            · rintro ⟨h1, h2, h3⟩
              rcases List.mem_cons.mp ((hm0 i).mpr ⟨h1, h3⟩) with h | h
              · exact absurd h h2
              · exact h
          · rw [Function.update_noteq hh]
            obtain ⟨l, hc, hn, hm⟩ := hchain h hlt
            refine ⟨l, hc, hn, fun i => ?_⟩
            rw [hm i]
            constructor
            · rintro ⟨h1, h2, h3⟩
              exact ⟨h1, fun he => hh (by rw [← h3, he]), h2, h3⟩
            · rintro ⟨h1, _, h2, h3⟩
              exact ⟨h1, h2, h3⟩
      · -- behind the head: walk
        have hin : c.index ∈ rest := by
          rcases List.mem_cons.mp hin0 with h | h
          · exact absurd h.symm hxi
          · exact h
        have hlen : rest.length ≤ c.size := by
          have := nodup_length_le hn0 (isChain_mem_lt (show IsChain c.tiles c.size (c.tileindex (c.tiles c.index).hash) (x :: rest) from ⟨hx1, hxs, hrest⟩))
          simp at this
          omega
        have hwalk := @unlink_walk_spec c.size c.index c.tiles rest c.size x
          (c.tiles x).next hrest hin hlen
        have hun : unlink c = some
            { c with
              tiles := Function.update c.tiles (predOf c.index x rest)
                { c.tiles (predOf c.index x rest) with next := (c.tiles c.index).next } } := by
          unfold unlink
          rw [if_pos hp]
          have hne : ¬ (c.tileindex (c.tiles c.index).hash = (c.index : Int)) := by omega
          have hto : (c.tileindex (c.tiles c.index).hash).toNat = x := by omega
          simp only [hne, if_false]
          rw [if_pos (by omega), hto, hwalk]
        have hpm : predOf c.index x rest ∈ x :: rest := predOf_mem _ _ _
        have hpp := (hm0 _).mp hpm
        refine ⟨_, hun, rfl, rfl, rfl, rfl, rfl, rfl, fun i => ?_, ?_, ?_⟩
        · dsimp only
          by_cases hi : i = predOf c.index x rest
          · rw [hi, Function.update_same]; exact ⟨rfl, rfl, rfl, rfl⟩
          · rw [Function.update_noteq hi]; exact ⟨rfl, rfl, rfl, rfl⟩
        · intro h
          show c.tileindex h = _
          rw [if_neg]
          rintro ⟨_, h2, h3⟩
          subst h2
          omega
        · intro h hlt
          show ∃ l, IsChain (Function.update c.tiles _ _) c.size (c.tileindex h) l ∧ _
          by_cases hh : h = (c.tiles c.index).hash
          · subst hh
            have hcu := @chain_unlink c.tiles c.size c.index rest x
              (c.tileindex (c.tiles c.index).hash) ⟨hx1, hxs, hrest⟩ hn0 hin
            have he : x :: rest.erase c.index = (x :: rest).erase c.index := by
              rw [List.erase_cons_tail (by simpa using hxi)]
            refine ⟨x :: rest.erase c.index, hcu, by rw [he]; exact hn0.erase _, fun i => ?_⟩
            rw [he, hn0.mem_erase_iff, hm0 i]
            constructor
            · rintro ⟨h1, h2, h3⟩; exact ⟨h2, h1, h3⟩
            · rintro ⟨h1, h2, h3⟩; exact ⟨h2, h1, h3⟩
          · obtain ⟨l, hc, hn, hm⟩ := hchain h hlt
            have hpl : predOf c.index x rest ∉ l := fun hmem => hh (by rw [← ((hm _).mp hmem).2.2, hpp.2.2])
            refine ⟨l, isChain_congr (fun i hi => ?_) hc, hn, fun i => ?_⟩
            · have : i ≠ predOf c.index x rest := fun he => hpl (he ▸ hi)
              rw [Function.update_noteq this]
            · rw [hm i]
              constructor
              · rintro ⟨h1, h2, h3⟩
                exact ⟨h1, fun he => hh (by rw [← h3, he]), h2, h3⟩
              · rintro ⟨h1, _, h2, h3⟩
                exact ⟨h1, h2, h3⟩
  · -- absent: nothing to unlink
    have hun : unlink c = some c := by
      unfold unlink
      rw [if_neg hp]
    refine ⟨c, hun, rfl, rfl, rfl, rfl, rfl, rfl, fun i => ⟨rfl, rfl, rfl, rfl⟩, ?_, ?_⟩
    · intro h
      rw [if_neg (fun hc => hp hc.1)]
    · intro h hlt
      obtain ⟨l, hc, hn, hm⟩ := hchain h hlt
      refine ⟨l, hc, hn, fun i => ?_⟩
      rw [hm i]
      constructor
      · rintro ⟨h1, h2, h3⟩
        exact ⟨h1, fun he => hp (he ▸ h2), h2, h3⟩
      · rintro ⟨h1, _, h2, h3⟩
        exact ⟨h1, h2, h3⟩

theorem rectPixels_length (pixels : Int → Nat) (x1 x2 y1 y2 width : Int) (mask : Nat) :
    (rectPixels pixels x1 x2 y1 y2 width mask).length = (y2 - y1).toNat * (x2 - x1).toNat := by
  unfold rectPixels
  generalize (y2 - y1).toNat = h
  induction h with
  | zero => simp
  | succ n ih =>
    rw [List.range_succ, List.flatMap_append, List.length_append, ih]
    simp
    ring

theorem callSize_toNat {x1 x2 y1 y2 : Int} (hx : x1 ≤ x2) (hy : y1 ≤ y2) :
    (callSize x1 x2 y1 y2).toNat = (y2 - y1).toNat * (x2 - x1).toNat ∧ 0 ≤ callSize x1 x2 y1 y2 := by
  unfold callSize
  have h1 : 0 ≤ x2 - x1 := by omega
  have h2 : 0 ≤ y2 - y1 := by omega
  obtain ⟨a, ha⟩ := Int.eq_ofNat_of_zero_le h1
  obtain ⟨b, hb⟩ := Int.eq_ofNat_of_zero_le h2
  rw [ha, hb]
  constructor
  · have : ((a : Int) * (b : Int)) = ((b * a : Nat) : Int) := by push_cast; ring
    rw [this, Int.toNat_ofNat, Int.toNat_ofNat, Int.toNat_ofNat]
  · positivity

theorem bytesOf_length (ps : List Nat) : (bytesOf ps).length = 4 * ps.length := by
  unfold bytesOf
  induction ps with
  | nil => rfl
  | cons p ps ih =>
    rw [List.flatMap_cons, List.length_append, ih]
    simp [pixelBytes]
    omega

theorem scratchTile_length (bs : Nat) (rect : List Nat) (h : rect.length ≤ bs * bs) :
    (scratchTile bs rect).length = bs * bs := by
  unfold scratchTile
  simp
  omega

theorem take_memcpy (dst src : List Nat) (n m : Nat) (hnm : n ≤ m) (hm : m ≤ src.length) :
    (memcpy dst src m).take n = src.take n := by
  unfold memcpy
  rw [List.take_append_of_le_length (by rw [List.length_take]; omega), List.take_take]
  congr 1
  omega

theorem scan_congr (c1 c : tilecache) (temp : List Nat) (size : Int) (h : c1.tiles = c.tiles) : ∀ n i,
    scan c1 temp size n i = scan c temp size n i := by
  intro n
  induction n with
  | zero => intro i; rfl
  | succ n ih =>
    intro i
    rw [scan, scan, h, ih]

/-- For a rect that fits a block the guards of `tilecache_write` pass, and the call is its scan followed by the hit or the miss branch. -/
theorem write_unfold (c : tilecache) (pixels : Int → Nat) (x1 x2 y1 y2 width : Int) (mask : Nat)
    (hfit : FitsBlock c x1 x2 y1 y2) :
    tilecache_write c pixels x1 x2 y1 y2 width mask =
      match scan c (callTemp c pixels x1 x2 y1 y2 width mask) (callSize x1 x2 y1 y2) c.size 0 with
      | none => none
      | some (some i) => some ((i : Int),
          { c with numblocks := c.numblocks + 1
                   tempdata := scratchTile c.blocksize (rectPixels pixels x1 x2 y1 y2 width mask)
                   hits := c.hits + 1 })
      | some none =>
        if c.size = 0 then none
        else
          match unlink { c with numblocks := c.numblocks + 1
                                tempdata := scratchTile c.blocksize (rectPixels pixels x1 x2 y1 y2 width mask)
                                index := (c.index + 1) % c.size } with
          | none => none
          | some c2 =>
            some (-1,
              { c2 with
                tiles := Function.update c2.tiles c2.index
                  { present := true, size := callSize x1 x2 y1 y2,
                    hash := fletcher16 (callTemp c pixels x1 x2 y1 y2 width mask)
                      ((pixelSize : Int) * callSize x1 x2 y1 y2),
                    next := c2.tileindex (fletcher16 (callTemp c pixels x1 x2 y1 y2 width mask)
                      ((pixelSize : Int) * callSize x1 x2 y1 y2)),
                    data := memcpy (c2.tiles c2.index).data (callTemp c pixels x1 x2 y1 y2 width mask)
                      (c2.blocksize * c2.blocksize) }
                tileindex := Function.update c2.tileindex
                  (fletcher16 (callTemp c pixels x1 x2 y1 y2 width mask)
                    ((pixelSize : Int) * callSize x1 x2 y1 y2)) (c2.index : Int) }) := by
  obtain ⟨hx, hy, hsz⟩ := hfit
  have hlen := rectPixels_length pixels x1 x2 y1 y2 width mask
  obtain ⟨hto, h0⟩ := callSize_toNat hx hy
  have hsz' : callSize x1 x2 y1 y2 ≤ ((c.blocksize * c.blocksize : Nat) : Int) := hsz
  have h1 : ¬ ((rectPixels pixels x1 x2 y1 y2 width mask).length > c.blocksize * c.blocksize) := by
    rw [hlen, ← hto]; omega
  have h2 : ¬ ((x2 - x1) * (y2 - y1) > ((c.blocksize * c.blocksize : Nat) : Int)) := by
    unfold callSize at hsz'; omega
  unfold tilecache_write
  simp only [h1, h2, if_false]
  rw [scan_congr { c with numblocks := c.numblocks + 1
                          tempdata := scratchTile c.blocksize (rectPixels pixels x1 x2 y1 y2 width mask) }
    c _ _ rfl]
  rfl

theorem write_hit (c : tilecache) (pixels : Int → Nat) (x1 x2 y1 y2 width : Int) (mask : Nat)
    (hfit : FitsBlock c x1 x2 y1 y2) (r : Nat) (hr : r < c.size)
    (hm : Matches (c.tiles r) (callTemp c pixels x1 x2 y1 y2 width mask) (callSize x1 x2 y1 y2))
    (hfirst : ∀ j, j < r → ¬ Matches (c.tiles j) (callTemp c pixels x1 x2 y1 y2 width mask) (callSize x1 x2 y1 y2)) :
    tilecache_write c pixels x1 x2 y1 y2 width mask = some ((r : Int),
      { c with numblocks := c.numblocks + 1
               tempdata := scratchTile c.blocksize (rectPixels pixels x1 x2 y1 y2 width mask)
               hits := c.hits + 1 }) := by
  have h0 := (callSize_toNat hfit.1 hfit.2.1).2
  rw [write_unfold c pixels x1 x2 y1 y2 width mask hfit]
  rcases scan_spec c (callTemp c pixels x1 x2 y1 y2 width mask) (callSize x1 x2 y1 y2) h0 c.size 0 with
    ⟨_, h2⟩ | ⟨r', h1, _, h3, h4, h5⟩
  · exact absurd hm (h2 r (Nat.zero_le _) (by omega))
  · have hrr : r' = r := by
      rcases Nat.lt_trichotomy r' r with h | h | h
      · exact absurd h4 (hfirst r' h)
      · exact h
      · exact absurd hm (h5 r (Nat.zero_le _) h)
    subst hrr
    rw [h1]

theorem unlink_unlinked (c : tilecache) (hb : BucketInv c) (hidx : c.index < c.size) :
    ∃ c2, unlink c = some c2 ∧ Unlinked c c2 := by
  obtain ⟨c2, h, h1, h2, h3, h4, h5, h6, h7, h8, h9⟩ := unlink_spec c hb hidx
  exact ⟨c2, h, ⟨h1, h2, h3, h4, h5, h6, h7, h8, h9⟩⟩

theorem write_miss (c : tilecache) (pixels : Int → Nat) (x1 x2 y1 y2 width : Int) (mask : Nat)
    (hb : BucketInv c) (hpos : 1 ≤ c.size) (hfit : FitsBlock c x1 x2 y1 y2)
    (hno : ∀ j, j < c.size → ¬ Matches (c.tiles j) (callTemp c pixels x1 x2 y1 y2 width mask) (callSize x1 x2 y1 y2)) :
    ∃ c2, unlink { c with numblocks := c.numblocks + 1
                          tempdata := scratchTile c.blocksize (rectPixels pixels x1 x2 y1 y2 width mask)
                          index := (c.index + 1) % c.size } = some c2 ∧
      Unlinked { c with numblocks := c.numblocks + 1
                        tempdata := scratchTile c.blocksize (rectPixels pixels x1 x2 y1 y2 width mask)
                        index := (c.index + 1) % c.size } c2 ∧
      tilecache_write c pixels x1 x2 y1 y2 width mask = some (-1,
        { c2 with
          tiles := Function.update c2.tiles c2.index
            { present := true, size := callSize x1 x2 y1 y2,
              hash := fletcher16 (callTemp c pixels x1 x2 y1 y2 width mask)
                ((pixelSize : Int) * callSize x1 x2 y1 y2),
              next := c2.tileindex (fletcher16 (callTemp c pixels x1 x2 y1 y2 width mask)
                ((pixelSize : Int) * callSize x1 x2 y1 y2)),
              data := memcpy (c2.tiles c2.index).data (callTemp c pixels x1 x2 y1 y2 width mask)
                (c2.blocksize * c2.blocksize) }
          tileindex := Function.update c2.tileindex
            (fletcher16 (callTemp c pixels x1 x2 y1 y2 width mask)
              ((pixelSize : Int) * callSize x1 x2 y1 y2)) (c2.index : Int) }) := by
  have h0 := (callSize_toNat hfit.1 hfit.2.1).2
  have hidx : (c.index + 1) % c.size < c.size := Nat.mod_lt _ (by omega)
  obtain ⟨c2, hun, hunl⟩ := unlink_unlinked { c with
      numblocks := c.numblocks + 1
      tempdata := scratchTile c.blocksize (rectPixels pixels x1 x2 y1 y2 width mask)
      index := (c.index + 1) % c.size } hb hidx
  refine ⟨c2, hun, hunl, ?_⟩
  rw [write_unfold c pixels x1 x2 y1 y2 width mask hfit]
  rcases scan_spec c (callTemp c pixels x1 x2 y1 y2 width mask) (callSize x1 x2 y1 y2) h0 c.size 0 with
    ⟨h1, _⟩ | ⟨r', _, _, h3, h4, _⟩
  · rw [h1]
    simp only []
    rw [if_neg (by omega), hun]
  · exact absurd h4 (hno r' (by omega))

theorem write_cases (c : tilecache) (pixels : Int → Nat) (x1 x2 y1 y2 width : Int) (mask : Nat)
    (hfit : FitsBlock c x1 x2 y1 y2) :
    (∀ j, j < c.size → ¬ Matches (c.tiles j) (callTemp c pixels x1 x2 y1 y2 width mask) (callSize x1 x2 y1 y2)) ∨
    ∃ r, r < c.size ∧ Matches (c.tiles r) (callTemp c pixels x1 x2 y1 y2 width mask) (callSize x1 x2 y1 y2) ∧
      ∀ j, j < r → ¬ Matches (c.tiles j) (callTemp c pixels x1 x2 y1 y2 width mask) (callSize x1 x2 y1 y2) := by
  have h0 := (callSize_toNat hfit.1 hfit.2.1).2
  rcases scan_spec c (callTemp c pixels x1 x2 y1 y2 width mask) (callSize x1 x2 y1 y2) h0 c.size 0 with
    ⟨_, h2⟩ | ⟨r', _, _, h3, h4, h5⟩
  · left; intro j hj; exact h2 j (Nat.zero_le _) (by omega)
  · right; exact ⟨r', by omega, h4, fun j hj => h5 j (Nat.zero_le _) hj⟩

theorem install_bucketInv (c c2 : tilecache) (hu : Unlinked c c2) (hb : BucketInv c) (hidx : c.index < c.size)
    (t : tile) (hp : t.present = true) (hh : t.hash < indexsize) (hn : t.next = c2.tileindex t.hash) :
    BucketInv { c2 with tiles := Function.update c2.tiles c2.index t
                        tileindex := Function.update c2.tileindex t.hash (c2.index : Int) } := by
  have hsz := hu.size_eq
  have hix := hu.index_eq
  constructor
  · intro i hi hpi
    dsimp only at hi hpi ⊢
    by_cases hic : i = c2.index
    · rw [hic, Function.update_same]; exact hh
    · rw [Function.update_noteq hic] at hpi ⊢
      rw [(hu.fields i).2.2.1]
      rw [(hu.fields i).1] at hpi
      exact hb.1 i (by rw [← hsz]; exact hi) hpi
  · intro h hlt
    dsimp only
    obtain ⟨l, hc, hn', hm⟩ := hu.chains h hlt
    have hnotin : c2.index ∉ l := fun hmem => ((hm _).mp hmem).2.1 hix
    have hc' : IsChain (Function.update c2.tiles c2.index t) c2.size (c2.tileindex h) l := by
      rw [hsz]
      refine isChain_congr (fun i hi => ?_) hc
      have : i ≠ c2.index := fun he => hnotin (he ▸ hi)
      rw [Function.update_noteq this]
    by_cases hht : h = t.hash
    · subst hht
      rw [Function.update_same]
      refine ⟨c2.index :: l, ⟨rfl, by rw [hsz, hix]; exact hidx, ?_⟩, List.nodup_cons.mpr ⟨hnotin, hn'⟩,
        fun i => ?_⟩
      · rw [Function.update_same, hn]; exact hc'
      · rw [List.mem_cons, hm i]
        by_cases hic : i = c2.index
        · rw [hic, Function.update_same]
          simp [hp, hsz, hix, hidx]
        · rw [Function.update_noteq hic, (hu.fields i).1, (hu.fields i).2.2.1, hsz]
          have : i ≠ c.index := by rw [← hix]; exact hic
          simp [hic, this]
    · rw [Function.update_noteq hht]
      refine ⟨l, hc', hn', fun i => ?_⟩
      rw [hm i]
      by_cases hic : i = c2.index
      · rw [hic, Function.update_same]
        have : t.hash ≠ h := fun he => hht he.symm
        simp [hix, this]
      · rw [Function.update_noteq hic, (hu.fields i).1, (hu.fields i).2.2.1, hsz]
        have : i ≠ c.index := by rw [← hix]; exact hic
        simp [this]

theorem install_noTwins (c c2 : tilecache) (hu : Unlinked c c2) (ht : NoTwins c)
    (t : tile) (hno : ∀ j, j < c.size → j ≠ c.index → (c.tiles j).present = true → (c.tiles j).size = t.size →
      t.data.take t.size.toNat ≠ (c.tiles j).data.take t.size.toNat) :
    NoTwins { c2 with tiles := Function.update c2.tiles c2.index t
                      tileindex := Function.update c2.tileindex t.hash (c2.index : Int) } := by
  have hsz := hu.size_eq
  have hix := hu.index_eq
  intro i j hi hj hpi hpj hs hd
  dsimp only at hi hj hpi hpj hs hd
  rw [hsz] at hi hj
  by_cases hic : i = c2.index
  · by_cases hjc : j = c2.index
    · rw [hic, hjc]
    · exfalso
      rw [hic, Function.update_same] at hs hd
      rw [Function.update_noteq hjc] at hpj hs hd
      rw [(hu.fields j).1] at hpj
      rw [(hu.fields j).2.1] at hs
      rw [(hu.fields j).2.2.2] at hd
      exact hno j hj (by rw [← hix]; exact hjc) hpj hs.symm hd
  · by_cases hjc : j = c2.index
    · exfalso
      rw [hjc, Function.update_same] at hs hd
      rw [Function.update_noteq hic] at hpi hs hd
      rw [(hu.fields i).1] at hpi
      rw [(hu.fields i).2.1] at hs
      rw [(hu.fields i).2.1, (hu.fields i).2.2.2, hs] at hd
      exact hno i hi (by rw [← hix]; exact hic) hpi hs hd.symm
    · rw [Function.update_noteq hic] at hpi hs hd
      rw [Function.update_noteq hjc] at hpj hs hd
      rw [(hu.fields i).1] at hpi
      rw [(hu.fields j).1] at hpj
      rw [(hu.fields i).2.1, (hu.fields j).2.1] at hs
      rw [(hu.fields i).2.1, (hu.fields i).2.2.2, (hu.fields j).2.2.2] at hd
      exact ht i j hi hj hpi hpj hs hd

theorem cacheInv_create (size blocksize : Nat) (h : 1 ≤ size) : CacheInv (tilecache_create size blocksize) := by
  refine ⟨h, h, ⟨fun i _ hp => ?_, fun h _ => ⟨[], rfl, List.nodup_nil, fun i => ?_⟩⟩, fun i j _ _ hp => ?_⟩
  · exact absurd hp (by simp [tilecache_create])
  · simp [tilecache_create]
  · exact absurd hp (by simp [tilecache_create])

theorem cacheInv_reset (c : tilecache) (h : 1 ≤ c.size) : CacheInv (tilecache_reset c) := by
  have habs : ∀ i, i < c.size → ((tilecache_reset c).tiles i).present = false := by
    intro i hi
    simp [tilecache_reset, hi]
  refine ⟨h, h, ⟨fun i hi hp => ?_, fun h hlt => ⟨[], ?_, List.nodup_nil, fun i => ?_⟩⟩, fun i j hi _ hp => ?_⟩
  · rw [habs i hi] at hp; exact absurd hp (by simp)
  · show (tilecache_reset c).tileindex h = -1
    simp [tilecache_reset, hlt]
  · constructor
    · intro hm; exact absurd hm (List.not_mem_nil _)
    · rintro ⟨hi, hp, _⟩
      rw [habs i hi] at hp; exact absurd hp (by simp)
  · rw [habs i hi] at hp; exact absurd hp (by simp)

theorem write_preserves (c : tilecache) (pixels : Int → Nat) (x1 x2 y1 y2 width : Int) (mask : Nat)
    (hinv : CacheInv c) (hfit : FitsBlock c x1 x2 y1 y2) :
    ∃ r c', tilecache_write c pixels x1 x2 y1 y2 width mask = some (r, c') ∧ CacheInv c' ∧
      c'.size = c.size ∧ c'.blocksize = c.blocksize := by
  rcases write_cases c pixels x1 x2 y1 y2 width mask hfit with hno | ⟨r, hr, hm, hfirst⟩
  · obtain ⟨c2, _, hunl, hw⟩ := write_miss c pixels x1 x2 y1 y2 width mask hinv.buckets hinv.size_pos hfit hno
    have hidx : (c.index + 1) % c.size < c.size := Nat.mod_lt _ (by have := hinv.size_pos; omega)
    have hsz : c2.size = c.size := hunl.size_eq
    have hbs : c2.blocksize = c.blocksize := hunl.blocksize_eq
    have hix : c2.index = (c.index + 1) % c.size := hunl.index_eq
    obtain ⟨hto, h0⟩ := callSize_toNat hfit.1 hfit.2.1
    have hlen : (callTemp c pixels x1 x2 y1 y2 width mask).length = 4 * (c.blocksize * c.blocksize) := by
      unfold callTemp
      rw [bytesOf_length, scratchTile_length]
      rw [rectPixels_length, ← hto]
      have := hfit.2.2
      unfold callSize at h0 ⊢
      omega
    have hszle : (callSize x1 x2 y1 y2).toNat ≤ c.blocksize * c.blocksize := by
      have := hfit.2.2
      unfold callSize at h0 ⊢
      omega
    refine ⟨_, _, hw, ⟨?_, ?_, ?_, ?_⟩, hsz, hbs⟩
    · show 1 ≤ c2.size
      rw [hsz]; exact hinv.size_pos
    · show c2.index < c2.size
      rw [hsz, hix]; exact hidx
    · exact install_bucketInv _ c2 hunl hinv.buckets hidx _ rfl (fletcher16_lt _ _) rfl
    · refine install_noTwins _ c2 hunl hinv.twins _ ?_
      intro j hj _ hpj hsj hd
      dsimp only at hd hsj
      rw [take_memcpy _ _ _ _ (by rw [hbs]; exact hszle) (by rw [hbs, hlen]; omega)] at hd
      exact hno j hj ⟨hpj, hsj, hd⟩
  · refine ⟨_, _, write_hit c pixels x1 x2 y1 y2 width mask hfit r hr hm hfirst, ⟨?_, ?_, ?_, ?_⟩, rfl, rfl⟩
    · exact hinv.size_pos
    · exact hinv.index_lt
    · exact hinv.buckets
    · exact hinv.twins

theorem reachable_inv (c : tilecache) (h : Reachable c) : CacheInv c := by
  induction h with
  | create size blocksize h => exact cacheInv_create size blocksize h
  | reset c _ ih => exact cacheInv_reset c ih.size_pos
  | write c pixels x1 x2 y1 y2 width mask r c' _ hfit hw ih =>
    obtain ⟨r2, c2, h1, h2, _⟩ := write_preserves c pixels x1 x2 y1 y2 width mask ih hfit
    rw [h1] at hw
    have : c2 = c' := (Prod.mk.inj (Option.some.inj hw)).2
    rw [← this]
    exact h2

theorem after_eq (c : tilecache) (pixels : Int → Nat) (x1 x2 y1 y2 width : Int) (mask : Nat) (r : Int) (c' : tilecache)
    (h : tilecache_write c pixels x1 x2 y1 y2 width mask = some (r, c')) :
    after c pixels x1 x2 y1 y2 width mask = c' ∧ returned c pixels x1 x2 y1 y2 width mask = some r := by
  unfold after returned
  rw [h]
  exact ⟨rfl, rfl⟩

theorem reachable_after (c : tilecache) (pixels : Int → Nat) (x1 x2 y1 y2 width : Int) (mask : Nat)
    (h : Reachable c) (hfit : FitsBlock c x1 x2 y1 y2) : Reachable (after c pixels x1 x2 y1 y2 width mask) := by
  obtain ⟨r, c', hw, _⟩ := write_preserves c pixels x1 x2 y1 y2 width mask (reachable_inv c h) hfit
  rw [(after_eq c pixels x1 x2 y1 y2 width mask r c' hw).1]
  exact Reachable.write c pixels x1 x2 y1 y2 width mask r c' h hfit hw

theorem bytesOf_append (a b : List Nat) : bytesOf (a ++ b) = bytesOf a ++ bytesOf b := by
  unfold bytesOf
  rw [List.flatMap_append]

theorem callTemp_take (c : tilecache) (pixels : Int → Nat) (x1 x2 y1 y2 width : Int) (mask : Nat)
    (hfit : FitsBlock c x1 x2 y1 y2) :
    (callTemp c pixels x1 x2 y1 y2 width mask).take (pixelSize * (callSize x1 x2 y1 y2).toNat) =
      bytesOf (rectPixels pixels x1 x2 y1 y2 width mask) := by
  obtain ⟨hto, _⟩ := callSize_toNat hfit.1 hfit.2.1
  unfold callTemp scratchTile
  rw [bytesOf_append]
  have hl : (bytesOf (rectPixels pixels x1 x2 y1 y2 width mask)).length =
      pixelSize * (callSize x1 x2 y1 y2).toNat := by
    rw [bytesOf_length, rectPixels_length, hto]; rfl
  rw [← hl, List.take_left']
  rfl

/-- An entry whose first `4*w*h` bytes are the bytes of the tile passes the test. -/
theorem matches_of_data (c : tilecache) (pixels : Int → Nat) (x1 x2 y1 y2 width : Int) (mask : Nat)
    (hfit : FitsBlock c x1 x2 y1 y2) (t : tile) (hp : t.present = true) (hs : t.size = callSize x1 x2 y1 y2)
    (hd : t.data.take (pixelSize * (callSize x1 x2 y1 y2).toNat) =
      bytesOf (rectPixels pixels x1 x2 y1 y2 width mask)) :
    Matches t (callTemp c pixels x1 x2 y1 y2 width mask) (callSize x1 x2 y1 y2) := by
  refine ⟨hp, hs, ?_⟩
  have h1 := callTemp_take c pixels x1 x2 y1 y2 width mask hfit
  rw [← hd] at h1
  have h2 := congrArg (List.take (callSize x1 x2 y1 y2).toNat) h1
  rw [List.take_take, List.take_take] at h2
  have hmin : min (callSize x1 x2 y1 y2).toNat (pixelSize * (callSize x1 x2 y1 y2).toNat) =
      (callSize x1 x2 y1 y2).toNat := by
    unfold pixelSize; omega
  rw [hmin] at h2
  exact h2

theorem fletcher16_callTemp (c : tilecache) (pixels : Int → Nat) (x1 x2 y1 y2 width : Int) (mask : Nat)
    (hfit : FitsBlock c x1 x2 y1 y2) :
    fletcher16 (callTemp c pixels x1 x2 y1 y2 width mask) ((pixelSize : Int) * callSize x1 x2 y1 y2) =
      fletcher16 (bytesOf (rectPixels pixels x1 x2 y1 y2 width mask)) ((pixelSize : Int) * callSize x1 x2 y1 y2) := by
  obtain ⟨_, h0⟩ := callSize_toNat hfit.1 hfit.2.1
  have hto : ((pixelSize : Int) * callSize x1 x2 y1 y2).toNat = pixelSize * (callSize x1 x2 y1 y2).toNat := by
    unfold pixelSize; omega
  unfold fletcher16
  rw [hto, callTemp_take c pixels x1 x2 y1 y2 width mask hfit]
  have := callTemp_take c pixels x1 x2 y1 y2 width mask hfit
  have hl : (bytesOf (rectPixels pixels x1 x2 y1 y2 width mask)).length ≤
      pixelSize * (callSize x1 x2 y1 y2).toNat := by
    rw [← this, List.length_take]; omega
  rw [List.take_of_length_le hl]

theorem write_buckets (c : tilecache) (pixels : Int → Nat) (x1 x2 y1 y2 width : Int) (mask : Nat)
    (hb : BucketInv c) (hpos : 1 ≤ c.size) (hfit : FitsBlock c x1 x2 y1 y2) :
    ∃ r c', tilecache_write c pixels x1 x2 y1 y2 width mask = some (r, c') ∧ BucketInv c' ∧
      c'.size = c.size ∧ c'.blocksize = c.blocksize := by
  rcases write_cases c pixels x1 x2 y1 y2 width mask hfit with hno | ⟨r, hr, hm, hfirst⟩
  · obtain ⟨c2, _, hunl, hw⟩ := write_miss c pixels x1 x2 y1 y2 width mask hb hpos hfit hno
    have hidx : (c.index + 1) % c.size < c.size := Nat.mod_lt _ (by omega)
    exact ⟨_, _, hw, install_bucketInv _ c2 hunl hb hidx _ rfl (fletcher16_lt _ _) rfl,
      hunl.size_eq, hunl.blocksize_eq⟩
  · exact ⟨_, _, write_hit c pixels x1 x2 y1 y2 width mask hfit r hr hm hfirst, hb, rfl, rfl⟩

/-- What a miss does to a cache that satisfies the bucket-chain invariant. -/
theorem miss_facts (c : tilecache) (pixels : Int → Nat) (x1 x2 y1 y2 width : Int) (mask : Nat)
    (hb : BucketInv c) (hpos : 1 ≤ c.size) (hfit : FitsBlock c x1 x2 y1 y2)
    (hno : ∀ j, j < c.size →
      ¬ Matches (c.tiles j) (callTemp c pixels x1 x2 y1 y2 width mask) (callSize x1 x2 y1 y2)) :
    ∃ c', tilecache_write c pixels x1 x2 y1 y2 width mask = some (-1, c') ∧
      c'.size = c.size ∧ c'.index = (c.index + 1) % c.size ∧
      (c'.tiles c'.index).present = true ∧
      (c'.tiles c'.index).size = callSize x1 x2 y1 y2 ∧
      (c'.tiles c'.index).hash =
        fletcher16 (bytesOf (rectPixels pixels x1 x2 y1 y2 width mask)) ((pixelSize : Int) * callSize x1 x2 y1 y2) ∧
      (c'.tiles c'.index).next =
        (if (c.tiles ((c.index + 1) % c.size)).present = true ∧
            (c.tiles ((c.index + 1) % c.size)).hash = (c'.tiles c'.index).hash ∧
            c.tileindex (c'.tiles c'.index).hash = (((c.index + 1) % c.size : Nat) : Int)
         then (c.tiles ((c.index + 1) % c.size)).next
         else c.tileindex (c'.tiles c'.index).hash) ∧
      c'.tileindex (c'.tiles c'.index).hash = (c'.index : Int) ∧
      ∀ j, j ≠ c'.index →
        (c'.tiles j).present = (c.tiles j).present ∧ (c'.tiles j).size = (c.tiles j).size ∧
        (c'.tiles j).hash = (c.tiles j).hash ∧ (c'.tiles j).data = (c.tiles j).data := by
  obtain ⟨c2, _, hunl, hw⟩ := write_miss c pixels x1 x2 y1 y2 width mask hb hpos hfit hno
  have hix : c2.index = (c.index + 1) % c.size := hunl.index_eq
  have hH := fletcher16_callTemp c pixels x1 x2 y1 y2 width mask hfit
  refine ⟨_, hw, hunl.size_eq, hix, ?_, ?_, ?_, ?_, ?_, ?_⟩
  · dsimp only; rw [Function.update_same]
  · dsimp only; rw [Function.update_same]
  · dsimp only; rw [Function.update_same]; exact hH
  · dsimp only; rw [Function.update_same]; dsimp only
    exact hunl.heads _
  · dsimp only; rw [Function.update_same]; dsimp only; rw [Function.update_same]
  · intro j hj
    dsimp only at hj ⊢
    rw [Function.update_noteq hj]
    exact hunl.fields j

/-- What a call on a rect that fits does to a cache that satisfies the invariant. -/
theorem write_outcome (c : tilecache) (pixels : Int → Nat) (x1 x2 y1 y2 width : Int) (mask : Nat)
    (hinv : CacheInv c) (hfit : FitsBlock c x1 x2 y1 y2) :
    ∃ r c', tilecache_write c pixels x1 x2 y1 y2 width mask = some (r, c') ∧ CacheInv c' ∧
      c'.size = c.size ∧ c'.blocksize = c.blocksize ∧
      (r ≠ -1 → c'.index = c.index ∧ c'.tiles = c.tiles ∧ c'.tileindex = c.tileindex) ∧
      (r = -1 → c'.index = (c.index + 1) % c.size ∧ (c'.tiles c'.index).present = true ∧
        (c'.tiles c'.index).size = callSize x1 x2 y1 y2 ∧
        (c'.tiles c'.index).hash = fletcher16 (bytesOf (rectPixels pixels x1 x2 y1 y2 width mask))
          ((pixelSize : Int) * callSize x1 x2 y1 y2) ∧
        ∀ j, j ≠ c'.index → (c'.tiles j).present = (c.tiles j).present) := by
  obtain ⟨r, c', hw, hc', hs, hb⟩ := write_preserves c pixels x1 x2 y1 y2 width mask hinv hfit
  refine ⟨r, c', hw, hc', hs, hb, ?_, ?_⟩
  · intro hr
    rcases write_cases c pixels x1 x2 y1 y2 width mask hfit with hno | ⟨k, hk, hm, hfirst⟩
    · obtain ⟨c2, _, _, hw2⟩ := write_miss c pixels x1 x2 y1 y2 width mask hinv.buckets hinv.size_pos hfit hno
      rw [hw2] at hw
      exact absurd (Prod.mk.inj (Option.some.inj hw)).1.symm hr
    · rw [write_hit c pixels x1 x2 y1 y2 width mask hfit k hk hm hfirst] at hw
      have := (Prod.mk.inj (Option.some.inj hw)).2
      rw [← this]
      exact ⟨rfl, rfl, rfl⟩
  · intro hr
    rcases write_cases c pixels x1 x2 y1 y2 width mask hfit with hno | ⟨k, hk, hm, hfirst⟩
    · obtain ⟨c2, _, hunl, hw2⟩ := write_miss c pixels x1 x2 y1 y2 width mask hinv.buckets hinv.size_pos hfit hno
      rw [hw2] at hw
      have := (Prod.mk.inj (Option.some.inj hw)).2
      rw [← this]
      have hix : c2.index = (c.index + 1) % c.size := hunl.index_eq
      refine ⟨hix, ?_, ?_, ?_, ?_⟩
      · dsimp only; rw [Function.update_same]
      · dsimp only; rw [Function.update_same]
      · dsimp only; rw [Function.update_same]
        exact fletcher16_callTemp c pixels x1 x2 y1 y2 width mask hfit
      · intro j hj
        dsimp only at hj ⊢
        rw [Function.update_noteq hj]
        exact (hunl.fields j).1
    · rw [write_hit c pixels x1 x2 y1 y2 width mask hfit k hk hm hfirst] at hw
      have := (Prod.mk.inj (Option.some.inj hw)).1
      omega

theorem fresh_runInv (c0 : tilecache) (h : Fresh c0) :
    RunInv c0.size c0.blocksize { cache := c0, misses := 0, stamp := fun _ => 0 } := by
  rcases h with ⟨size, blocksize, h1, rfl⟩ | ⟨c, hr, rfl⟩
  · refine ⟨cacheInv_create size blocksize h1, rfl, rfl, rfl, fun j _ hp => ?_⟩
    exact absurd hp (by simp [tilecache_create])
  · refine ⟨cacheInv_reset c (reachable_inv c hr).size_pos, rfl, rfl, rfl, fun j hj hp => ?_⟩
    have hj2 : j < c.size := hj
    exact absurd hp (by simp [tilecache_reset, hj2])

theorem succ_mod_mod (m n : Nat) : (m % n + 1) % n = (m + 1) % n := by
  rw [Nat.add_mod (m % n) 1, Nat.mod_mod, ← Nat.add_mod]

/-- Among `n` consecutive numbers the one congruent to `m + 1` is determined: it is `m + 1 - n`. -/
theorem stamp_oldest {n a m : Nat} (h1 : a % n = (m + 1) % n) (h2 : a ≤ m) (h3 : m < a + n) :
    a + n = m + 1 := by
  have hd : n ∣ (m + 1 - a) := (Nat.modEq_iff_dvd' (by omega)).mp h1
  have hpos : 0 < m + 1 - a := by omega
  have := Nat.le_of_dvd hpos hd
  omega

theorem runStep_inv (n bs : Nat) (s : Run) (call : Call) (h : RunInv n bs s)
    (hfit : FitsBlock s.cache call.x1 call.x2 call.y1 call.y2) :
    ∃ s', runStep s call = some s' ∧ RunInv n bs s' := by
  obtain ⟨hinv, hsz, hbs, hcur, hst⟩ := h
  have hn : 1 ≤ n := by rw [← hsz]; exact hinv.size_pos
  obtain ⟨r, c', hw, hc', hs', hb', hhit, hmiss⟩ :=
    write_outcome s.cache call.pixels call.x1 call.x2 call.y1 call.y2 call.width call.mask hinv hfit
  by_cases hr : r = -1
  · obtain ⟨hix, hpres, _, _, hoth⟩ := hmiss hr
    rw [hsz, hcur, succ_mod_mod] at hix
    refine ⟨{ cache := c', misses := s.misses + 1, stamp := Function.update s.stamp c'.index (s.misses + 1) },
      by unfold runStep; rw [hw]; simp only [hr, if_true],
      ⟨hc', hs'.trans hsz, hb'.trans hbs, hix, fun j hj hp => ?_⟩⟩
    dsimp only at hp ⊢
    by_cases hjc : j = c'.index
    · rw [hjc, Function.update_same]
      exact ⟨hix.symm, by omega, le_refl _, by omega⟩
    · rw [Function.update_noteq hjc]
      rw [hoth j hjc] at hp
      obtain ⟨a1, a2, a3, a4⟩ := hst j hj hp
      refine ⟨a1, a2, by omega, ?_⟩
      by_contra hcon
      have heq : s.stamp j + n = s.misses + 1 := by omega
      have : s.stamp j % n = (s.misses + 1) % n := by rw [← heq, Nat.add_mod_right]
      rw [a1, ← hix] at this
      exact hjc this
  · obtain ⟨hix, htl, _⟩ := hhit hr
    refine ⟨{ cache := c', misses := s.misses, stamp := s.stamp },
      by unfold runStep; rw [hw]; simp only [hr, if_false],
      ⟨hc', hs'.trans hsz, hb'.trans hbs, hix.trans hcur, fun j hj hp => ?_⟩⟩
    dsimp only at hp ⊢
    rw [htl] at hp
    exact hst j hj hp

theorem runCalls_inv (n bs : Nat) (calls : List Call) : ∀ (s : Run), RunInv n bs s →
    (∀ call ∈ calls, (call.x1 ≤ call.x2 ∧ call.y1 ≤ call.y2 ∧
      (call.x2 - call.x1) * (call.y2 - call.y1) ≤ ((bs * bs : Nat) : Int))) →
    ∃ s', runCalls s calls = some s' ∧ RunInv n bs s' := by
  induction calls with
  | nil => intro s h _; exact ⟨s, rfl, h⟩
  | cons call rest ih =>
    intro s h hfit
    have hf : FitsBlock s.cache call.x1 call.x2 call.y1 call.y2 := by
      unfold FitsBlock
      rw [h.blocksize_eq]
      exact hfit call (List.mem_cons_self _ _)
    obtain ⟨s1, h1, hinv1⟩ := runStep_inv n bs s call h hf
    obtain ⟨s2, h2, hinv2⟩ := ih s1 hinv1 (fun x hx => hfit x (List.mem_cons_of_mem _ hx))
    exact ⟨s2, by simp only [runCalls, h1, h2], hinv2⟩

/-! ## Further properties of the tile cache and the range coder -/

theorem byteSum_cons (x : Nat) (xs : List Nat) (n : Nat) :
    byteSum (x :: xs) (n + 1) = x + byteSum xs n := by
  unfold byteSum
  rw [Finset.sum_range_succ']
  simp [Nat.add_comm]

theorem weightedSum_cons (x : Nat) (xs : List Nat) (n : Nat) :
    weightedSum (x :: xs) (n + 1) = (n + 1) * x + weightedSum xs n := by
  unfold weightedSum
  rw [Finset.sum_range_succ']
  simp [Nat.add_comm]

theorem fletcher16_fold (d : List Nat) : ∀ (a b : Nat),
    d.foldl fletcher16_step (a % 256, b % 256) =
      ((a + byteSum d d.length) % 256, (b + d.length * a + weightedSum d d.length) % 256) := by
  induction d with
  | nil => intro a b; simp [byteSum, weightedSum]
  | cons x xs ih =>
    intro a b
    have h1 : fletcher16_step (a % 256, b % 256) x = ((a + x) % 256, (b + (a + x)) % 256) := by
      unfold fletcher16_step
      simp only [Prod.mk.injEq]
      constructor <;> omega
    rw [List.foldl_cons, h1, ih, List.length_cons, byteSum_cons, weightedSum_cons]
    simp only [Prod.mk.injEq]
    constructor
    · congr 1; omega
    · congr 1
      have : xs.length * (a + x) = xs.length * a + xs.length * x := Nat.mul_add _ _ _
      have : (xs.length + 1) * a = xs.length * a + a := Nat.succ_mul _ _
      have : (xs.length + 1) * x = xs.length * x + x := Nat.succ_mul _ _
      omega

theorem shift8_or (x y : Nat) (hy : y < 256) : (x <<< 8) ||| y = x * 256 + y := by
  have h := Nat.mul_add_lt_is_or (show y < 2 ^ 8 from hy) x
  rw [Nat.shiftLeft_eq, Nat.mul_comm x (2 ^ 8), ← h]

theorem fletcher16_closed (d : List Nat) :
    fletcher16 d (d.length : Int) = (weightedSum d d.length % 256) * 256 + byteSum d d.length % 256 := by
  unfold fletcher16
  have h := fletcher16_fold d 0 0
  simp only [Nat.zero_mod, Nat.zero_add, Nat.mul_zero, Nat.add_zero] at h
  simp only [Int.toNat_ofNat, List.take_length, h]
  exact shift8_or _ _ (Nat.mod_lt _ (by decide))

theorem write_again (c : tilecache) (a b : Call) (hinv : CacheInv c)
    (ha : Fits c.blocksize a) (hb : Fits c.blocksize b) (hsame : SameTile b a) :
    ∃ r c1 k, writeCall c a = some (r, c1) ∧ CacheInv c1 ∧ c1.size = c.size ∧ c1.blocksize = c.blocksize ∧
      k < c.size ∧
      (r = -1 → k = c1.index ∧ c1.index = (c.index + 1) % c.size) ∧
      (r ≠ -1 → (k : Int) = r ∧ c1.tiles = c.tiles ∧ c1.index = c.index) ∧
      Matches (c1.tiles k) (bytesOf (scratchTile c.blocksize (callTile a))) (callArea a) ∧
      writeCall c1 b = some ((k : Int),
        { c1 with numblocks := c1.numblocks + 1
                  tempdata := scratchTile c1.blocksize (callTile b)
                  hits := c1.hits + 1 }) := by
  obtain ⟨hT, hS⟩ := hsame
  unfold callTile at hT
  unfold callArea at hS
  have hfa : FitsBlock c a.x1 a.x2 a.y1 a.y2 := ha
  have hfb : FitsBlock c b.x1 b.x2 b.y1 b.y2 := hb
  obtain ⟨r0, c0, hw0, hinv0, hsz0, hbs0⟩ :=
    write_preserves c a.pixels a.x1 a.x2 a.y1 a.y2 a.width a.mask hinv hfa
  have h0 := (callSize_toNat hfa.1 hfa.2.1).2
  rcases write_cases c a.pixels a.x1 a.x2 a.y1 a.y2 a.width a.mask hfa with hno | ⟨r, hr, hm, hfirst⟩
  · obtain ⟨c2, _, hunl, hw⟩ :=
      write_miss c a.pixels a.x1 a.x2 a.y1 a.y2 a.width a.mask hinv.buckets hinv.size_pos hfa hno
    have hix : c2.index = (c.index + 1) % c.size := hunl.index_eq
    have hk : c2.index < c.size := by rw [hix]; exact Nat.mod_lt _ (by have := hinv.size_pos; omega)
    have hbs : c2.blocksize = c.blocksize := hunl.blocksize_eq
    rw [hw] at hw0
    have hc0 : c0 = _ := ((Prod.mk.inj (Option.some.inj hw0)).2).symm
    have hlen : c.blocksize * c.blocksize ≤ (callTemp c a.pixels a.x1 a.x2 a.y1 a.y2 a.width a.mask).length := by
      unfold callTemp
      rw [bytesOf_length, scratchTile_length _ _ (by rw [rectPixels_length]; have := callSize_toNat hfa.1 hfa.2.1; have := hfa.2.2; unfold callSize at *; omega)]
      omega
    have hsz : (callSize a.x1 a.x2 a.y1 a.y2).toNat ≤ c.blocksize * c.blocksize := by
      have := hfa.2.2; unfold callSize; omega
    have hmatch : Matches
        ({ present := true, size := callSize a.x1 a.x2 a.y1 a.y2,
           hash := fletcher16 (callTemp c a.pixels a.x1 a.x2 a.y1 a.y2 a.width a.mask)
             ((pixelSize : Int) * callSize a.x1 a.x2 a.y1 a.y2),
           next := c2.tileindex (fletcher16 (callTemp c a.pixels a.x1 a.x2 a.y1 a.y2 a.width a.mask)
             ((pixelSize : Int) * callSize a.x1 a.x2 a.y1 a.y2)),
           data := memcpy (c2.tiles c2.index).data (callTemp c a.pixels a.x1 a.x2 a.y1 a.y2 a.width a.mask)
             (c.blocksize * c.blocksize) } : tile)
        (callTemp c a.pixels a.x1 a.x2 a.y1 a.y2 a.width a.mask) (callSize a.x1 a.x2 a.y1 a.y2) := by
      refine ⟨rfl, rfl, ?_⟩
      dsimp only
      rw [take_memcpy _ _ _ _ hsz hlen]
    refine ⟨-1, _, c2.index, hw, hc0 ▸ hinv0, hunl.size_eq, hbs, hk, fun _ => ⟨rfl, hix⟩,
      fun h => absurd rfl h, ?_, ?_⟩
    · dsimp only
      rw [Function.update_same, hbs]
      exact hmatch
    · have hfb1 : FitsBlock { c2 with
          tiles := Function.update c2.tiles c2.index
            { present := true, size := callSize a.x1 a.x2 a.y1 a.y2,
              hash := fletcher16 (callTemp c a.pixels a.x1 a.x2 a.y1 a.y2 a.width a.mask)
                ((pixelSize : Int) * callSize a.x1 a.x2 a.y1 a.y2),
              next := c2.tileindex (fletcher16 (callTemp c a.pixels a.x1 a.x2 a.y1 a.y2 a.width a.mask)
                ((pixelSize : Int) * callSize a.x1 a.x2 a.y1 a.y2)),
              data := memcpy (c2.tiles c2.index).data (callTemp c a.pixels a.x1 a.x2 a.y1 a.y2 a.width a.mask)
                (c2.blocksize * c2.blocksize) }
          tileindex := Function.update c2.tileindex
            (fletcher16 (callTemp c a.pixels a.x1 a.x2 a.y1 a.y2 a.width a.mask)
              ((pixelSize : Int) * callSize a.x1 a.x2 a.y1 a.y2)) (c2.index : Int) }
          b.x1 b.x2 b.y1 b.y2 := by
        unfold FitsBlock
        dsimp only
        rw [hbs]
        exact hfb
      refine write_hit _ b.pixels b.x1 b.x2 b.y1 b.y2 b.width b.mask hfb1 c2.index
        (by dsimp only; rw [hunl.size_eq]; exact hk) ?_ ?_
      · unfold callTemp
        dsimp only
        rw [Function.update_same, hT, hS, hbs]
        exact hmatch
      · intro j hj
        unfold callTemp
        dsimp only
        rw [Function.update_noteq (by omega), hT, hS, hbs]
        intro hmj
        refine hno j (by omega) ?_
        obtain ⟨f1, f2, _, f4⟩ := hunl.fields j
        exact ⟨f1 ▸ hmj.1, f2 ▸ hmj.2.1, f4 ▸ hmj.2.2⟩
  · have hw := write_hit c a.pixels a.x1 a.x2 a.y1 a.y2 a.width a.mask hfa r hr hm hfirst
    rw [hw] at hw0
    have hc0 : c0 = _ := ((Prod.mk.inj (Option.some.inj hw0)).2).symm
    refine ⟨(r : Int), _, r, hw, hc0 ▸ hinv0, rfl, rfl, hr, fun h => by omega,
      fun _ => ⟨rfl, rfl, rfl⟩, hm, ?_⟩
    refine write_hit { c with numblocks := c.numblocks + 1
                              tempdata := scratchTile c.blocksize (rectPixels a.pixels a.x1 a.x2 a.y1 a.y2 a.width a.mask)
                              hits := c.hits + 1 }
      b.pixels b.x1 b.x2 b.y1 b.y2 b.width b.mask hfb r hr ?_ ?_
    · unfold callTemp
      dsimp only
      rw [hT, hS]
      exact hm
    · intro j hj
      unfold callTemp
      dsimp only
      rw [hT, hS]
      exact hfirst j hj

theorem writeAll_same (T : Call) : ∀ (calls : List Call) (c : tilecache) (a : Call),
    CacheInv c → Fits c.blocksize a → SameTile a T →
    (∀ b ∈ calls, Fits c.blocksize b ∧ SameTile b T) →
    ∃ r c1 k c', writeCall c a = some (r, c1) ∧ k < c.size ∧
      (r = -1 → k = c1.index ∧ c1.index = (c.index + 1) % c.size) ∧
      (r ≠ -1 → (k : Int) = r ∧ c1.tiles = c.tiles) ∧ (c1.tiles k).present = true ∧
      writeAll c1 calls = some (List.replicate calls.length (k : Int), c') ∧
      c'.hits = c1.hits + calls.length ∧ c'.numblocks = c1.numblocks + calls.length := by
  intro calls
  induction calls with
  | nil =>
    intro c a hinv ha _ _
    obtain ⟨r, c1, k, hw, _, _, _, hk, hm1, hm2, hm, _⟩ := write_again c a a hinv ha ha ⟨rfl, rfl⟩
    exact ⟨r, c1, k, c1, hw, hk, hm1, fun h => ⟨(hm2 h).1, (hm2 h).2.1⟩, hm.1, rfl, rfl, rfl⟩
  | cons b rest ih =>
    intro c a hinv ha haT hall
    obtain ⟨hb, hbT⟩ := hall b (List.mem_cons_self _ _)
    obtain ⟨r, c1, k, hw, hinv1, hsz1, hbs1, hk, hm1, hm2, hm, hw2⟩ :=
      write_again c a b hinv ha hb ⟨hbT.1.trans haT.1.symm, hbT.2.trans haT.2.symm⟩
    obtain ⟨r', c1', k', c', hw', _, _, hm2', _, hall', hh, hnb⟩ := ih c1 b hinv1 (hbs1 ▸ hb) hbT
      (fun x hx => ⟨hbs1 ▸ (hall x (List.mem_cons_of_mem _ hx)).1, (hall x (List.mem_cons_of_mem _ hx)).2⟩)
    rw [hw2] at hw'
    have hr' : (k : Int) = r' := (Prod.mk.inj (Option.some.inj hw')).1
    have hc' : c1' = _ := ((Prod.mk.inj (Option.some.inj hw')).2).symm
    have hkk : (k' : Int) = (k : Int) := by
      rw [(hm2' (by omega)).1, hr']
    refine ⟨r, c1, k, c', hw, hk, hm1, fun h => ⟨(hm2 h).1, (hm2 h).2.1⟩, hm.1, ?_, ?_, ?_⟩
    · show (match writeCall c1 b with
        | none => none
        | some (r, c1) =>
          match writeAll c1 rest with
          | none => none
          | some (rs, c2) => some (r :: rs, c2)) = _
      rw [hw2]
      simp only []
      rw [← hc', hall', hkk]
      rfl
    · rw [hh, hc', List.length_cons]; dsimp only; omega
    · rw [hnb, hc', List.length_cons]; dsimp only; omega

theorem compress_renorm_cond (fuel : Nat) : ∀ (low range : Nat) (out : List Nat) (r : Nat × Nat × List Nat),
    compress_renorm fuel low range out = some r → renormCond r.1 r.2.1 = false := by
  induction fuel with
  | zero =>
    intro low range out r h
    unfold compress_renorm at h
    split at h
    · exact absurd h (by simp)
    · rw [← Option.some.inj h]; simpa using ‹¬ renormCond low range = true›
  | succ n ih =>
    intro low range out r h
    unfold compress_renorm at h
    split at h
    · exact ih _ _ _ r h
    · rw [← Option.some.inj h]; simpa using ‹¬ renormCond low range = true›

theorem compress_renorm_length (fuel : Nat) : ∀ (low range : Nat) (out : List Nat) (r : Nat × Nat × List Nat),
    compress_renorm fuel low range out = some r → r.2.2.length ≤ out.length + fuel := by
  induction fuel with
  | zero =>
    intro low range out r h
    unfold compress_renorm at h
    split at h
    · exact absurd h (by simp)
    · rw [← Option.some.inj h]; simp
  | succ n ih =>
    intro low range out r h
    unfold compress_renorm at h
    split at h
    · have := ih _ _ _ r h
      rw [List.length_append, List.length_singleton] at this
      omega
    · rw [← Option.some.inj h]; simp

theorem compress_renorm_mono (fuel : Nat) : ∀ (low range : Nat) (out : List Nat) (r : Nat × Nat × List Nat),
    compress_renorm fuel low range out = some r → compress_renorm (fuel + 1) low range out = some r := by
  induction fuel with
  | zero =>
    intro low range out r h
    unfold compress_renorm at h
    split at h
    · exact absurd h (by simp)
    · rw [compress_renorm_exit _ _ _ _ (by simpa using ‹¬ renormCond low range = true›)]
      exact h
  | succ n ih =>
    intro low range out r h
    by_cases hc : renormCond low range = true
    · rw [compress_renorm_round _ _ _ _ hc] at h ⊢
      exact ih _ _ _ r h
    · have hc' : renormCond low range = false := by simpa using hc
      rw [compress_renorm_exit _ _ _ _ hc'] at h ⊢
      exact h

theorem compress_renorm_fuel (fuel k : Nat) (low range : Nat) (out : List Nat) (r : Nat × Nat × List Nat)
    (h : compress_renorm fuel low range out = some r) : compress_renorm (fuel + k) low range out = some r := by
  induction k with
  | zero => exact h
  | succ k ih => exact compress_renorm_mono _ _ _ _ _ ih

theorem clampRange_applied (low range : Nat) (hl : low < 4294967296) (h1 : 1 ≤ range)
    (hb : range < bottom) (ht : low ^^^ ((low + range) % 4294967296) ≥ top) :
    clampRange low range = ((4294967296 - low) % 4294967296) &&& (bottom - 1) ∧
    1 ≤ clampRange low range ∧ clampRange low range ≤ range := by
  have ht' := ht
  rw [top_eq] at ht'
  have hx : ¬ (low / 16777216 = (low + range) % 4294967296 / 16777216) := by
    intro h
    have := (xor_lt_top_iff low ((low + range) % 4294967296)).mpr h
    omega
  rw [bottom_eq] at hb
  have hc : clampRange low range = (4294967296 - low) % 4294967296 % 65536 := by
    rw [clampRange_eq, if_pos ⟨hb, hx⟩]
  refine ⟨by unfold clampRange; rw [if_pos ⟨by rw [bottom_eq]; exact hb, ht⟩], ?_, ?_⟩
  · rw [hc]; omega
  · rw [hc]; omega

theorem encInv_init (c : rangecoder) (h : TablesOK c) :
    EncInv { coder := c, low := 0x00, range := maxrange, idx := 0x00, out := [] } :=
  ⟨h, ⟨0, by have := h.sized.2.2; show 0 < c.tsize; rw [this]; positivity, by simp⟩, by norm_num,
    by simp [maxrange], by simp [maxrange]⟩

theorem encInv_access (s : EncState) (h : EncInv s) :
    (∃ k, s.idx = k * s.coder.symbols) ∧ s.idx + s.coder.symbols ≤ s.coder.fsize ∧
    s.idx >>> s.coder.bits < s.coder.tsize ∧
    (∀ i, i < s.coder.symbols →
      tableGet s.coder.freqs s.coder.fsize ((s.idx : Int) + (i : Nat)) = some (s.coder.freqs (s.idx + i))) ∧
    tableGet s.coder.totals s.coder.tsize ((s.idx >>> s.coder.bits : Nat) : Int) =
      some (s.coder.totals (s.idx >>> s.coder.bits)) := by
  obtain ⟨k, hk, hidx⟩ := h.ctx
  have hsz := h.tables.sized
  have hsh : s.idx >>> s.coder.bits = k := by rw [hidx]; exact idx_shift hsz k
  have hle : s.idx + s.coder.symbols ≤ s.coder.fsize := by
    rw [hidx, sized_fsize_eq hsz]
    calc k * s.coder.symbols + s.coder.symbols = (k + 1) * s.coder.symbols := by ring
      _ ≤ s.coder.tsize * s.coder.symbols := Nat.mul_le_mul_right _ hk
  refine ⟨⟨k, hidx⟩, hle, by rw [hsh]; exact hk, fun i hi => tableGet_add _ _ _ _ (by omega), ?_⟩
  exact tableGet_nat _ _ _ (by rw [hsh]; exact hk)

theorem halve_eq_max (f : Int) (h : 0 ≤ f) : halve f = max 1 (f / 2) := by
  unfold halve
  have h2 : Int.tdiv f 2 = f / 2 := by
    rw [Int.tdiv_eq_ediv] <;> omega
  rw [h2]
  split_ifs <;> omega

theorem update_model_halves (c : rangecoder) (k sym : Nat) (h : TablesOK c) (hk : k < c.tsize)
    (hs : sym < c.symbols) (hbig : c.totals k + 32 ≥ 0xFFFF) :
    ∃ c', update_model c (k * c.symbols) (sym : Int) = some c' ∧ c'.symbols = c.symbols ∧
      (∀ s, s < c.symbols → c'.freqs (k * c.symbols + s) =
        max 1 ((c.freqs (k * c.symbols + s) + (if s = sym then 32 else 0)) / 2)) ∧
      c'.totals k = ∑ s ∈ Finset.range c.symbols, c'.freqs (k * c.symbols + s) := by
  obtain ⟨c', hu, _, _, hsy, _, ht, hok⟩ := update_model_spec c k sym h hk hs
  obtain ⟨hsz, hsmall, ⟨hfreq, htot⟩, hbound⟩ := h
  have hidx : k * c.symbols + sym < c.fsize := block_index_lt hsz hk hs
  have hshift : (k * c.symbols) >>> c.bits = k := idx_shift hsz k
  have hget : tableGet c.freqs c.fsize (((k * c.symbols : Nat) : Int) + (sym : Nat)) =
      some (c.freqs (k * c.symbols + sym)) := tableGet_add _ _ _ _ hidx
  have hgett : tableGet c.totals c.tsize (((k * c.symbols) >>> c.bits : Nat) : Int) = some (c.totals k) := by
    rw [hshift]; exact tableGet_nat _ _ _ hk
  have htoNat : (((k * c.symbols : Nat) : Int) + (sym : Nat)).toNat = k * c.symbols + sym := by
    omega
  obtain ⟨c2, hr, _, _, _, _, _, hfr, _, _⟩ := rescale_spec (k * c.symbols) c.symbols
    { c with
      freqs := Function.update c.freqs (k * c.symbols + sym) (c.freqs (k * c.symbols + sym) + 32)
      totals := Function.update (Function.update c.totals k (c.totals k + 32)) k 0 }
    (by
      show k * c.symbols + c.symbols ≤ c.fsize
      rw [(sized_fsize_eq hsz)]
      calc k * c.symbols + c.symbols = (k + 1) * c.symbols := by ring
        _ ≤ c.tsize * c.symbols := Nat.mul_le_mul_right _ hk)
    (by show (k * c.symbols) >>> c.bits < c.tsize; rw [hshift]; exact hk)
  dsimp only at hfr
  have hres : update_model c (k * c.symbols) (sym : Int) = some c2 := by
    rw [update_model, hget, hgett]
    simp only [htoNat, hshift, if_pos hbig]
    exact hr
  rw [hres] at hu
  have hcc : c2 = c' := Option.some.inj hu
  subst hcc
  refine ⟨c2, hres, hsy, fun s hs' => ?_, ?_⟩
  · rw [hfr, if_pos (by omega)]
    have hidx' : k * c.symbols + s < c.fsize := block_index_lt hsz hk hs'
    have h1 := hfreq _ hidx'
    by_cases hss : s = sym
    · subst hss
      rw [Function.update_same, if_pos rfl]
      exact halve_eq_max _ (by omega)
    · have hne : k * c.symbols + s ≠ k * c.symbols + sym := by omega
      rw [Function.update_noteq hne, if_neg hss, add_zero]
      exact halve_eq_max _ (by omega)
  · have := hok.inv.2 k (by rw [ht]; exact hk)
    rw [this, blockSum, hsy]

theorem freqs_le_total (c : rangecoder) (h : TablesOK c) (i : Nat) (hi : i < c.fsize) :
    1 ≤ c.freqs i ∧ c.freqs i ≤ c.totals (i / c.symbols) ∧ c.freqs i ≤ 0xFFFE := by
  obtain ⟨hsz, _, ⟨hfreq, htot⟩, hbound⟩ := h
  have hpos := sized_symbols_pos hsz
  have hk : i / c.symbols < c.tsize := by
    rw [sized_fsize_eq hsz] at hi
    exact Nat.div_lt_of_lt_mul (by rw [Nat.mul_comm]; exact hi)
  have hi' : i = (i / c.symbols) * c.symbols + i % c.symbols := by
    rw [Nat.mul_comm]; exact (Nat.div_add_mod i c.symbols).symm
  have hmod : i % c.symbols < c.symbols := Nat.mod_lt _ hpos
  have hle : c.freqs i ≤ c.totals (i / c.symbols) := by
    rw [htot _ hk, blockSum]
    have hnn : ∀ s ∈ Finset.range c.symbols, 0 ≤ c.freqs (i / c.symbols * c.symbols + s) := by
      intro s hs
      have := hfreq _ (block_index_lt hsz hk (Finset.mem_range.mp hs))
      omega
    have := Finset.single_le_sum hnn (Finset.mem_range.mpr hmod)
    rw [← hi'] at this
    exact this
  have := hbound _ hk
  exact ⟨hfreq i hi, hle, by omega⟩

theorem compress_renorm_out (fuel : Nat) : ∀ (low range : Nat) (out : List Nat) (r : Nat × Nat × List Nat),
    compress_renorm fuel low range out = some r → r.2.2 = out ++ renormBytes fuel low range := by
  induction fuel with
  | zero =>
    intro low range out r h
    unfold compress_renorm at h
    split at h
    · exact absurd h (by simp)
    · rw [← Option.some.inj h]; simp [renormBytes]
  | succ n ih =>
    intro low range out r h
    unfold compress_renorm at h
    unfold renormBytes
    split at h
    · rename_i hc
      rw [if_pos hc, ih _ _ _ r h, List.append_assoc]
      rfl
    · rename_i hc
      rw [if_neg hc, ← Option.some.inj h]; simp

theorem topByte_eq (low : Nat) : (low >>> 24) &&& 0xFF = low / 16777216 % 256 := by
  rw [Nat.shiftRight_eq_div_pow]
  exact Nat.and_pow_two_sub_one_eq_mod _ 8

theorem compress_flush_eq (low : Nat) (out : List Nat) :
    compress_flush 4 low out = out ++ bytesBE low := by
  have h1 : (low >>> 24) &&& 0xFF = low / 16777216 % 256 := topByte_eq low
  have h2 : (((low <<< 8) % 4294967296) >>> 24) &&& 0xFF = low / 65536 % 256 := by
    rw [topByte_eq, Nat.shiftLeft_eq]; omega
  have h3 : (((((low <<< 8) % 4294967296) <<< 8) % 4294967296) >>> 24) &&& 0xFF = low / 256 % 256 := by
    rw [topByte_eq, Nat.shiftLeft_eq, Nat.shiftLeft_eq]; omega
  have h4 : (((((((low <<< 8) % 4294967296) <<< 8) % 4294967296) <<< 8) % 4294967296) >>> 24) &&& 0xFF =
      low % 256 := by
    rw [topByte_eq, Nat.shiftLeft_eq, Nat.shiftLeft_eq, Nat.shiftLeft_eq]; omega
  simp only [compress_flush, h1, h2, h3, h4, bytesBE, List.append_assoc, List.singleton_append]
  rfl

theorem compress_step_out (s : EncState) (sym : Nat) (s' : EncState) (h : compress_step s sym = some s') :
    ∃ lr, coded s sym = some lr ∧ s'.out = s.out ++ renormBytes renormFuel lr.1 lr.2 ∧
      compress_renorm renormFuel lr.1 lr.2 s.out = some (s'.low, s'.range, s'.out) := by
  unfold compress_step at h
  unfold coded
  split at h
  · rename_i start size total h1 h2 h3
    try rw [h1, h2, h3]
    try dsimp only
    split at h
    · exact absurd h (by simp)
    · rename_i ht
      rw [if_neg ht]
      dsimp only at h
      split at h
      · exact absurd h (by simp)
      · rename_i low2 range3 out2 hren
        split at h
        · exact absurd h (by simp)
        · have hs' : s' = _ := (Option.some.inj h).symm
          subst hs'
          refine ⟨_, rfl, ?_, hren⟩
          exact compress_renorm_out _ _ _ _ _ hren
  · exact absurd h (by simp)

theorem window_lt (rd : Nat → Nat) (p : Nat) : window rd p < 4294967296 := by
  unfold window
  omega

theorem shift_or_byte (x b : Nat) : ((x <<< 8) % 4294967296) ||| (b &&& 0xFF) = (x % 16777216) * 256 + b % 256 := by
  have hb : b &&& 0xFF = b % 256 := Nat.and_pow_two_sub_one_eq_mod b 8
  have hx : (x <<< 8) % 4294967296 = 2 ^ 8 * (x % 16777216) := by
    rw [Nat.shiftLeft_eq]; omega
  rw [hb, hx, ← Nat.mul_add_lt_is_or (Nat.mod_lt _ (by norm_num))]
  omega

theorem window_shift (rd : Nat → Nat) (p : Nat) :
    ((window rd p <<< 8) % 4294967296) ||| (rd (p + 4) &&& 0xFF) = window rd (p + 1) := by
  rw [shift_or_byte]
  unfold window
  have e1 : p + 1 + 1 = p + 2 := rfl
  have e2 : p + 1 + 2 = p + 3 := rfl
  have e3 : p + 1 + 3 = p + 4 := rfl
  rw [e1, e2, e3]
  omega

theorem decompress_fill_window (rd : Nat → Nat) : decompress_fill rd 4 = window rd 0 := by
  simp only [decompress_fill, shift_or_byte]
  unfold window
  simp only [Nat.zero_add, Nat.zero_mod, Nat.zero_mul]
  omega

theorem window_top (rd : Nat → Nat) (p : Nat) :
    window rd p = (rd p % 256) * 16777216 + window rd (p + 1) / 256 := by
  unfold window
  have e1 : p + 1 + 1 = p + 2 := rfl
  have e2 : p + 1 + 2 = p + 3 := rfl
  rw [e1, e2]
  omega

/-- One shift of the renormalisation, seen from the stream: the interval after the
shift lies in the interval before it. -/
theorem renorm_shift_interval (low range : Nat) (hl : low < 4294967296) (h1 : 1 ≤ range)
    (hr : range < 4294967296) (hfit : low + range ≤ 4294967296) (hc : renormCond low range = true) :
    1 ≤ (clampRange low range <<< 8) % 4294967296 ∧
    (low <<< 8) % 4294967296 + (clampRange low range <<< 8) % 4294967296 ≤ 4294967296 ∧
    ∀ w, (low <<< 8) % 4294967296 ≤ w → w < (low <<< 8) % 4294967296 + (clampRange low range <<< 8) % 4294967296 →
      low ≤ (low / 16777216) * 16777216 + w / 256 ∧ (low / 16777216) * 16777216 + w / 256 < low + range := by
  rw [renormCond_iff] at hc
  rw [clampRange_eq, Nat.shiftLeft_eq, Nat.shiftLeft_eq]
  split_ifs with h
  · refine ⟨by omega, by omega, fun w h1 h2 => ?_⟩
    omega
  · refine ⟨by omega, by omega, fun w h1 h2 => ?_⟩
    omega

theorem renorm_sim (rd : Nat → Nat) (fuel : Nat) : ∀ (low range : Nat) (out : List Nat) (p : Nat)
    (r : Nat × Nat × List Nat),
    low < 4294967296 → 1 ≤ range → range < 4294967296 → low + range ≤ 4294967296 →
    compress_renorm fuel low range out = some r →
    r.1 < 4294967296 ∧ 1 ≤ r.2.1 ∧ r.1 + r.2.1 ≤ 4294967296 ∧
    decompress_renorm rd fuel low range (window rd p) (p + 4) =
      some (r.1, r.2.1, window rd (p + (renormBytes fuel low range).length),
        p + (renormBytes fuel low range).length + 4) ∧
    ((∀ j, j < (renormBytes fuel low range).length →
        rd (p + j) % 256 = (renormBytes fuel low range).getD j 0) →
      r.1 ≤ window rd (p + (renormBytes fuel low range).length) →
      window rd (p + (renormBytes fuel low range).length) < r.1 + r.2.1 →
      low ≤ window rd p ∧ window rd p < low + range) := by
  induction fuel with
  | zero =>
    intro low range out p r hl h1 hr hfit h
    by_cases hc : renormCond low range = true
    · simp [compress_renorm, hc] at h
    · have hc' : renormCond low range = false := by simpa using hc
      have hr' : r = (low, range, out) := by
        simp [compress_renorm, hc'] at h; exact h.symm
      subst hr'
      refine ⟨hl, h1, hfit, ?_, ?_⟩
      · simp [decompress_renorm, hc', renormBytes]
      · intro _ h2 h3
        simp only [renormBytes, List.length_nil, Nat.add_zero] at h2 h3
        exact ⟨h2, h3⟩
  | succ n ih =>
    intro low range out p r hl h1 hr hfit h
    by_cases hc : renormCond low range = true
    · rw [compress_renorm_round _ _ _ _ hc] at h
      obtain ⟨g1, g2, g3⟩ := renorm_shift_interval low range hl h1 hr hfit hc
      obtain ⟨i1, i2, i3, i4, i5⟩ := ih _ _ _ (p + 1) r (mod_u32_lt _) g1 (mod_u32_lt _) g2 h
      have hb : renormBytes (n + 1) low range = ((low >>> 24) &&& 0xFF) ::
          renormBytes n ((low <<< 8) % 4294967296) ((clampRange low range <<< 8) % 4294967296) := by
        rw [renormBytes, if_pos hc]
      have hlen : p + (renormBytes (n + 1) low range).length =
          p + 1 + (renormBytes n ((low <<< 8) % 4294967296) ((clampRange low range <<< 8) % 4294967296)).length := by
        rw [hb, List.length_cons]; omega
      refine ⟨i1, i2, i3, ?_, ?_⟩
      · rw [decompress_renorm_round _ _ _ _ _ _ hc, window_shift, hlen]
        exact i4
      · intro hag h2 h3
        rw [hlen] at h2 h3
        have hag' : ∀ j, j < (renormBytes n ((low <<< 8) % 4294967296)
            ((clampRange low range <<< 8) % 4294967296)).length →
            rd (p + 1 + j) % 256 = (renormBytes n ((low <<< 8) % 4294967296)
              ((clampRange low range <<< 8) % 4294967296)).getD j 0 := by
          intro j hj
          have := hag (j + 1) (by rw [hb, List.length_cons]; omega)
          rw [hb, List.getD_cons_succ] at this
          rw [← this]
          congr 2
          omega
        obtain ⟨k1, k2⟩ := i5 hag' h2 h3
        obtain ⟨m1, m2⟩ := g3 _ k1 k2
        have h0 := hag 0 (by rw [hb, List.length_cons]; omega)
        rw [hb, List.getD_cons_zero, Nat.add_zero] at h0
        have htop : (low >>> 24) &&& 0xFF = low / 16777216 := by
          rw [Nat.shiftRight_eq_div_pow]
          have : low / 2 ^ 24 &&& 0xFF = low / 2 ^ 24 % 256 := Nat.and_pow_two_sub_one_eq_mod _ 8
          rw [this]
          omega
        rw [window_top, h0, htop]
        exact ⟨m1, m2⟩
    · have hc' : renormCond low range = false := by simpa using hc
      rw [compress_renorm_exit _ _ _ _ hc'] at h
      have hr' : r = (low, range, out) := (Option.some.inj h).symm
      subst hr'
      have hb : renormBytes (n + 1) low range = [] := by
        rw [renormBytes, if_neg hc]
      refine ⟨hl, h1, hfit, ?_, ?_⟩
      · rw [decompress_renorm_exit _ _ _ _ _ _ hc', hb]
        rfl
      · intro _ h2 h3
        rw [hb] at h2 h3
        exact ⟨h2, h3⟩

theorem decompress_search_stop (coder : rangecoder) (idx n : Nat) (value : Int) (i : Nat) (h : value < 0) :
    decompress_search coder idx n value i = some (value, i) := by
  cases n with
  | zero => rfl
  | succ n =>
    unfold decompress_search
    rw [if_neg (by omega)]

theorem initial_sums_mono (f : Nat → Int) (i j m : Nat) (hij : i ≤ j) (hj : j ≤ m)
    (hf : ∀ t, t < m → 0 ≤ f t) : ∑ t ∈ Finset.range i, f t ≤ ∑ t ∈ Finset.range j, f t := by
  apply Finset.sum_le_sum_of_subset_of_nonneg
  · intro t ht
    rw [Finset.mem_range] at ht ⊢
    omega
  · intro t ht _
    exact hf t (by have := Finset.mem_range.mp ht; omega)

theorem decompress_search_finds (coder : rangecoder) (idx sym : Nat) (hin : idx + coder.symbols ≤ coder.fsize)
    (hs : sym < coder.symbols) (hf : ∀ t, t < coder.symbols → 0 ≤ coder.freqs (idx + t)) :
    ∀ (n i : Nat) (value : Int), i ≤ sym → sym < i + n →
      (∑ t ∈ Finset.range sym, coder.freqs (idx + t)) - (∑ t ∈ Finset.range i, coder.freqs (idx + t)) ≤ value →
      value < (∑ t ∈ Finset.range (sym + 1), coder.freqs (idx + t)) -
        (∑ t ∈ Finset.range i, coder.freqs (idx + t)) →
      decompress_search coder idx n value i =
        some (value - ((∑ t ∈ Finset.range (sym + 1), coder.freqs (idx + t)) -
          (∑ t ∈ Finset.range i, coder.freqs (idx + t))), sym + 1) := by
  intro n
  induction n with
  | zero => intro i value h1 h2; omega
  | succ n ih =>
    intro i value h1 h2 h3 h4
    have hget : tableGet coder.freqs coder.fsize ((idx : Int) + (i : Nat)) = some (coder.freqs (idx + i)) :=
      tableGet_add _ _ _ _ (by omega)
    have hsucc : ∑ t ∈ Finset.range (i + 1), coder.freqs (idx + t) =
        (∑ t ∈ Finset.range i, coder.freqs (idx + t)) + coder.freqs (idx + i) := Finset.sum_range_succ _ _
    by_cases hi : i = sym
    · subst hi
      have h0 : 0 ≤ value := by omega
      unfold decompress_search
      rw [if_pos ⟨by omega, hs⟩, hget]
      simp only []
      rw [decompress_search_stop _ _ _ _ _ (by rw [hsucc] at h4; omega), hsucc]
      congr 2
      omega
    · have hlt : i < sym := by omega
      have hmono := initial_sums_mono (fun t => coder.freqs (idx + t)) i sym coder.symbols (by omega) (by omega) hf
      simp only [] at hmono
      unfold decompress_search
      by_cases h0 : value ≥ 0
      · rw [if_pos ⟨h0, by omega⟩, hget]
        simp only []
        by_cases hv : (∑ t ∈ Finset.range sym, coder.freqs (idx + t)) -
            (∑ t ∈ Finset.range (i + 1), coder.freqs (idx + t)) ≤ value - coder.freqs (idx + i)
        · rw [ih (i + 1) (value - coder.freqs (idx + i)) (by omega) (by omega) hv (by rw [hsucc]; omega), hsucc]
          congr 2
          omega
        · rw [hsucc] at hv
          omega
      · omega

/-- The numbers of one round of the symbol loop on a state that satisfies the
invariant, with `low + range <= 2^32`: nothing wraps, and the interval of the
symbol lies in the interval before. -/
theorem step_numbers (s : EncState) (sym : Nat) (h : EncInv s) (hfit : s.low + s.range ≤ 4294967296)
    (hs : sym < s.coder.symbols) :
    ∃ (start size total : Int) (r : Nat),
      sumFreqs s.coder s.idx sym = some start ∧
      tableGet s.coder.freqs s.coder.fsize ((s.idx : Int) + (sym : Nat)) = some size ∧
      tableGet s.coder.totals s.coder.tsize ((s.idx >>> s.coder.bits : Nat) : Int) = some total ∧
      start = ∑ t ∈ Finset.range sym, s.coder.freqs (s.idx + t) ∧
      start + size = ∑ t ∈ Finset.range (sym + 1), s.coder.freqs (s.idx + t) ∧
      0 ≤ start ∧ 1 ≤ size ∧ start + size ≤ total ∧ total < 0xFFFF ∧
      toU32 total ≠ 0 ∧ r = s.range / toU32 total ∧ 1 ≤ r ∧
      (s.low + toU32 start * r) % 4294967296 = s.low + start.toNat * r ∧
      (r * toU32 size) % 4294967296 = r * size.toNat ∧
      1 ≤ r * size.toNat ∧ r * size.toNat < 4294967296 ∧
      s.low + start.toNat * r < 4294967296 ∧
      s.low + start.toNat * r + r * size.toNat ≤ s.low + s.range ∧
      coded s sym = some (s.low + start.toNat * r, r * size.toNat) := by
  obtain ⟨htab, ⟨k, hk, hidx⟩, hlow, hrge, hrlt⟩ := h
  have hsz := htab.sized
  have hfreq := htab.inv.1
  have hshift : s.idx >>> s.coder.bits = k := by rw [hidx]; exact idx_shift hsz k
  have hblk : k * s.coder.symbols + s.coder.symbols ≤ s.coder.fsize := by
    rw [(sized_fsize_eq hsz)]
    calc k * s.coder.symbols + s.coder.symbols = (k + 1) * s.coder.symbols := by ring
      _ ≤ s.coder.tsize * s.coder.symbols := Nat.mul_le_mul_right _ hk
  have hstart : sumFreqs s.coder s.idx sym = some (∑ i ∈ Finset.range sym, s.coder.freqs (s.idx + i)) :=
    sumFreqs_eq _ _ (by rw [hidx]; omega)
  have hsize : tableGet s.coder.freqs s.coder.fsize ((s.idx : Int) + (sym : Nat)) =
      some (s.coder.freqs (s.idx + sym)) := tableGet_add _ _ _ _ (by rw [hidx]; omega)
  have htotal : tableGet s.coder.totals s.coder.tsize ((s.idx >>> s.coder.bits : Nat) : Int) =
      some (s.coder.totals k) := by rw [hshift]; exact tableGet_nat _ _ _ hk
  have hsum := sum_initial_le (fun i => s.coder.freqs (s.idx + i)) sym s.coder.symbols (by omega)
    (fun i hi => hfreq _ (by rw [hidx]; omega))
  have htk : s.coder.totals k = ∑ i ∈ Finset.range s.coder.symbols, s.coder.freqs (s.idx + i) := by
    rw [htab.inv.2 k hk, blockSum, hidx]
  have hsz1 : 1 ≤ s.coder.freqs (s.idx + sym) := hfreq _ (by rw [hidx]; omega)
  have htb := htab.bounded k hk
  simp only [] at hsum
  rw [← htk] at hsum
  obtain ⟨hst0, hst1⟩ := hsum
  have hsucc : ∑ t ∈ Finset.range (sym + 1), s.coder.freqs (s.idx + t) =
      (∑ t ∈ Finset.range sym, s.coder.freqs (s.idx + t)) + s.coder.freqs (s.idx + sym) :=
    Finset.sum_range_succ _ _
  set start := ∑ i ∈ Finset.range sym, s.coder.freqs (s.idx + i) with hstartdef
  set size := s.coder.freqs (s.idx + sym) with hsizedef
  set total := s.coder.totals k with htotaldef
  have hT : toU32 total = total.toNat := toU32_of_nonneg _ (by omega) (by omega)
  have hS : toU32 size = size.toNat := toU32_of_nonneg _ (by omega) (by omega)
  have hSt : toU32 start = start.toNat := toU32_of_nonneg _ (by omega) (by omega)
  have hTpos : 1 ≤ total.toNat := by omega
  have hSle : start.toNat + size.toNat ≤ total.toNat := by omega
  have hSpos : 1 ≤ size.toNat := by omega
  have hr1 : 1 ≤ s.range / total.toNat := by
    apply (Nat.le_div_iff_mul_le (by omega)).mpr
    omega
  have hr2 : start.toNat * (s.range / total.toNat) + s.range / total.toNat * size.toNat ≤ s.range :=
    calc start.toNat * (s.range / total.toNat) + s.range / total.toNat * size.toNat
        = s.range / total.toNat * (start.toNat + size.toNat) := by ring
      _ ≤ s.range / total.toNat * total.toNat := Nat.mul_le_mul_left _ hSle
      _ ≤ s.range := Nat.div_mul_le_self _ _
  have hr3 : 1 ≤ s.range / total.toNat * size.toNat := Nat.mul_pos hr1 hSpos
  refine ⟨start, size, total, s.range / total.toNat, hstart, hsize, htotal, rfl, hsucc.symm, hst0, hsz1, hst1, htb,
    by rw [hT]; omega, by rw [hT], hr1, ?_, ?_, hr3, by omega, by omega, by omega, ?_⟩
  · rw [hSt]; exact Nat.mod_eq_of_lt (by omega)
  · rw [hS]; exact Nat.mod_eq_of_lt (by omega)
  · have e1 : (s.low + toU32 start * (s.range / toU32 total)) % 4294967296 =
        s.low + start.toNat * (s.range / total.toNat) := by
      rw [hSt, hT]; exact Nat.mod_eq_of_lt (by omega)
    have e2 : (s.range / toU32 total * toU32 size) % 4294967296 = s.range / total.toNat * size.toNat := by
      rw [hS, hT]; exact Nat.mod_eq_of_lt (by omega)
    have hne : ¬ (toU32 total = 0) := by rw [hT]; omega
    unfold coded
    rw [hstart, hsize, htotal]
    dsimp only
    rw [if_neg hne, e1, e2]

theorem toI32_small (v : Nat) (h : v < 2147483648) : toI32 v = (v : Int) := by
  unfold toI32
  have : v % 4294967296 = v := Nat.mod_eq_of_lt (by omega)
  rw [this, if_pos h]

theorem next_idx_order0 (c : rangecoder) (ho : c.order = 0) (sym : Nat) : next_idx c 0 (sym : Int) = 0 := by
  rw [next_idx_eq, ho]
  simp

/-- What a round of the symbol loop of the encoder does, unfolded. -/
theorem compress_step_parts (s : EncState) (sym : Nat) (s' : EncState) (low1 range2 : Nat)
    (hc : coded s sym = some (low1, range2)) (h : compress_step s sym = some s') :
    compress_renorm renormFuel low1 range2 s.out = some (s'.low, s'.range, s'.out) ∧
    update_model s.coder s.idx (sym : Int) = some s'.coder ∧ s'.idx = next_idx s.coder s.idx (sym : Int) := by
  unfold compress_step at h
  unfold coded at hc
  split at h
  · rename_i start size total h1 h2 h3
    try rw [h1, h2, h3] at hc
    try dsimp only at hc
    split at h
    · exact absurd h (by simp)
    · rename_i ht
      rw [if_neg ht] at hc
      have hlr := Option.some.inj hc
      have e1 : low1 = _ := (Prod.mk.inj hlr).1.symm
      have e2 : range2 = _ := (Prod.mk.inj hlr).2.symm
      dsimp only at h
      rw [← e1, ← e2] at h
      split at h
      · exact absurd h (by simp)
      · rename_i low2 range3 out2 hren
        split at h
        · exact absurd h (by simp)
        · rename_i c hupd
          have hs' : s' = _ := (Option.some.inj h).symm
          subst hs'
          exact ⟨hren, hupd, rfl⟩
  · exact absurd h (by simp)

/-- A round of the encoder keeps `low + range <= 2^32`, keeps `idx = 0` in order
0, and only appends to `out`. -/
theorem compress_step_fits (s s' : EncState) (sym : Nat) (h : EncInv s) (hfit : s.low + s.range ≤ 4294967296)
    (hs : sym < s.coder.symbols) (hstep : compress_step s sym = some s') :
    s'.low + s'.range ≤ 4294967296 ∧ (∃ bytes, s'.out = s.out ++ bytes) ∧
    (s.coder.order = 0 → s.idx = 0 → s'.idx = 0) := by
  obtain ⟨start, size, total, r, h1, h2, h3, _, _, _, _, _, _, h10, h11, _, h13, h14, h15, h16, h17, h18, hcoded⟩ :=
    step_numbers s sym h hfit hs
  obtain ⟨hren, _, hnext⟩ := compress_step_parts s sym s' _ _ hcoded hstep
  obtain ⟨_, _, g3, _, _⟩ := renorm_sim (fun _ => 0) renormFuel _ _ s.out 0 _ h17 h15 h16 (by omega) hren
  refine ⟨g3, ⟨_, compress_renorm_out _ _ _ _ _ hren⟩, fun ho hi => ?_⟩
  rw [hnext, hi]
  exact next_idx_order0 _ ho sym

theorem div_between (x r a b : Nat) (hr : 1 ≤ r) (h1 : a * r ≤ x) (h2 : x < a * r + r * b) :
    a ≤ x / r ∧ x / r < a + b := by
  constructor
  · exact (Nat.le_div_iff_mul_le (by omega)).mpr h1
  · apply (Nat.div_lt_iff_lt_mul (by omega)).mpr
    calc x < a * r + r * b := h2
      _ = (a + b) * r := by ring

/-- A round of the decoder on the state that mirrors the encoder state `s`, reading
a stream whose window lies in the interval of the symbol `sym`: it finds `sym`
and mirrors the encoder state after `sym`. -/
theorem decompress_step_mirror (rd : Nat → Nat) (s s' : EncState) (sym p k : Nat) (dout : List Nat)
    (h : EncInv s) (hfit : s.low + s.range ≤ 4294967296) (hs : sym < s.coder.symbols)
    (hidx : s.idx = 0) (ho : s.coder.order = 0)
    (hstep : compress_step s sym = some s')
    (hk : s'.out.length = s.out.length + k)
    (hag : ∀ j, j < k → rd (p + j) % 256 = s'.out.getD (s.out.length + j) 0)
    (hw1 : s'.low ≤ window rd (p + k)) (hw2 : window rd (p + k) < s'.low + s'.range) :
    s.low ≤ window rd p ∧ window rd p < s.low + s.range ∧
    decompress_step rd { coder := s.coder, low := s.low, range := s.range, code := window rd p,
                         idx := 0, pos := p + 4, out := dout } =
      some (DecStep.next { coder := s'.coder, low := s'.low, range := s'.range, code := window rd (p + k),
                           idx := 0, pos := p + k + 4, out := dout ++ [sym] }) := by
  obtain ⟨start, size, total, r, h1, h2, h3, h4, h5, h6, h7, h8, h9, h10, h11, h12, h13, h14, h15, h16, h17, h18,
    hcoded⟩ := step_numbers s sym h hfit hs
  obtain ⟨hren, hupd, hnext⟩ := compress_step_parts s sym s' _ _ hcoded hstep
  have hout := compress_renorm_out _ _ _ _ _ hren
  dsimp only at hout
  have hlen : (renormBytes renormFuel (s.low + start.toNat * r) (r * size.toNat)).length = k := by
    have := congrArg List.length hout
    rw [List.length_append] at this
    omega
  obtain ⟨_, _, _, g4, g5⟩ := renorm_sim rd renormFuel _ _ s.out p _ h17 h15 h16 (by omega) hren
  rw [hlen] at g4 g5
  dsimp only at g4 g5
  have hag' : ∀ j, j < k → rd (p + j) % 256 =
      (renormBytes renormFuel (s.low + start.toNat * r) (r * size.toNat)).getD j 0 := by
    intro j hj
    rw [hag j hj, hout, List.getD_append_right _ _ _ _ (by omega)]
    congr 1
    omega
  obtain ⟨w1, w2⟩ := g5 hag' hw1 hw2
  refine ⟨by omega, by omega, ?_⟩
  -- the numbers of the decoder
  have hsz := h.tables.sized
  have hsym2 : s.coder.symbols = 2 ^ s.coder.bits := hsz.1
  have htot0 : tableGet s.coder.totals s.coder.tsize (((0 : Nat) <<< s.coder.bits : Nat) : Int) = some total := by
    rw [Nat.zero_shiftLeft]
    rw [hidx, Nat.zero_shiftRight] at h3
    exact h3
  have hcode : (window rd p + 4294967296 - s.low) % 4294967296 = window rd p - s.low := by
    have := window_lt rd p
    omega
  obtain ⟨v1, v2⟩ := div_between (window rd p - s.low) r start.toNat size.toNat h12 (by omega) (by omega)
  have hvlt : (window rd p - s.low) / r < 2147483648 := by omega
  have hval : toI32 ((window rd p + 4294967296 - s.low) % 4294967296 / (s.range / toU32 total)) =
      (((window rd p - s.low) / r : Nat) : Int) := by
    rw [hcode, ← h11]
    exact toI32_small _ hvlt
  have hblk : 0 + s.coder.symbols ≤ s.coder.fsize := by
    have := (encInv_access s h).2.1
    rw [hidx] at this
    exact this
  have hfr : ∀ t, t < s.coder.symbols → 0 ≤ s.coder.freqs (0 + t) := by
    intro t ht
    have := h.tables.inv.1 (0 + t) (by omega)
    omega
  rw [hidx] at h4 h5 h1 h2 hupd hnext
  have hsearch := decompress_search_finds s.coder 0 sym hblk hs hfr s.coder.symbols 0
    (((window rd p - s.low) / r : Nat) : Int) (by omega) (by omega)
    (by rw [Finset.sum_range_zero, ← h4]; omega) (by rw [Finset.sum_range_zero, ← h5]; omega)
  rw [Finset.sum_range_zero, sub_zero, ← h5] at hsearch
  have hsymI : (((sym + 1 : Nat) : Int) - 1) = (sym : Int) := by push_cast; ring
  have hput : putSymbol s.coder.bits (sym : Int) = sym := by
    unfold putSymbol
    have : ((sym : Int) % 2 ^ s.coder.bits) = ((sym % 2 ^ s.coder.bits : Nat) : Int) := by push_cast; rfl
    rw [this, Int.toNat_ofNat, Nat.mod_eq_of_lt (by rw [← hsym2]; exact hs)]
  have hr0 : ¬ (s.range / toU32 total = 0) := by rw [← h11]; omega
  have hnx : next_idx s.coder 0 (sym : Int) = 0 := next_idx_order0 _ ho sym
  unfold decompress_step
  dsimp only
  rw [htot0]
  dsimp only
  rw [if_neg h10, if_neg hr0, hval, hsearch]
  dsimp only
  rw [if_neg (by omega)]
  simp only [hsymI, Int.toNat_ofNat, h1, h2, hput]
  rw [← h11, h13, h14, g4]
  simp only [hupd, hnx]

theorem renormBytes_getD_lt (fuel : Nat) : ∀ (low range j : Nat), (renormBytes fuel low range).getD j 0 < 256 := by
  induction fuel with
  | zero => intro low range j; simp [renormBytes]
  | succ n ih =>
    intro low range j
    unfold renormBytes
    split
    · cases j with
      | zero =>
        rw [List.getD_cons_zero, topByte_eq]
        exact Nat.mod_lt _ (by norm_num)
      | succ j =>
        rw [List.getD_cons_succ]
        exact ih _ _ j
    · simp

theorem compress_loop_out (q : List Nat) : ∀ (s s' : EncState), compress_loop s q = some s' →
    ∃ bytes, s'.out = s.out ++ bytes := by
  induction q with
  | nil =>
    intro s s' h
    have : s' = s := (Option.some.inj h).symm
    subst this
    exact ⟨[], by simp⟩
  | cons sym q ih =>
    intro s s' h
    unfold compress_loop at h
    cases hstep : compress_step s sym with
    | none => rw [hstep] at h; exact absurd h (by simp)
    | some s1 =>
      rw [hstep] at h
      obtain ⟨_, _, h1, _⟩ := compress_step_out s sym s1 hstep
      obtain ⟨b2, h2⟩ := ih s1 s' h
      exact ⟨_, by rw [h2, h1, List.append_assoc]⟩

/-- The decoder follows the encoder: from mirrored states, on a stream that holds
from position `p` on the bytes the encoder writes from `s` on and then the four
bytes of its final `low`, the rounds of the decoder give back the symbols and
end in the mirror of the encoder's final state. -/
theorem decompress_rounds_mirror (rd : Nat → Nat) : ∀ (q : List Nat) (s s' : EncState) (p k : Nat)
    (dout : List Nat),
    EncInv s → s.low + s.range ≤ 4294967296 → s.idx = 0 → s.coder.order = 0 →
    (∀ x ∈ q, x < s.coder.symbols) →
    compress_loop s q = some s' →
    s'.out.length = s.out.length + k →
    (∀ j, j < k → rd (p + j) = s'.out.getD (s.out.length + j) 0) →
    window rd (p + k) = s'.low →
    s.low ≤ window rd p ∧ window rd p < s.low + s.range ∧
    decompress_rounds rd q.length
        { coder := s.coder, low := s.low, range := s.range, code := window rd p,
          idx := 0, pos := p + 4, out := dout } =
      some { coder := s'.coder, low := s'.low, range := s'.range, code := window rd (p + k),
             idx := 0, pos := p + k + 4, out := dout ++ q } := by
  intro q
  induction q with
  | nil =>
    intro s s' p k dout hinv hfit _ _ _ hloop hk _ hw
    have hs' : s' = s := (Option.some.inj hloop).symm
    subst hs'
    have hk0 : k = 0 := by omega
    subst hk0
    have := hinv.range_ge
    rw [Nat.add_zero] at hw
    refine ⟨by omega, by omega, ?_⟩
    simp [decompress_rounds]
  | cons sym q ih =>
    intro s s' p k dout hinv hfit hidx ho hin hloop hk hag hw
    have hsym : sym < s.coder.symbols := hin sym (List.mem_cons_self _ _)
    obtain ⟨s1, hstep, hinv1, ho1, _, hsy1, _, _⟩ := compress_step_spec s sym hinv hsym
    have hloop1 : compress_loop s1 q = some s' := by
      unfold compress_loop at hloop
      rw [hstep] at hloop
      exact hloop
    obtain ⟨hfit1, _, hidx1⟩ := compress_step_fits s s1 sym hinv hfit hsym hstep
    obtain ⟨lr, _, hout1, _⟩ := compress_step_out s sym s1 hstep
    obtain ⟨b2, hout2⟩ := compress_loop_out q s1 s' hloop1
    have hlen1 : s1.out.length = s.out.length + (renormBytes renormFuel lr.1 lr.2).length := by
      rw [hout1, List.length_append]
    have hlen2 : s'.out.length = s1.out.length + b2.length := by
      rw [hout2, List.length_append]
    have hkk : k = (renormBytes renormFuel lr.1 lr.2).length + b2.length := by omega
    have hpk : p + (renormBytes renormFuel lr.1 lr.2).length + b2.length = p + k := by omega
    obtain ⟨w1, w2, hrounds⟩ := ih s1 s' (p + (renormBytes renormFuel lr.1 lr.2).length) b2.length (dout ++ [sym])
      hinv1 hfit1 (hidx1 ho hidx) (ho1.trans ho) (fun x hx => by rw [hsy1]; exact hin x (List.mem_cons_of_mem _ hx))
      hloop1 hlen2
      (fun j hj => by
        have := hag ((renormBytes renormFuel lr.1 lr.2).length + j) (by omega)
        rw [← Nat.add_assoc] at this
        rw [this]
        congr 1
        omega)
      (by rw [hpk]; exact hw)
    have hag1 : ∀ j, j < (renormBytes renormFuel lr.1 lr.2).length →
        rd (p + j) % 256 = s1.out.getD (s.out.length + j) 0 := by
      intro j hj
      have h1 := hag j (by omega)
      have h2 : s'.out.getD (s.out.length + j) 0 = s1.out.getD (s.out.length + j) 0 := by
        rw [hout2, List.getD_append _ _ _ _ (by omega)]
      have h3 : s1.out.getD (s.out.length + j) 0 = (renormBytes renormFuel lr.1 lr.2).getD j 0 := by
        rw [hout1, List.getD_append_right _ _ _ _ (by omega)]
        congr 1
        omega
      have h4 := renormBytes_getD_lt renormFuel lr.1 lr.2 j
      rw [h1, h2, h3]
      exact Nat.mod_eq_of_lt h4
    obtain ⟨m1, m2, hdstep⟩ := decompress_step_mirror rd s s1 sym p _ dout hinv hfit hsym hidx ho hstep hlen1
      hag1 w1 w2
    refine ⟨m1, m2, ?_⟩
    rw [List.length_cons]
    unfold decompress_rounds
    rw [hdstep]
    dsimp only
    rw [hrounds, hpk]
    simp

theorem window_bytesBE (rd : Nat → Nat) (p low : Nat) (hl : low < 4294967296)
    (h : ∀ i, i < 4 → rd (p + i) = (bytesBE low).getD i 0) : window rd p = low := by
  have h0 := h 0 (by omega)
  have h1 := h 1 (by omega)
  have h2 := h 2 (by omega)
  have h3 := h 3 (by omega)
  simp only [bytesBE, List.getD_cons_zero, List.getD_cons_succ, Nat.add_zero] at h0 h1 h2 h3
  unfold window
  rw [h0, h1, h2, h3]
  omega

theorem roundtrip_tables (c : rangecoder) (S : List Nat) (h : TablesOK c) (ho : c.order = 0)
    (hS : ∀ x ∈ S, x < c.symbols) : RoundTrips c S := by
  have hinv0 := encInv_init c h
  obtain ⟨st, hst, hinv, _⟩ := compress_loop_spec S _ hinv0 hS
  have hcomp : rangecode_compress c S = some (1, st.out ++ bytesBE st.low, st.coder) := by
    simp only [rangecode_compress, hst, compress_flush_eq]
  have hlenout : (st.out ++ bytesBE st.low).length = st.out.length + 4 := by
    rw [List.length_append]; rfl
  obtain ⟨_, _, hrounds⟩ := decompress_rounds_mirror (getByte (st.out ++ bytesBE st.low)) S
    { coder := c, low := 0x00, range := maxrange, idx := 0x00, out := [] } st 0 st.out.length []
    hinv0 (by simp [maxrange]) rfl ho hS hst (by simp)
    (fun j hj => by
      unfold getByte
      simp only [Nat.zero_add, List.length_nil]
      exact List.getD_append _ _ _ _ hj)
    (window_bytesBE _ _ _ hinv.low_lt (fun i _ => by
      unfold getByte
      rw [Nat.zero_add, List.getD_append_right _ _ _ _ (by omega)]
      congr 1
      omega))
  rw [← decompress_fill_window] at hrounds
  simp only [Nat.zero_add, List.nil_append] at hrounds
  refine ⟨_, _, hcomp, ?_, _, hrounds, by rw [hlenout], rfl⟩
  unfold rangecode_decompress decompress_with
  rw [decompress_loop_result]
  exact Or.inl ⟨rfl, _, hrounds, rfl, rfl⟩

theorem wideCoder_created : rangecoder_create 0 16 = some wideCoder := by
  rw [create_some 0 16 (by decide) (by decide) (by decide) (by decide)]
  rfl

theorem halve_one : halve 1 = 1 := by decide

theorem halve_33 : halve 33 = 16 := by decide

theorem wide_update : ∃ c', update_model wideCoder 0 ((256 : Nat) : Int) = some c' ∧ c'.fsize = 65536 ∧ c'.tsize = 1 ∧
    c'.bits = 16 ∧ c'.freqs 0 = 1 ∧ c'.totals 0 = 65551 := by
  obtain ⟨c', hr, _, hb, _, hf, ht, hfr, htk, _⟩ := rescale_spec 0 65536
    { wideCoder with
      freqs := Function.update wideCoder.freqs 256 (1 + 32)
      totals := Function.update (Function.update wideCoder.totals 0 (65536 + 32)) 0 0 }
    (by decide) (by decide)
  dsimp only at hb hf ht hfr htk
  have hsh : 0 >>> wideCoder.bits = 0 := Nat.zero_shiftRight _
  rw [hsh] at htk
  rw [Function.update_same, zero_add] at htk
  have hsum : ∑ s ∈ Finset.range 65536, halve (Function.update wideCoder.freqs 256 (1 + 32) (0 + s)) = 65551 := by
    have h : ∀ s ∈ Finset.range 65536, halve (Function.update wideCoder.freqs 256 (1 + 32) (0 + s)) =
        1 + (if s = 256 then 15 else 0) := by
      intro s _
      rw [Nat.zero_add]
      by_cases hs : s = 256
      · subst hs
        rw [Function.update_same, if_pos rfl]
        decide
      · rw [Function.update_noteq hs, if_neg hs]
        exact halve_one
    rw [Finset.sum_congr rfl h, Finset.sum_add_distrib, Finset.sum_ite_eq']
    simp
  rw [hsum] at htk
  refine ⟨c', ?_, hf, ht, hb, ?_, htk⟩
  · unfold update_model
    have h1 : tableGet wideCoder.freqs wideCoder.fsize (((0 : Nat) : Int) + ((256 : Nat) : Int)) = some 1 := by
      decide
    have h2 : tableGet wideCoder.totals wideCoder.tsize (((0 >>> wideCoder.bits : Nat)) : Int) = some 65536 := by
      decide
    rw [h1, h2]
    dsimp only
    rw [if_pos (by decide)]
    have e : (((0 : Nat) : Int) + ((256 : Nat) : Int)).toNat = 256 := by decide
    rw [e, hsh]
    exact hr
  · rw [hfr, if_pos (by decide)]
    have : (0 : Nat) ≠ 256 := by decide
    rw [Function.update_noteq this]
    decide

theorem compress_step_some (s : EncState) (sym : Nat) (start size total : Int) (low2 range3 : Nat)
    (out2 : List Nat) (c : rangecoder)
    (h1 : sumFreqs s.coder s.idx sym = some start)
    (h2 : tableGet s.coder.freqs s.coder.fsize ((s.idx : Int) + (sym : Nat)) = some size)
    (h3 : tableGet s.coder.totals s.coder.tsize ((s.idx >>> s.coder.bits : Nat) : Int) = some total)
    (ht : toU32 total ≠ 0)
    (hren : compress_renorm renormFuel ((s.low + toU32 start * (s.range / toU32 total)) % 4294967296)
      ((s.range / toU32 total * toU32 size) % 4294967296) s.out = some (low2, range3, out2))
    (hu : update_model s.coder s.idx (sym : Int) = some c) :
    compress_step s sym =
      some { coder := c, low := low2, range := range3, idx := next_idx s.coder s.idx (sym : Int), out := out2 } := by
  unfold compress_step
  rw [h1, h2, h3]
  dsimp only
  rw [if_neg ht, hren]
  dsimp only
  rw [hu]

theorem compress_step_endless (s : EncState) (sym : Nat) (start size total : Int)
    (h1 : sumFreqs s.coder s.idx sym = some start)
    (h2 : tableGet s.coder.freqs s.coder.fsize ((s.idx : Int) + (sym : Nat)) = some size)
    (h3 : tableGet s.coder.totals s.coder.tsize ((s.idx >>> s.coder.bits : Nat) : Int) = some total)
    (hren : compress_renorm renormFuel ((s.low + toU32 start * (s.range / toU32 total)) % 4294967296)
      ((s.range / toU32 total * toU32 size) % 4294967296) s.out = none) :
    compress_step s sym = none := by
  unfold compress_step
  rw [h1, h2, h3]
  dsimp only
  split
  · rfl
  · rw [hren]

theorem wide_step1 : ∃ c', c'.fsize = 65536 ∧ c'.tsize = 1 ∧ c'.bits = 16 ∧ c'.freqs 0 = 1 ∧
    c'.totals 0 = 65551 ∧
    compress_step { coder := wideCoder, low := 0x00, range := maxrange, idx := 0x00, out := [] } 256 =
      some { coder := c', low := 4294901760, range := 65536, idx := 0, out := [0] } := by
  obtain ⟨c', hu, hf, ht, hb, hfr, htot⟩ := wide_update
  refine ⟨c', hf, ht, hb, hfr, htot, ?_⟩
  have h1 : sumFreqs wideCoder 0 256 = some 256 := by
    rw [sumFreqs_eq 0 256 (by decide)]
    simp [wideCoder]
  have h2 : tableGet wideCoder.freqs wideCoder.fsize (((0 : Nat) : Int) + ((256 : Nat) : Int)) = some 1 := by
    decide
  have h3 : tableGet wideCoder.totals wideCoder.tsize (((0 >>> wideCoder.bits : Nat)) : Int) = some 65536 := by
    decide
  have h4 : compress_renorm renormFuel ((0 + toU32 256 * (maxrange / toU32 65536)) % 4294967296)
      ((maxrange / toU32 65536 * toU32 1) % 4294967296) [] = some (4294901760, 65536, [0]) := by
    decide
  have h5 : next_idx wideCoder 0 ((256 : Nat) : Int) = 0 := by decide
  have := compress_step_some { coder := wideCoder, low := 0x00, range := maxrange, idx := 0x00, out := [] } 256
    256 1 65536 4294901760 65536 [0] c' h1 h2 h3 (by decide) h4 hu
  rw [this]
  dsimp only
  rw [h5]

theorem coded_some (s : EncState) (sym : Nat) (start size total : Int)
    (h1 : sumFreqs s.coder s.idx sym = some start)
    (h2 : tableGet s.coder.freqs s.coder.fsize ((s.idx : Int) + (sym : Nat)) = some size)
    (h3 : tableGet s.coder.totals s.coder.tsize ((s.idx >>> s.coder.bits : Nat) : Int) = some total)
    (ht : toU32 total ≠ 0) :
    coded s sym = some ((s.low + toU32 start * (s.range / toU32 total)) % 4294967296,
      (s.range / toU32 total * toU32 size) % 4294967296) := by
  unfold coded
  rw [h1, h2, h3]
  dsimp only
  rw [if_neg ht]

theorem compress_loop_two_none (s s1 : EncState) (a b : Nat) (h1 : compress_step s a = some s1)
    (h2 : compress_step s1 b = none) : compress_loop s [a, b] = none := by
  unfold compress_loop
  rw [h1]
  dsimp only
  unfold compress_loop
  rw [h2]

theorem rangecode_compress_none (c : rangecoder) (input : List Nat)
    (h : compress_loop { coder := c, low := 0x00, range := maxrange, idx := 0x00, out := [] } input = none) :
    rangecode_compress c input = none := by
  unfold rangecode_compress
  rw [h]

/-! ## Properties of the symbol steps and a long run of the decoder -/

theorem decompress_step_parts (rd : Nat → Nat) (s s1 : DecState)
    (h : decompress_step rd s = some (DecStep.next s1)) :
    ∃ (total value1 : Int) (i : Nat) (start size : Int),
      tableGet s.coder.totals s.coder.tsize ((s.idx <<< s.coder.bits : Nat) : Int) = some total ∧
      toU32 total ≠ 0 ∧ s.range / toU32 total ≠ 0 ∧
      decompress_search s.coder s.idx s.coder.symbols
        (toI32 (((s.code + 4294967296 - s.low) % 4294967296) / (s.range / toU32 total))) 0 = some (value1, i) ∧
      value1 < 0 ∧
      sumFreqs s.coder s.idx ((i : Int) - 1).toNat = some start ∧
      tableGet s.coder.freqs s.coder.fsize ((s.idx : Int) + ((i : Int) - 1)) = some size ∧
      decompress_renorm rd renormFuel ((s.low + toU32 start * (s.range / toU32 total)) % 4294967296)
        ((s.range / toU32 total * toU32 size) % 4294967296) s.code s.pos =
        some (s1.low, s1.range, s1.code, s1.pos) ∧
      update_model s.coder s.idx ((i : Int) - 1) = some s1.coder ∧
      s1.idx = next_idx s.coder s.idx ((i : Int) - 1) ∧
      s1.out = s.out ++ [putSymbol s.coder.bits ((i : Int) - 1)] := by
  unfold decompress_step at h
  split at h
  · exact absurd h (by simp)
  · rename_i total htot
    split_ifs at h with h1 h2
    dsimp only at h
    split at h
    · exact absurd h (by simp)
    · rename_i value1 i hsearch
      split_ifs at h with h3
      · exact absurd h (by simp)
      · split at h
        · rename_i start size hstart hsize
          split at h
          · exact absurd h (by simp)
          · rename_i low2 range3 code2 pos2 hren
            split at h
            · exact absurd h (by simp)
            · rename_i c hupd
              have := (DecStep.next.injEq _ _).mp (Option.some.inj h)
              subst this
              exact ⟨total, value1, i, start, size, htot, h1, h2, hsearch, by omega, hstart, hsize, hren, hupd,
                rfl, rfl⟩
        · exact absurd h (by simp)

theorem decompress_search_le (coder : rangecoder) (idx : Nat) : ∀ (n : Nat) (value : Int) (i : Nat) (v : Int)
    (j : Nat), decompress_search coder idx n value i = some (v, j) → i ≤ coder.symbols →
    i ≤ j ∧ j ≤ coder.symbols := by
  intro n
  induction n with
  | zero =>
    intro value i v j h hi
    have := Option.some.inj h
    have hj : i = j := (Prod.mk.inj this).2
    omega
  | succ n ih =>
    intro value i v j h hi
    unfold decompress_search at h
    split_ifs at h with hc
    · split at h
      · exact absurd h (by simp)
      · obtain ⟨h1, h2⟩ := ih _ _ _ _ h (by omega)
        omega
    · have := Option.some.inj h
      have hj : i = j := (Prod.mk.inj this).2
      omega

theorem tableGet_some {t : Nat → Int} {n : Nat} {i v : Int} (h : tableGet t n i = some v) :
    0 ≤ i ∧ i < n := by
  unfold tableGet at h
  split_ifs at h with hc
  exact hc

theorem safeStep_of_tables (c : rangecoder) (k range : Nat) (h : TablesOK c) (hk : k < c.tsize)
    (hge : 65536 ≤ range) (hlt : range < 4294967296) : SafeStep c k (k * c.symbols) range := by
  have hinv : EncInv { coder := c, low := 0, range := range, idx := k * c.symbols, out := [] } :=
    ⟨h, ⟨k, hk, rfl⟩, by norm_num, hge, hlt⟩
  have hshift : (k * c.symbols) >>> c.bits = k := idx_shift h.sized k
  have htot : tableGet c.totals c.tsize ((k : Nat) : Int) = some (c.totals k) := tableGet_nat _ _ _ hk
  have hpos := sized_symbols_pos h.sized
  obtain ⟨_, _, total, r, _, _, h3, _, _, _, _, h8, h9, h10, h11, h12, _⟩ :=
    step_numbers _ 0 hinv (by show 0 + range ≤ 4294967296; omega) hpos
  dsimp only at h3 h11
  rw [hshift, htot] at h3
  have ht : c.totals k = total := Option.some.inj h3
  subst ht
  have hfr0 := h.inv.1 (k * c.symbols + 0) (block_index_lt h.sized hk hpos)
  refine ⟨c.totals k, htot, ?_, by omega, hge, h10, by rw [← h11]; exact h12, fun sym hs => ?_⟩
  · have hb := h.inv.2 k hk
    have hsum := sum_initial_le (fun i => c.freqs (k * c.symbols + i)) 0 c.symbols (by omega)
      (fun i hi => h.inv.1 _ (block_index_lt h.sized hk hi))
    rw [hb, blockSum]
    simp only [Finset.sum_range_zero, zero_add] at hsum
    have := hsum.2
    simp only [Nat.add_zero] at hfr0 this
    omega
  · obtain ⟨start, size, total', r', g1, g2, g3, _, _, g6, g7, g8, _, _, g11, _, _, g14, g15, g16, _, g18, _⟩ :=
      step_numbers _ sym hinv (by show 0 + range ≤ 4294967296; omega) hs
    dsimp only at g1 g2 g3 g11 g14 g18
    rw [hshift, htot] at g3
    have ht : c.totals k = total' := Option.some.inj g3
    subst ht
    subst g11
    have hSt : toU32 start = start.toNat := toU32_of_nonneg _ g6 (by omega)
    have hSz : toU32 size = size.toNat := toU32_of_nonneg _ (by omega) (by omega)
    refine ⟨start, size, g1, g2, ?_, ?_, ?_, ?_⟩
    · rw [hSt]; omega
    · rw [hSz]; exact g16
    · rw [hSz]; exact g15
    · rw [hSz]; omega

/-- A round of the decoder that goes on has decoded a symbol below `symbols` and
keeps the invariant, whatever the input bytes. -/
theorem decompress_step_inv (rd : Nat → Nat) (s s1 : DecState) (hinv : DecInv s)
    (h : decompress_step rd s = some (DecStep.next s1)) :
    DecInv s1 ∧ s1.coder.symbols = s.coder.symbols ∧
      ∃ sym, sym < s.coder.symbols ∧ s1.out = s.out ++ [sym] := by
  obtain ⟨total, value1, i, start, size, htot, h1, h2, hsearch, hneg, hstart, hsize, hren, hupd, hidx, hout⟩ :=
    decompress_step_parts rd s s1 h
  obtain ⟨htab, ho, hi0, hl, hge, hlt⟩ := hinv
  have hsz := htab.sized
  have hpos := sized_symbols_pos hsz
  obtain ⟨_, hile⟩ := decompress_search_le _ _ _ _ _ _ _ hsearch (by omega)
  have hb := tableGet_some hsize
  rw [hi0] at hb hsize hstart hupd hidx
  have hi1 : 1 ≤ i := by omega
  obtain ⟨sym, hsym⟩ : ∃ sym, i = sym + 1 := ⟨i - 1, by omega⟩
  subst hsym
  have hsymI : (((sym + 1 : Nat) : Int) - 1) = (sym : Int) := by push_cast; ring
  rw [hsymI] at hsize hstart hupd hidx hout
  rw [Int.toNat_ofNat] at hstart
  have hs : sym < s.coder.symbols := by omega
  have ht : 0 < s.coder.tsize := by rw [hsz.2.2]; positivity
  -- the numbers, as in the encoder
  have hinvE : EncInv { coder := s.coder, low := s.low, range := s.range, idx := 0, out := [] } :=
    ⟨htab, ⟨0, ht, by simp⟩, hl, hge, hlt⟩
  have hsafe := safeStep_of_tables s.coder 0 s.range htab ht hge hlt
  obtain ⟨total', g1, _, _, _, _, g6, g7⟩ := hsafe
  rw [hi0, Nat.zero_shiftLeft] at htot
  rw [htot] at g1
  have ht' : total = total' := Option.some.inj g1
  subst ht'
  obtain ⟨start', size', k1, k2, k3, k4, k5, k6⟩ := g7 sym hs
  rw [Nat.zero_mul] at k1 k2
  rw [hstart] at k1
  rw [hsize] at k2
  have e1 : start = start' := Option.some.inj k1
  have e2 : size = size' := Option.some.inj k2
  subst e1 e2
  have hr2 : (s.range / toU32 total * toU32 size) % 4294967296 = s.range / toU32 total * toU32 size :=
    Nat.mod_eq_of_lt k4
  rw [hr2] at hren
  obtain ⟨low2, range3, out2, hcr, hl2, hr3ge, hr3lt⟩ :=
    compress_renorm_ends 29 ((s.low + toU32 start * (s.range / toU32 total)) % 4294967296)
      (s.range / toU32 total * toU32 size) [] (mod_u32_lt _) k4 k5
  have hlock := (decompress_renorm_lockstep rd (29 + 3) ((s.low + toU32 start * (s.range / toU32 total)) % 4294967296)
      (s.range / toU32 total * toU32 size) s.code s.pos []).1
  have hfu : renormFuel = 29 + 3 := rfl
  rw [hfu] at hren
  rw [hren, hcr] at hlock
  simp only [Option.map_some', Option.some.injEq, Prod.mk.injEq] at hlock
  obtain ⟨c', hupd', ho', _, hsy', _, _, htab'⟩ := update_model_spec s.coder 0 sym htab ht hs
  rw [Nat.zero_mul, hupd] at hupd'
  have hc : s1.coder = c' := Option.some.inj hupd'
  have hput : putSymbol s.coder.bits (sym : Int) = sym := by
    unfold putSymbol
    have : ((sym : Int) % 2 ^ s.coder.bits) = ((sym % 2 ^ s.coder.bits : Nat) : Int) := by push_cast; rfl
    rw [this, Int.toNat_ofNat, Nat.mod_eq_of_lt (by rw [← hsz.1]; exact hs)]
  refine ⟨⟨hc ▸ htab', by rw [hc, ho', ho], by rw [hidx]; exact next_idx_order0 _ ho sym,
    by rw [hlock.1]; exact hl2, by rw [hlock.2]; exact hr3ge, by rw [hlock.2]; exact hr3lt⟩,
    by rw [hc]; exact hsy', sym, hs, by rw [hout, hput]⟩

theorem decompress_rounds_inv (rd : Nat → Nat) : ∀ (k : Nat) (s sk : DecState), DecInv s →
    decompress_rounds rd k s = some sk →
    DecInv sk ∧ sk.coder.symbols = s.coder.symbols ∧
      ∃ syms, sk.out = s.out ++ syms ∧ ∀ x ∈ syms, x < s.coder.symbols := by
  intro k
  induction k with
  | zero =>
    intro s sk hinv h
    have : sk = s := (Option.some.inj h).symm
    subst this
    exact ⟨hinv, rfl, [], by simp, by simp⟩
  | succ k ih =>
    intro s sk hinv h
    unfold decompress_rounds at h
    split at h
    · rename_i s1 hs1
      obtain ⟨hinv1, hsy1, sym, hsym, hout1⟩ := decompress_step_inv rd s s1 hinv hs1
      obtain ⟨hinvk, hsyk, syms, houtk, hall⟩ := ih s1 sk hinv1 h
      refine ⟨hinvk, hsyk.trans hsy1, sym :: syms, by rw [houtk, hout1, List.append_assoc]; rfl, ?_⟩
      intro x hx
      rcases List.mem_cons.mp hx with hx | hx
      · rw [hx]; exact hsym
      · rw [← hsy1]; exact hall x hx
    · exact absurd h (by simp)

theorem tabIs_congr {c : rangecoder} {g g' : Nat → Int} {T T' : Int} (h : TabIs c g T)
    (hg : ∀ i, i < 256 → g i = g' i) (hT : T = T') : TabIs c g' T' :=
  ⟨h.order_eq, h.bits_eq, h.symbols_eq, h.fsize_eq, h.tsize_eq,
    fun i hi => (h.freqs_eq i hi).trans (hg i hi), h.totals_eq.trans hT⟩

theorem toU32_natCast (n : Nat) (h : n < 4294967296) : toU32 (n : Int) = n := by
  rw [toU32_of_nonneg _ (by omega) (by omega), Int.toNat_ofNat]

/-- The model update without halving, on tables with known values. -/
theorem update_model_tab (c : rangecoder) (g : Nat → Int) (T : Int) (sym : Nat) (h : TabIs c g T)
    (hs : sym < 256) (hT : T + 32 < 0xFFFF) :
    ∃ c', update_model c 0 (sym : Int) = some c' ∧ TabIs c' (Function.update g sym (g sym + 32)) (T + 32) := by
  have hget : tableGet c.freqs c.fsize (((0 : Nat) : Int) + (sym : Nat)) = some (g sym) := by
    rw [tableGet_add _ _ 0 sym (by rw [h.fsize_eq]; omega), Nat.zero_add, h.freqs_eq sym hs]
  have hgett : tableGet c.totals c.tsize (((0 >>> c.bits : Nat)) : Int) = some T := by
    rw [Nat.zero_shiftRight, tableGet_nat _ _ 0 (by rw [h.tsize_eq]; omega), h.totals_eq]
  have htoNat : (((0 : Nat) : Int) + (sym : Nat)).toNat = sym := by omega
  refine ⟨{ c with
      freqs := Function.update c.freqs sym (g sym + 32)
      totals := Function.update c.totals 0 (T + 32) }, ?_, ?_⟩
  · unfold update_model
    rw [hget, hgett]
    dsimp only
    rw [if_neg (by omega), htoNat, Nat.zero_shiftRight]
  · refine ⟨h.order_eq, h.bits_eq, h.symbols_eq, h.fsize_eq, h.tsize_eq, fun i hi => ?_, ?_⟩
    · show Function.update c.freqs sym (g sym + 32) i = Function.update g sym (g sym + 32) i
      by_cases hi2 : i = sym
      · subst hi2; rw [Function.update_same, Function.update_same]
      · rw [Function.update_noteq hi2, Function.update_noteq hi2]; exact h.freqs_eq i hi
    · show Function.update c.totals 0 (T + 32) 0 = T + 32
      rw [Function.update_same]

/-- A round of the symbol loop of the encoder without halving, on tables with
known values: the numbers decide the round. -/
theorem compress_step_tab (c : rangecoder) (g : Nat → Int) (T : Int) (sym low range : Nat) (out : List Nat)
    (startN sizeN totalN low2 range3 : Nat) (out2 : List Nat)
    (h : TabIs c g T) (hs : sym < 256) (hT : T + 32 < 0xFFFF)
    (hstart : ((startN : Nat) : Int) = ∑ t ∈ Finset.range sym, g t) (hsize : ((sizeN : Nat) : Int) = g sym)
    (htotal : ((totalN : Nat) : Int) = T) (h0 : totalN ≠ 0)
    (hb1 : startN < 4294967296) (hb2 : sizeN < 4294967296)
    (hren : compress_renorm renormFuel ((low + startN * (range / totalN)) % 4294967296)
      ((range / totalN * sizeN) % 4294967296) out = some (low2, range3, out2)) :
    ∃ c', compress_step { coder := c, low := low, range := range, idx := 0, out := out } sym =
        some { coder := c', low := low2, range := range3, idx := 0, out := out2 } ∧
      TabIs c' (Function.update g sym (g sym + 32)) (T + 32) ∧
      coded { coder := c, low := low, range := range, idx := 0, out := out } sym =
        some ((low + startN * (range / totalN)) % 4294967296, (range / totalN * sizeN) % 4294967296) := by
  obtain ⟨c', hu, htab'⟩ := update_model_tab c g T sym h hs hT
  have htl : totalN < 4294967296 := by omega
  have h1 : sumFreqs c 0 sym = some ((startN : Nat) : Int) := by
    rw [sumFreqs_eq 0 sym (by rw [h.fsize_eq]; omega), hstart]
    congr 1
    apply Finset.sum_congr rfl
    intro t ht
    rw [Nat.zero_add]
    exact h.freqs_eq t (by have := Finset.mem_range.mp ht; omega)
  have h2 : tableGet c.freqs c.fsize (((0 : Nat) : Int) + (sym : Nat)) = some ((sizeN : Nat) : Int) := by
    rw [tableGet_add _ _ 0 sym (by rw [h.fsize_eq]; omega), Nat.zero_add, h.freqs_eq sym hs, hsize]
  have h3 : tableGet c.totals c.tsize (((0 >>> c.bits : Nat)) : Int) = some ((totalN : Nat) : Int) := by
    rw [Nat.zero_shiftRight, tableGet_nat _ _ 0 (by rw [h.tsize_eq]; omega), h.totals_eq, htotal]
  have ht : toU32 ((totalN : Nat) : Int) ≠ 0 := by rw [toU32_natCast _ htl]; exact h0
  have hstep := compress_step_some { coder := c, low := low, range := range, idx := 0, out := out } sym
    startN sizeN totalN low2 range3 out2 c' h1 h2 h3 ht
    (by
      show compress_renorm renormFuel
        ((low + toU32 ((startN : Nat) : Int) * (range / toU32 ((totalN : Nat) : Int))) % 4294967296)
        ((range / toU32 ((totalN : Nat) : Int) * toU32 ((sizeN : Nat) : Int)) % 4294967296) out = _
      rw [toU32_natCast _ hb1, toU32_natCast _ hb2, toU32_natCast _ htl]
      exact hren) hu
  have hcoded := coded_some { coder := c, low := low, range := range, idx := 0, out := out } sym
    startN sizeN totalN h1 h2 h3 ht
  refine ⟨c', ?_, htab', ?_⟩
  · rw [hstep]
    dsimp only
    rw [next_idx_order0 c h.order_eq sym]
  · rw [hcoded]
    dsimp only
    rw [toU32_natCast _ hb1, toU32_natCast _ hb2, toU32_natCast _ htl]

theorem zero_run_enc : ∀ (k n : Nat) (st st' : Nat × Nat × List Nat) (c : rangecoder),
    TabIs c (zeroFreqs n) (256 + 32 * (n : Int)) → 256 + 32 * (n + k) < 65535 →
    zeroRun k n st = some st' →
    ∃ c', compress_loop { coder := c, low := st.1, range := st.2.1, idx := 0, out := st.2.2 }
        (List.replicate k 0) =
        some { coder := c', low := st'.1, range := st'.2.1, idx := 0, out := st'.2.2 } ∧
      TabIs c' (zeroFreqs (n + k)) (256 + 32 * ((n + k : Nat) : Int)) := by
  intro k
  induction k with
  | zero =>
    intro n st st' c htab _ h
    have : st' = st := (Option.some.inj h).symm
    subst this
    exact ⟨c, rfl, htab⟩
  | succ k ih =>
    intro n st st' c htab hlt h
    unfold zeroRun at h
    cases hz : zeroStep n st with
    | none => rw [hz] at h; exact absurd h (by simp)
    | some st1 =>
      rw [hz] at h
      dsimp only at h
      obtain ⟨c1, hstep, htab1, _⟩ := compress_step_tab c (zeroFreqs n) (256 + 32 * (n : Int)) 0 st.1 st.2.1 st.2.2
        0 (1 + 32 * n) (256 + 32 * n) st1.1 st1.2.1 st1.2.2 htab (by norm_num) (by omega)
        (by simp) (by simp [zeroFreqs]) (by push_cast; ring) (by omega) (by norm_num) (by omega) hz
      have htab1' : TabIs c1 (zeroFreqs (n + 1)) (256 + 32 * ((n + 1 : Nat) : Int)) := by
        refine tabIs_congr htab1 (fun i _ => ?_) (by push_cast; ring)
        unfold zeroFreqs
        by_cases hi : i = 0
        · subst hi
          rw [Function.update_same, if_pos rfl, if_pos rfl]
          push_cast; ring
        · rw [Function.update_noteq hi, if_neg hi, if_neg hi]
      obtain ⟨c', hloop, htab'⟩ := ih (n + 1) st1 st' c1 htab1' (by omega) h
      refine ⟨c', ?_, ?_⟩
      · rw [List.replicate_succ]
        unfold compress_loop
        rw [hstep]
        exact hloop
      · have e : n + (k + 1) = n + 1 + k := by omega
        rw [e]
        exact htab'

theorem tabIs_create (c : rangecoder) (h : rangecoder_create 0 8 = some c) :
    TabIs c (zeroFreqs 0) (256 + 32 * ((0 : Nat) : Int)) := by
  rw [create_some 0 8 (by decide) (by decide) (by decide) (by decide)] at h
  have hc : c = _ := (Option.some.inj h).symm
  subst hc
  refine ⟨rfl, rfl, rfl, rfl, rfl, fun i _ => ?_, ?_⟩
  · unfold zeroFreqs
    split <;> simp
  · simp

set_option maxRecDepth 100000 in
theorem zeroRun_1982 :
    zeroRun 1982 0 (0, maxrange, []) = some (0, 2910245844, [0, 0, 0, 0, 0, 0, 0, 0, 0, 0]) := by
  decide

set_option maxRecDepth 100000 in
theorem zeroRun_2039 : (zeroRun 2039 0 (0, maxrange, [])).isSome = true := by
  decide

/-- After 2039 symbols `0` on the fresh coder of order 0 with 8-bit symbols the
total is 65504: the update for the next symbol fires the halving. -/
theorem zeros_reach_halving :
    ∃ c st, rangecoder_create 0 8 = some c ∧
      compress_loop { coder := c, low := 0x00, range := maxrange, idx := 0x00, out := [] }
        (List.replicate 2039 0) = some st ∧
      st.coder.totals (st.idx >>> st.coder.bits) + 32 ≥ 0xFFFF := by
  obtain ⟨c, hc⟩ : ∃ c, rangecoder_create 0 8 = some c := ⟨_, rfl⟩
  obtain ⟨st', hst'⟩ := Option.isSome_iff_exists.mp zeroRun_2039
  obtain ⟨c', hloop, htab⟩ := zero_run_enc 2039 0 (0, maxrange, []) st' c (tabIs_create c hc) (by norm_num) hst'
  refine ⟨c, _, hc, hloop, ?_⟩
  show c'.totals (0 >>> c'.bits) + 32 ≥ 0xFFFF
  rw [Nat.zero_shiftRight, htab.totals_eq]
  norm_num

theorem sum_zeroFreqs_50 : ((63474 : Nat) : Int) = ∑ t ∈ Finset.range 50, zeroFreqs 1982 t := by
  decide

set_option maxRecDepth 100000 in
theorem sum_tailFreqs_99 : ((63587 : Nat) : Int) = ∑ t ∈ Finset.range 99, tailFreqs t := by
  decide

theorem tail_enc (c : rangecoder) (h : rangecoder_create 0 8 = some c) :
    ∃ c2 c3, compress_loop { coder := c, low := 0x00, range := maxrange, idx := 0x00, out := [] }
        (List.replicate 1982 0 ++ [50, 0]) =
        some { coder := c2, low := 347734016, range := 2981545825, idx := 0,
               out := [0, 0, 0, 0, 0, 0, 0, 0, 0, 0, 172, 231] } ∧
      TabIs c2 tailFreqs 63744 ∧
      compress_step { coder := c2, low := 347734016, range := 2981545825, idx := 0,
                      out := [0, 0, 0, 0, 0, 0, 0, 0, 0, 0, 172, 231] } 99 =
        some { coder := c3, low := 4294901760, range := 65536, idx := 0,
               out := [0, 0, 0, 0, 0, 0, 0, 0, 0, 0, 172, 231, 197, 255] } ∧
      TabIs c3 (Function.update tailFreqs 99 (tailFreqs 99 + 32)) (63744 + 32) ∧
      coded { coder := c2, low := 347734016, range := 2981545825, idx := 0,
              out := [0, 0, 0, 0, 0, 0, 0, 0, 0, 0, 172, 231] } 99 = some (3321888767, 46773) := by
  obtain ⟨c0, hl0, ht0⟩ := zero_run_enc 1982 0 (0, maxrange, []) _ c (tabIs_create c h) (by norm_num) zeroRun_1982
  dsimp only at hl0
  have ht0' : TabIs c0 (zeroFreqs 1982) 63680 := tabIs_congr ht0 (fun _ _ => rfl) (by norm_num)
  obtain ⟨c1, hs1, ht1, _⟩ := compress_step_tab c0 (zeroFreqs 1982) 63680 50 0 2910245844
    [0, 0, 0, 0, 0, 0, 0, 0, 0, 0] 63474 1 63680 347734016 2995060736 [0, 0, 0, 0, 0, 0, 0, 0, 0, 0, 172, 231]
    ht0' (by norm_num) (by norm_num) sum_zeroFreqs_50 (by decide) (by norm_num) (by norm_num) (by norm_num)
    (by norm_num) (by decide)
  obtain ⟨c2, hs2, ht2, _⟩ := compress_step_tab c1 _ (63680 + 32) 0 347734016 2995060736
    [0, 0, 0, 0, 0, 0, 0, 0, 0, 0, 172, 231] 0 63425 63712 347734016 2981545825
    [0, 0, 0, 0, 0, 0, 0, 0, 0, 0, 172, 231]
    ht1 (by norm_num) (by norm_num) (by simp) (by decide) (by norm_num) (by norm_num) (by norm_num)
    (by norm_num) (by decide)
  have ht2' : TabIs c2 tailFreqs 63744 := by
    refine tabIs_congr ht2 (fun i _ => ?_) (by norm_num)
    unfold tailFreqs zeroFreqs
    by_cases hi : i = 0
    · subst hi
      rw [Function.update_same, if_pos rfl]
      decide
    · rw [Function.update_noteq hi, if_neg hi]
      by_cases hi2 : i = 50
      · subst hi2
        rw [Function.update_same, if_pos rfl]
        decide
      · rw [Function.update_noteq hi2, if_neg hi2, if_neg hi]
  obtain ⟨c3, hs3, ht3, hcoded⟩ := compress_step_tab c2 tailFreqs 63744 99 347734016 2981545825
    [0, 0, 0, 0, 0, 0, 0, 0, 0, 0, 172, 231] 63587 1 63744 4294901760 65536
    [0, 0, 0, 0, 0, 0, 0, 0, 0, 0, 172, 231, 197, 255]
    ht2' (by norm_num) (by norm_num) sum_tailFreqs_99 (by decide) (by norm_num) (by norm_num) (by norm_num)
    (by norm_num) (by decide)
  refine ⟨c2, c3, ?_, ht2', hs3, ht3, ?_⟩
  · rw [compress_loop_append, hl0]
    show compress_loop _ [50, 0] = _
    unfold compress_loop
    rw [hs1]
    dsimp only
    unfold compress_loop
    rw [hs2]
    rfl
  · rw [hcoded]

theorem decompress_rounds_last (rd : Nat → Nat) : ∀ (k : Nat) (s s1 s2 : DecState),
    decompress_rounds rd k s = some s1 → decompress_step rd s1 = some (DecStep.next s2) →
    decompress_rounds rd (k + 1) s = some s2 := by
  intro k
  induction k with
  | zero =>
    intro s s1 s2 h hstep
    have : s1 = s := (Option.some.inj h).symm
    subst this
    unfold decompress_rounds
    rw [hstep]
    rfl
  | succ k ih =>
    intro s s1 s2 h hstep
    unfold decompress_rounds at h
    split at h
    · rename_i sa hsa
      have := ih sa s1 s2 h hstep
      rw [decompress_rounds, hsa]
      exact this
    · exact absurd h (by simp)

/-- A round of the decoder on the state that mirrors the encoder state `s`, with
the code in the interval that the encoder gives the symbol `sym`: it finds `sym`,
and `low` and `range` follow the encoder. -/
theorem decompress_step_follow (rd : Nat → Nat) (s s' : EncState) (sym p k low1 range2 : Nat) (dout : List Nat)
    (h : EncInv s) (hfit : s.low + s.range ≤ 4294967296) (hs : sym < s.coder.symbols)
    (hidx : s.idx = 0) (ho : s.coder.order = 0)
    (hstep : compress_step s sym = some s')
    (hk : s'.out.length = s.out.length + k)
    (hc : coded s sym = some (low1, range2))
    (hw1 : low1 ≤ window rd p) (hw2 : window rd p < low1 + range2) :
    decompress_step rd { coder := s.coder, low := s.low, range := s.range, code := window rd p,
                         idx := 0, pos := p + 4, out := dout } =
      some (DecStep.next { coder := s'.coder, low := s'.low, range := s'.range, code := window rd (p + k),
                           idx := 0, pos := p + k + 4, out := dout ++ [sym] }) := by
  obtain ⟨start, size, total, r, h1, h2, h3, h4, h5, h6, h7, h8, h9, h10, h11, h12, h13, h14, h15, h16, h17, h18,
    hcoded⟩ := step_numbers s sym h hfit hs
  rw [hcoded] at hc
  have hlr := Option.some.inj hc
  have e1 : s.low + start.toNat * r = low1 := (Prod.mk.inj hlr).1
  have e2 : r * size.toNat = range2 := (Prod.mk.inj hlr).2
  subst e1 e2
  obtain ⟨hren, hupd, hnext⟩ := compress_step_parts s sym s' _ _ hcoded hstep
  have hout := compress_renorm_out _ _ _ _ _ hren
  dsimp only at hout
  have hlen : (renormBytes renormFuel (s.low + start.toNat * r) (r * size.toNat)).length = k := by
    have := congrArg List.length hout
    rw [List.length_append] at this
    omega
  obtain ⟨_, _, _, g4, _⟩ := renorm_sim rd renormFuel _ _ s.out p _ h17 h15 h16 (by omega) hren
  rw [hlen] at g4
  dsimp only at g4
  have w1 : s.low + start.toNat * r ≤ window rd p := hw1
  have w2 : window rd p < s.low + start.toNat * r + r * size.toNat := hw2
  have hsz := h.tables.sized
  have hsym2 : s.coder.symbols = 2 ^ s.coder.bits := hsz.1
  have htot0 : tableGet s.coder.totals s.coder.tsize (((0 : Nat) <<< s.coder.bits : Nat) : Int) = some total := by
    rw [Nat.zero_shiftLeft]
    rw [hidx, Nat.zero_shiftRight] at h3
    exact h3
  have hcode : (window rd p + 4294967296 - s.low) % 4294967296 = window rd p - s.low := by
    have := window_lt rd p
    omega
  obtain ⟨v1, v2⟩ := div_between (window rd p - s.low) r start.toNat size.toNat h12 (by omega) (by omega)
  have hvlt : (window rd p - s.low) / r < 2147483648 := by omega
  have hval : toI32 ((window rd p + 4294967296 - s.low) % 4294967296 / (s.range / toU32 total)) =
      (((window rd p - s.low) / r : Nat) : Int) := by
    rw [hcode, ← h11]
    exact toI32_small _ hvlt
  have hblk : 0 + s.coder.symbols ≤ s.coder.fsize := by
    have := (encInv_access s h).2.1
    rw [hidx] at this
    exact this
  have hfr : ∀ t, t < s.coder.symbols → 0 ≤ s.coder.freqs (0 + t) := by
    intro t ht
    have := h.tables.inv.1 (0 + t) (by omega)
    omega
  rw [hidx] at h4 h5 h1 h2 hupd hnext
  have hsearch := decompress_search_finds s.coder 0 sym hblk hs hfr s.coder.symbols 0
    (((window rd p - s.low) / r : Nat) : Int) (by omega) (by omega)
    (by rw [Finset.sum_range_zero, ← h4]; omega) (by rw [Finset.sum_range_zero, ← h5]; omega)
  rw [Finset.sum_range_zero, sub_zero, ← h5] at hsearch
  have hsymI : (((sym + 1 : Nat) : Int) - 1) = (sym : Int) := by push_cast; ring
  have hput : putSymbol s.coder.bits (sym : Int) = sym := by
    unfold putSymbol
    have : ((sym : Int) % 2 ^ s.coder.bits) = ((sym % 2 ^ s.coder.bits : Nat) : Int) := by push_cast; rfl
    rw [this, Int.toNat_ofNat, Nat.mod_eq_of_lt (by rw [← hsym2]; exact hs)]
  have hr0 : ¬ (s.range / toU32 total = 0) := by rw [← h11]; omega
  have hnx : next_idx s.coder 0 (sym : Int) = 0 := next_idx_order0 _ ho sym
  unfold decompress_step
  dsimp only
  rw [htot0]
  dsimp only
  rw [if_neg h10, if_neg hr0, hval, hsearch]
  dsimp only
  rw [if_neg (by omega)]
  simp only [hsymI, Int.toNat_ofNat, h1, h2, hput]
  rw [← h11, h13, h14, g4]
  simp only [hupd, hnx]

/-- The decoder follows the encoder on any stream that starts with the bytes the
encoder writes and goes on inside the encoder's final interval. -/
theorem decompress_rounds_follow (rd : Nat → Nat) : ∀ (q : List Nat) (s s' : EncState) (p k : Nat)
    (dout : List Nat),
    EncInv s → s.low + s.range ≤ 4294967296 → s.idx = 0 → s.coder.order = 0 →
    (∀ x ∈ q, x < s.coder.symbols) →
    compress_loop s q = some s' →
    s'.out.length = s.out.length + k →
    (∀ j, j < k → rd (p + j) = s'.out.getD (s.out.length + j) 0) →
    s'.low ≤ window rd (p + k) → window rd (p + k) < s'.low + s'.range →
    s.low ≤ window rd p ∧ window rd p < s.low + s.range ∧
    decompress_rounds rd q.length
        { coder := s.coder, low := s.low, range := s.range, code := window rd p,
          idx := 0, pos := p + 4, out := dout } =
      some { coder := s'.coder, low := s'.low, range := s'.range, code := window rd (p + k),
             idx := 0, pos := p + k + 4, out := dout ++ q } := by
  intro q
  induction q with
  | nil =>
    intro s s' p k dout hinv hfit _ _ _ hloop hk _ hw1 hw2
    have hs' : s' = s := (Option.some.inj hloop).symm
    subst hs'
    have hk0 : k = 0 := by omega
    subst hk0
    rw [Nat.add_zero] at hw1 hw2
    refine ⟨hw1, hw2, ?_⟩
    simp [decompress_rounds]
  | cons sym q ih =>
    intro s s' p k dout hinv hfit hidx ho hin hloop hk hag hw1 hw2
    have hsym : sym < s.coder.symbols := hin sym (List.mem_cons_self _ _)
    obtain ⟨s1, hstep, hinv1, ho1, _, hsy1, _, _⟩ := compress_step_spec s sym hinv hsym
    have hloop1 : compress_loop s1 q = some s' := by
      unfold compress_loop at hloop
      rw [hstep] at hloop
      exact hloop
    obtain ⟨hfit1, _, hidx1⟩ := compress_step_fits s s1 sym hinv hfit hsym hstep
    obtain ⟨lr, _, hout1, _⟩ := compress_step_out s sym s1 hstep
    obtain ⟨b2, hout2⟩ := compress_loop_out q s1 s' hloop1
    have hlen1 : s1.out.length = s.out.length + (renormBytes renormFuel lr.1 lr.2).length := by
      rw [hout1, List.length_append]
    have hlen2 : s'.out.length = s1.out.length + b2.length := by
      rw [hout2, List.length_append]
    have hkk : k = (renormBytes renormFuel lr.1 lr.2).length + b2.length := by omega
    have hpk : p + (renormBytes renormFuel lr.1 lr.2).length + b2.length = p + k := by omega
    obtain ⟨w1, w2, hrounds⟩ := ih s1 s' (p + (renormBytes renormFuel lr.1 lr.2).length) b2.length (dout ++ [sym])
      hinv1 hfit1 (hidx1 ho hidx) (ho1.trans ho) (fun x hx => by rw [hsy1]; exact hin x (List.mem_cons_of_mem _ hx))
      hloop1 hlen2
      (fun j hj => by
        have := hag ((renormBytes renormFuel lr.1 lr.2).length + j) (by omega)
        rw [← Nat.add_assoc] at this
        rw [this]
        congr 1
        omega)
      (by rw [hpk]; exact hw1) (by rw [hpk]; exact hw2)
    have hag1 : ∀ j, j < (renormBytes renormFuel lr.1 lr.2).length →
        rd (p + j) % 256 = s1.out.getD (s.out.length + j) 0 := by
      intro j hj
      have h1 := hag j (by omega)
      have h2 : s'.out.getD (s.out.length + j) 0 = s1.out.getD (s.out.length + j) 0 := by
        rw [hout2, List.getD_append _ _ _ _ (by omega)]
      have h3 : s1.out.getD (s.out.length + j) 0 = (renormBytes renormFuel lr.1 lr.2).getD j 0 := by
        rw [hout1, List.getD_append_right _ _ _ _ (by omega)]
        congr 1
        omega
      have h4 := renormBytes_getD_lt renormFuel lr.1 lr.2 j
      rw [h1, h2, h3]
      exact Nat.mod_eq_of_lt h4
    obtain ⟨m1, m2, hdstep⟩ := decompress_step_mirror rd s s1 sym p _ dout hinv hfit hsym hidx ho hstep hlen1
      hag1 w1 w2
    refine ⟨m1, m2, ?_⟩
    rw [List.length_cons]
    unfold decompress_rounds
    rw [hdstep]
    dsimp only
    rw [hrounds, hpk]
    simp

/-- A round of the decoder in which `value` is negative right after the division:
the search loop is not entered, `symbol` is `-1`, and the read of
`freqs[idx+symbol]` leaves the table. -/
theorem decompress_step_negative (rd : Nat → Nat) (d : DecState) (total : Int)
    (ht : tableGet d.coder.totals d.coder.tsize ((d.idx <<< d.coder.bits : Nat) : Int) = some total)
    (h0 : toU32 total ≠ 0) (hr : d.range / toU32 total ≠ 0)
    (hv : toI32 (((d.code + 4294967296 - d.low) % 4294967296) / (d.range / toU32 total)) < 0)
    (hidx : d.idx = 0) : decompress_step rd d = none := by
  have hget : tableGet d.coder.freqs d.coder.fsize ((d.idx : Int) + (((0 : Nat) : Int) - 1)) = none := by
    unfold tableGet
    rw [if_neg]
    rw [hidx]
    intro h
    have := h.1
    omega
  unfold decompress_step
  rw [ht]
  dsimp only
  rw [if_neg h0, if_neg hr, decompress_search_stop _ _ _ _ _ hv]
  dsimp only
  rw [if_neg (by omega), hget]
  cases sumFreqs d.coder d.idx (((0 : Nat) : Int) - 1).toNat <;> rfl

theorem decompress_loop_stuck (rd : Nat → Nat) : ∀ (k : Nat) (s d : DecState) (m : Nat),
    decompress_rounds rd k s = some d → decompress_step rd d = none →
    decompress_loop rd (k + 1 + m) s = none := by
  intro k
  induction k with
  | zero =>
    intro s d m h hstep
    have : d = s := (Option.some.inj h).symm
    subst this
    have e : 0 + 1 + m = m + 1 := by omega
    rw [e]
    unfold decompress_loop
    rw [hstep]
  | succ k ih =>
    intro s d m h hstep
    unfold decompress_rounds at h
    split at h
    · rename_i sa hsa
      have e : k + 1 + 1 + m = (k + 1 + m) + 1 := by omega
      rw [e]
      unfold decompress_loop
      rw [hsa]
      exact ih sa d m h hstep
    · exact absurd h (by simp)

theorem badInput_run (c : rangecoder) (hc : rangecoder_create 0 8 = some c) :
    ∃ d, decompress_rounds (getByte badInput) 1985
        { coder := c, low := 0x00, range := maxrange, code := decompress_fill (getByte badInput) 4,
          idx := 0x00, pos := 4, out := [] } = some d ∧
      d.out = List.replicate 1982 0 ++ [50, 0, 99] ∧ d.pos = 18 ∧
      d.low = 4294901760 ∧ d.range = 65536 ∧ d.code = 2147418112 ∧ d.idx = 0 ∧
      d.coder.bits = 8 ∧ d.coder.symbols = 256 ∧ d.coder.fsize = 256 ∧ d.coder.tsize = 1 ∧
      d.coder.totals 0 = 63776 := by
  have htab := tablesOK_create 0 8 c (by norm_num) hc
  have hcr := tabIs_create c hc
  have hinv0 := encInv_init c htab
  obtain ⟨c2, c3, hloop, ht2, hs3, ht3, hcoded⟩ := tail_enc c hc
  have hS : ∀ x ∈ List.replicate 1982 0 ++ [50, 0], x < c.symbols := by
    intro x hx
    rw [hcr.symbols_eq]
    rcases List.mem_append.mp hx with h | h
    · rw [(List.mem_replicate.mp h).2]; norm_num
    · simp only [List.mem_cons, List.mem_singleton, List.not_mem_nil, or_false] at h
      rcases h with h | h <;> rw [h] <;> norm_num
  obtain ⟨st, hst, hinv, _⟩ := compress_loop_spec _ _ hinv0 hS
  rw [hloop] at hst
  have est := Option.some.inj hst
  rw [← est] at hinv
  have hw12 : window (getByte badInput) 12 = 3321921535 := by decide
  have hw14 : window (getByte badInput) 14 = 2147418112 := by decide
  have hag : ∀ j, j < 12 → getByte badInput (0 + j) =
      List.getD [0, 0, 0, 0, 0, 0, 0, 0, 0, 0, 172, 231] (0 + j) 0 := by decide
  obtain ⟨_, _, hrounds⟩ := decompress_rounds_follow (getByte badInput) (List.replicate 1982 0 ++ [50, 0])
    { coder := c, low := 0x00, range := maxrange, idx := 0x00, out := [] }
    { coder := c2, low := 347734016, range := 2981545825, idx := 0,
      out := [0, 0, 0, 0, 0, 0, 0, 0, 0, 0, 172, 231] } 0 12 []
    hinv0 (by simp [maxrange]) rfl hcr.order_eq hS hloop (by rfl)
    (fun j hj => hag j hj) (by rw [hw12]; norm_num) (by rw [hw12]; norm_num)
  have hstep := decompress_step_follow (getByte badInput)
    { coder := c2, low := 347734016, range := 2981545825, idx := 0,
      out := [0, 0, 0, 0, 0, 0, 0, 0, 0, 0, 172, 231] }
    { coder := c3, low := 4294901760, range := 65536, idx := 0,
      out := [0, 0, 0, 0, 0, 0, 0, 0, 0, 0, 172, 231, 197, 255] } 99 12 2 3321888767 46773
    ([] ++ (List.replicate 1982 0 ++ [50, 0])) hinv (by norm_num) (by rw [ht2.symbols_eq]; norm_num) rfl
    ht2.order_eq hs3 (by rfl) hcoded (by rw [hw12]; norm_num) (by rw [hw12]; norm_num)
  have hlast := decompress_rounds_last _ _ _ _ _ hrounds hstep
  rw [← decompress_fill_window] at hlast
  have hlen : (List.replicate 1982 0 ++ [50, 0]).length + 1 = 1985 := by
    rw [List.length_append, List.length_replicate]
    rfl
  rw [hlen] at hlast
  dsimp only at hlast
  refine ⟨_, hlast, ?_, rfl, rfl, rfl, hw14, rfl, ht3.bits_eq, ht3.symbols_eq, ht3.fsize_eq, ht3.tsize_eq, ?_⟩
  · show [] ++ (List.replicate 1982 0 ++ [50, 0]) ++ [99] = List.replicate 1982 0 ++ [50, 0, 99]
    rw [List.nil_append, List.append_assoc]
    rfl
  · exact ht3.totals_eq

/-! ## The claims -/

/-- C1, at the failing input. With `order = 1` and `bits = 1` the symbols `1, 0`
are compressed to the bytes `7F FF FF FF` with return value 1. On these bytes a
fresh coder of the same parameters decodes the first symbol `1`; for the second
symbol (`length = 2`) `rangecode_decompress` reads `totals[idx<<bits]`, which is
`totals[4]` and lies outside the two entries of `totals`, so the run has no
defined result instead of returning 1 with the output `1, 0`. -/
theorem roundtrip_order1_leaves_totals :
    ∃ c, rangecoder_create 1 1 = some c ∧
      (rangecode_compress c [1, 0]).map (fun r => (r.1, r.2.1)) = some (1, [127, 255, 255, 255]) ∧
      (rangecode_decompress c [127, 255, 255, 255] 1).map (fun r => (r.1, r.2.1)) = some (1, [1]) ∧
      tableGet c.totals c.tsize ((2 <<< c.bits : Nat) : Int) = none ∧
      (rangecode_decompress c [127, 255, 255, 255] 2).isNone = true := by
  refine ⟨_, rfl, ?_, ?_, ?_, ?_⟩ <;> decide

/-- C2, at the failing input. A cache of two entries with blocks of 2x2 pixels is
created and the 2x2 tile `1, 2, 3, 4` is written (a miss, installed in slot 1).
The write of the 2x2 tile `1, 9, 9, 9` then returns the index 1, although the
tile's second pixel is 9 and the second stored pixel of entry 1 is not: `memcmp`
compares `size = 4` bytes, which is the first pixel only (and `memcpy` had
stored `blocksize*blocksize = 4` bytes of the first tile). -/
theorem hit_on_first_pixel :
    returned (tilecache_create 2 2) (image [1, 2, 3, 4]) 0 2 0 2 2 0xFFFFFFFF = some (-1) ∧
    returned (after (tilecache_create 2 2) (image [1, 2, 3, 4]) 0 2 0 2 2 0xFFFFFFFF)
      (image [1, 9, 9, 9]) 0 2 0 2 2 0xFFFFFFFF = some 1 ∧
    bytesOf (rectPixels (image [1, 9, 9, 9]) 0 2 0 2 2 0xFFFFFFFF) =
      [1, 0, 0, 0, 9, 0, 0, 0, 9, 0, 0, 0, 9, 0, 0, 0] ∧
    ((after (after (tilecache_create 2 2) (image [1, 2, 3, 4]) 0 2 0 2 2 0xFFFFFFFF)
      (image [1, 9, 9, 9]) 0 2 0 2 2 0xFFFFFFFF).tiles 1).data =
      [1, 0, 0, 0, 0, 0, 0, 0, 0, 0, 0, 0, 0, 0, 0, 0] := by
  refine ⟨?_, ?_, ?_, ?_⟩ <;> decide

/-- C3. In every cache that the interface produces, a call of `tilecache_write`
on a rect that fits a block, whose masked tile is stored in the present entry
`k` (same size `w*h`, the entry's first `4*w*h` bytes are the bytes of the tile),
returns `k`, and the cache afterwards is the cache before with `numblocks` and
`hits` incremented and the tile in `tempdata`: the cursor, the entries and the
bucket heads are unchanged. -/
theorem hit_returns_entry (c : tilecache) (pixels : Int → Nat) (x1 x2 y1 y2 width : Int) (mask : Nat) (k : Nat)
    (hr : Reachable c) (hfit : FitsBlock c x1 x2 y1 y2) (hk : k < c.size)
    (hp : (c.tiles k).present = true) (hs : (c.tiles k).size = callSize x1 x2 y1 y2)
    (hd : (c.tiles k).data.take (pixelSize * (callSize x1 x2 y1 y2).toNat) =
      bytesOf (rectPixels pixels x1 x2 y1 y2 width mask)) :
    tilecache_write c pixels x1 x2 y1 y2 width mask = some ((k : Int),
      { c with numblocks := c.numblocks + 1
               tempdata := scratchTile c.blocksize (rectPixels pixels x1 x2 y1 y2 width mask)
               hits := c.hits + 1 }) ∧
    (k : Int) ≠ -1 := by
  have hinv := reachable_inv c hr
  have hm := matches_of_data c pixels x1 x2 y1 y2 width mask hfit (c.tiles k) hp hs hd
  refine ⟨write_hit c pixels x1 x2 y1 y2 width mask hfit k hk hm (fun j hj hmj => ?_), by omega⟩
  have hjk : j = k := by
    refine hinv.twins j k (by omega) hk hmj.1 hp (hmj.2.1.trans hs.symm) ?_
    rw [hmj.2.1, ← hmj.2.2, hm.2.2]
  omega

/-- C3, witness: a cache of two entries with blocks of one pixel after the write of
the pixel 5, and a second write of the pixel 5, which is stored in entry 1. -/
theorem hit_returns_entry_witness :
    tilecache_write (after (tilecache_create 2 1) (image [5]) 0 1 0 1 1 0xFFFFFFFF)
      (image [5]) 0 1 0 1 1 0xFFFFFFFF = some (((1 : Nat) : Int),
      { after (tilecache_create 2 1) (image [5]) 0 1 0 1 1 0xFFFFFFFF with
        numblocks := (after (tilecache_create 2 1) (image [5]) 0 1 0 1 1 0xFFFFFFFF).numblocks + 1
        tempdata := scratchTile (after (tilecache_create 2 1) (image [5]) 0 1 0 1 1 0xFFFFFFFF).blocksize
          (rectPixels (image [5]) 0 1 0 1 1 0xFFFFFFFF)
        hits := (after (tilecache_create 2 1) (image [5]) 0 1 0 1 1 0xFFFFFFFF).hits + 1 }) ∧
    ((1 : Nat) : Int) ≠ -1 :=
  hit_returns_entry (after (tilecache_create 2 1) (image [5]) 0 1 0 1 1 0xFFFFFFFF)
    (image [5]) 0 1 0 1 1 0xFFFFFFFF 1
    (reachable_after _ _ _ _ _ _ _ _ (Reachable.create 2 1 (by decide)) (by decide))
    (by decide) (by decide) (by decide) (by decide) (by decide)

/-- C4. Start from a cache as `tilecache_create` (at least one entry) or
`tilecache_reset` leaves it and run any sequence of calls of `tilecache_write` on
rects that fit a block, counting the misses. The run ends, the cursor is the
number of misses modulo `size`, and every present entry in slot `j` carries the
number of the miss that installed it, which is `j` modulo `size`. A further call
returns; if it hits, the cursor and the entries stay; if it misses, being miss
number `k = misses + 1`, the cursor becomes `k mod size` and the slot there is
installed (present, size and hash of the tile), and if that slot held a present
entry, no present entry was installed before it. -/
theorem fifo_cursor (c0 : tilecache) (calls : List Call) (next : Call) (hfresh : Fresh c0)
    (hfit : ∀ call ∈ calls, FitsBlock c0 call.x1 call.x2 call.y1 call.y2)
    (hnext : FitsBlock c0 next.x1 next.x2 next.y1 next.y2) :
    ∃ s, runCalls { cache := c0, misses := 0, stamp := fun _ => 0 } calls = some s ∧
      s.cache.size = c0.size ∧ s.cache.index = s.misses % c0.size ∧
      (∀ j, j < c0.size → (s.cache.tiles j).present = true →
        s.stamp j % c0.size = j ∧ 1 ≤ s.stamp j ∧ s.stamp j ≤ s.misses) ∧
      ∃ r c', tilecache_write s.cache next.pixels next.x1 next.x2 next.y1 next.y2 next.width next.mask =
          some (r, c') ∧
        (r ≠ -1 → c'.index = s.cache.index ∧ c'.tiles = s.cache.tiles) ∧
        (r = -1 → c'.index = (s.misses + 1) % c0.size ∧
          (c'.tiles c'.index).present = true ∧
          (c'.tiles c'.index).size = callSize next.x1 next.x2 next.y1 next.y2 ∧
          (c'.tiles c'.index).hash =
            fletcher16 (bytesOf (rectPixels next.pixels next.x1 next.x2 next.y1 next.y2 next.width next.mask))
              ((pixelSize : Int) * callSize next.x1 next.x2 next.y1 next.y2) ∧
          (∀ j, j ≠ c'.index → (c'.tiles j).present = (s.cache.tiles j).present) ∧
          ((s.cache.tiles c'.index).present = true →
            ∀ j, j < c0.size → (s.cache.tiles j).present = true → s.stamp c'.index ≤ s.stamp j)) := by
  obtain ⟨s, hs, hinv⟩ := runCalls_inv c0.size c0.blocksize calls _ (fresh_runInv c0 hfresh) hfit
  obtain ⟨hci, hsz, hbs, hcur, hst⟩ := hinv
  have hn : 1 ≤ c0.size := by rw [← hsz]; exact hci.size_pos
  have hf : FitsBlock s.cache next.x1 next.x2 next.y1 next.y2 := by
    unfold FitsBlock
    rw [hbs]
    exact hnext
  obtain ⟨r, c', hw, _, _, _, hhit, hmiss⟩ :=
    write_outcome s.cache next.pixels next.x1 next.x2 next.y1 next.y2 next.width next.mask hci hf
  refine ⟨s, hs, hsz, hcur, fun j hj hp => ?_, r, c', hw, fun hr => ?_, fun hr => ?_⟩
  · obtain ⟨a1, a2, a3, _⟩ := hst j hj hp
    exact ⟨a1, a2, a3⟩
  · exact ⟨(hhit hr).1, (hhit hr).2.1⟩
  · obtain ⟨hix, hpres, hsize, hhash, hoth⟩ := hmiss hr
    rw [hsz, hcur, succ_mod_mod] at hix
    refine ⟨hix, hpres, hsize, hhash, hoth, fun hp j hj hpj => ?_⟩
    have hlt : c'.index < c0.size := by rw [hix]; exact Nat.mod_lt _ (by omega)
    obtain ⟨a1, _, a3, a4⟩ := hst c'.index hlt hp
    obtain ⟨_, _, _, b4⟩ := hst j hj hpj
    have := stamp_oldest (a1.trans hix) a3 a4
    omega

/-- C4, witness: a cache of two entries with blocks of one pixel, the writes of
the pixels 5 and 6, and the write of the pixel 7, which is the third miss. -/
theorem fifo_cursor_witness :
    ∃ s, runCalls { cache := tilecache_create 2 1, misses := 0, stamp := fun _ => 0 }
        [{ pixels := image [5], x1 := 0, x2 := 1, y1 := 0, y2 := 1, width := 1, mask := 0xFFFFFFFF },
         { pixels := image [6], x1 := 0, x2 := 1, y1 := 0, y2 := 1, width := 1, mask := 0xFFFFFFFF }] = some s ∧
      s.cache.size = (tilecache_create 2 1).size ∧ s.cache.index = s.misses % (tilecache_create 2 1).size ∧
      (∀ j, j < (tilecache_create 2 1).size → (s.cache.tiles j).present = true →
        s.stamp j % (tilecache_create 2 1).size = j ∧ 1 ≤ s.stamp j ∧ s.stamp j ≤ s.misses) ∧
      ∃ r c', tilecache_write s.cache (image [7]) 0 1 0 1 1 0xFFFFFFFF = some (r, c') ∧
        (r ≠ -1 → c'.index = s.cache.index ∧ c'.tiles = s.cache.tiles) ∧
        (r = -1 → c'.index = (s.misses + 1) % (tilecache_create 2 1).size ∧
          (c'.tiles c'.index).present = true ∧
          (c'.tiles c'.index).size = callSize 0 1 0 1 ∧
          (c'.tiles c'.index).hash =
            fletcher16 (bytesOf (rectPixels (image [7]) 0 1 0 1 1 0xFFFFFFFF))
              ((pixelSize : Int) * callSize 0 1 0 1) ∧
          (∀ j, j ≠ c'.index → (c'.tiles j).present = (s.cache.tiles j).present) ∧
          ((s.cache.tiles c'.index).present = true →
            ∀ j, j < (tilecache_create 2 1).size → (s.cache.tiles j).present = true →
              s.stamp c'.index ≤ s.stamp j)) :=
  fifo_cursor (tilecache_create 2 1)
    [{ pixels := image [5], x1 := 0, x2 := 1, y1 := 0, y2 := 1, width := 1, mask := 0xFFFFFFFF },
     { pixels := image [6], x1 := 0, x2 := 1, y1 := 0, y2 := 1, width := 1, mask := 0xFFFFFFFF }]
    { pixels := image [7], x1 := 0, x2 := 1, y1 := 0, y2 := 1, width := 1, mask := 0xFFFFFFFF }
    (Or.inl ⟨2, 1, by decide, rfl⟩) (by decide) (by decide)

/-- C5, counterexample. With `order = 0` and `bits = 1` the symbols `1, 0, 1`
are compressed to `81 E1 E1 DC`; on this stream without its final byte
`rangecode_decompress` with `length = 3` returns 1 (not 0) and outputs `1, 0, 0`. -/
theorem truncated_stream_returns_one :
    ∃ c, rangecoder_create 0 1 = some c ∧
      (rangecode_compress c [1, 0, 1]).map (fun r => (r.1, r.2.1)) = some (1, [129, 225, 225, 220]) ∧
      (rangecode_decompress c ([129, 225, 225, 220] : List Nat).dropLast 3).map (fun r => (r.1, r.2.1)) =
        some (1, [1, 0, 0]) := by
  refine ⟨_, rfl, ?_, ?_⟩ <;> decide

/-- C5, as amended. For `order = 0`, `bits` in {1, 8} and every sequence `S` of
symbols below `2^bits`, compressed from the coder as `rangecoder_create` returns
it: `rangecode_compress` returns 1 with a stream `out` that the decoder takes
back to `S`, and `rangecode_decompress` has no test for the end of the input.
On `out` without its final byte it does what it does on `out` with the final
byte replaced by zero; so whenever the final byte of `out` is zero, the
truncated stream is decoded exactly like the whole one: return value 1, output
`S`, and the model that the compression left. -/
theorem truncated_stream_undetected (bits : Nat) (S : List Nat) (c : rangecoder) (hb : bits = 1 ∨ bits = 8)
    (hc : rangecoder_create 0 bits = some c) (hS : ∀ x ∈ S, x < 2 ^ bits) :
    ∃ out c', rangecode_compress c S = some (1, out, c') ∧
      rangecode_decompress c out S.length = some (1, S, c') ∧
      rangecode_decompress c out.dropLast S.length = rangecode_decompress c (out.dropLast ++ [0]) S.length ∧
      (out.getLast? = some 0 → rangecode_decompress c out.dropLast S.length = some (1, S, c')) := by
  have htc := tablesOK_create 0 bits c (by omega) hc
  obtain ⟨hco, hcb⟩ := create_fields 0 bits c hc
  obtain ⟨out, c', h1, h2, _⟩ := roundtrip_tables c S htc hco
    (fun x hx => by rw [htc.sized.1, hcb]; exact hS x hx)
  have h3 : rangecode_decompress c out.dropLast S.length =
      rangecode_decompress c (out.dropLast ++ [0]) S.length := by
    unfold rangecode_decompress
    rw [getByte_dropLast_append]
  refine ⟨out, c', h1, h2, h3, fun hlast => ?_⟩
  rw [h3, List.dropLast_append_getLast? 0 (by rw [hlast]; rfl)]
  exact h2

/-- C5, witness: `bits = 1` and the symbols `0, 1, 1`, whose stream `7E 1E 1E 00`
ends with a zero byte. -/
theorem truncated_stream_undetected_witness :
    ∃ c, rangecoder_create 0 1 = some c ∧
      (rangecode_compress c [0, 1, 1]).map (fun r => (r.1, r.2.1)) = some (1, [126, 30, 30, 0]) ∧
      (rangecode_decompress c ([126, 30, 30, 0] : List Nat).dropLast 3).map (fun r => (r.1, r.2.1)) =
        some (1, [0, 1, 1]) ∧
      ∃ out c', rangecode_compress c [0, 1, 1] = some (1, out, c') ∧
        rangecode_decompress c out ([0, 1, 1] : List Nat).length = some (1, [0, 1, 1], c') ∧
        rangecode_decompress c out.dropLast ([0, 1, 1] : List Nat).length =
          rangecode_decompress c (out.dropLast ++ [0]) ([0, 1, 1] : List Nat).length ∧
        (out.getLast? = some 0 →
          rangecode_decompress c out.dropLast ([0, 1, 1] : List Nat).length = some (1, [0, 1, 1], c')) :=
  ⟨_, rfl, by decide, by decide, truncated_stream_undetected 1 [0, 1, 1] _ (by decide) rfl (by decide)⟩

/-- C6, at the failing input. With `order = 1` and `bits = 1`, on the input bytes
`80 00 00 00` the first round finds the symbol `1` without running past the end
of the table (`length = 1` returns 1 with output `1`); with `length = 2` the second
round reads `totals[idx<<bits] = totals[4]` outside `totals`, and the run has
no defined result: it returns neither 0 nor 1. -/
theorem decompress_order1_leaves_totals :
    ∃ c, rangecoder_create 1 1 = some c ∧
      (rangecode_decompress c [128, 0, 0, 0] 1).map (fun r => (r.1, r.2.1)) = some (1, [1]) ∧
      tableGet c.totals c.tsize ((2 <<< c.bits : Nat) : Int) = none ∧
      (rangecode_decompress c [128, 0, 0, 0] 2).isNone = true := by
  refine ⟨_, rfl, ?_, ?_, ?_⟩ <;> decide

/-- C7, counterexample. `rangecoder_create( 0, 2 )` returns a coder although
`bits = 2` is neither 1 nor 8. -/
theorem create_accepts_two_bits : (rangecoder_create 0 2).isSome = true := rfl

/-- C7, as amended. `rangecoder_create` checks `order` only. On `int` parameters
for which its arithmetic is defined (`order < 0`, where nothing is computed, or
`0 <= bits` with `order+1` an `int` and `bits*(order+1) <= 30`), the call returns
`NULL` exactly when `order < 0` or the allocation of the struct or of `freqs`
fails; and with `order >= 0` and its three allocations succeeding it returns a
coder of this `order` and these `bits` with `2^bits` symbols, whatever the value
of `bits`: `bits` is not validated. -/
theorem create_fails_iff (alloc : Nat → Bool) (order bits : Int)
    (hdef : order < 0 ∨ (0 ≤ bits ∧ order < 2147483647 ∧ bits * (order + 1) ≤ 30)) :
    (rangecoder_create_with alloc order bits = some none ↔
      (order < 0 ∨ alloc 0 = false ∨ alloc 1 = false)) ∧
    (0 ≤ order → alloc 0 = true → alloc 1 = true → alloc 2 = true →
      ∃ c, rangecoder_create_with alloc order bits = some (some c) ∧
        c.order = order.toNat ∧ c.bits = bits.toNat ∧ c.symbols = 2 ^ bits.toNat) := by
  constructor
  · unfold rangecoder_create_with
    by_cases h1 : order < 0
    · rw [if_pos h1]
      exact ⟨fun _ => Or.inl h1, fun _ => rfl⟩
    · have hr : 0 ≤ bits ∧ order < 2147483647 ∧ bits * (order + 1) ≤ 30 := by
        rcases hdef with h | h
        · exact absurd h h1
        · exact h
      rw [if_neg h1]
      by_cases a0 : alloc 0 = false
      · rw [if_pos a0]
        exact ⟨fun _ => Or.inr (Or.inl a0), fun _ => rfl⟩
      · rw [if_neg a0, if_neg (by omega)]
        by_cases a1 : alloc 1 = false
        · rw [if_pos a1]
          exact ⟨fun _ => Or.inr (Or.inr a1), fun _ => rfl⟩
        · rw [if_neg a1]
          constructor
          · intro h
            split at h <;> exact absurd h (by simp)
          · intro h
            rcases h with h | h | h
            · exact absurd h h1
            · exact absurd h a0
            · exact absurd h a1
  · intro ho a0 a1 a2
    have hr : 0 ≤ bits ∧ order < 2147483647 ∧ bits * (order + 1) ≤ 30 := by
      rcases hdef with h | h
      · omega
      · exact h
    refine ⟨_, create_with_some alloc order bits ho hr.1 hr.2.1 hr.2.2 a0 a1 a2, rfl, rfl, ?_⟩
    show 1 <<< bits.toNat = 2 ^ bits.toNat
    rw [Nat.shiftLeft_eq, Nat.one_mul]

/-- C7, witness: `order = 0`, `bits = 2`, every allocation succeeding. -/
theorem create_fails_iff_witness :
    ((0 : Int) < 0 ∨ (0 ≤ (2 : Int) ∧ (0 : Int) < 2147483647 ∧ (2 : Int) * (0 + 1) ≤ 30)) ∧
    (rangecoder_create_with mallocOK 0 2 = some none ↔
      ((0 : Int) < 0 ∨ mallocOK 0 = false ∨ mallocOK 1 = false)) ∧
    ((0 : Int) ≤ 0 → mallocOK 0 = true → mallocOK 1 = true → mallocOK 2 = true →
      ∃ c, rangecoder_create_with mallocOK 0 2 = some (some c) ∧
        c.order = (0 : Int).toNat ∧ c.bits = (2 : Int).toNat ∧ c.symbols = 2 ^ (2 : Int).toNat) :=
  ⟨by decide, create_fails_iff mallocOK 0 2 (by decide)⟩

/-- C8, counterexample. `order = 3` and `bits = 8` are parameters of the claim,
but `fsize = 1<<(bits*(order+1)) = 1<<32` is not defined on the 32-bit `int`:
once the struct is allocated the call of `rangecoder_create` has no defined
result, and no coder with tables that satisfy the model invariant comes back. -/
theorem model_invariant_order3 :
    (∀ alloc : Nat → Bool, alloc 0 = true → rangecoder_create_with alloc 3 8 = none) ∧
    ¬ ∃ c, rangecoder_create 3 8 = some c ∧ ModelInv c := by
  refine ⟨fun alloc h0 => create_with_wide alloc 3 8 (by decide) h0 (by decide), fun h => ?_⟩
  obtain ⟨c, hc, _⟩ := h
  have := (create_eq 3 8 c hc).2.1
  exact absurd this (by decide)

/-- C8, as amended. For `order >= 0` and `bits` in {1, 8} with
`bits*(order+1) <= 30` (the sizes fit the `int`) and every sequence of symbols
below `2^bits`: `rangecoder_create` returns a coder that satisfies the model
invariant (every `freqs[i] >= 1`, every `totals[c]` the sum of the frequencies of
context `c`), `rangecoder_reset` of any coder of such sizes establishes it, and
from either state, for every `n`, `rangecode_compress` on the first `n` symbols
returns 1 and leaves a coder that satisfies it: the invariant holds after every
symbol of the run. -/
theorem model_invariant (order : Int) (bits : Nat) (input : List Nat) (coder : rangecoder)
    (horder : 0 ≤ order) (hbits : bits = 1 ∨ bits = 8) (hfit : (bits : Int) * (order + 1) ≤ 30)
    (hin : ∀ sym ∈ input, sym < 2 ^ bits)
    (hcoder : coder.bits = bits ∧ Sized coder ∧ coder.bits * (coder.order + 1) ≤ 30) :
    (∃ c, rangecoder_create order bits = some c ∧ ModelInv c ∧
      ∀ n, ∃ out c', rangecode_compress c (input.take n) = some (1, out, c') ∧ ModelInv c') ∧
    ModelInv (rangecoder_reset coder) ∧
    ∀ n, ∃ out c', rangecode_compress (rangecoder_reset coder) (input.take n) = some (1, out, c') ∧
      ModelInv c' := by
  have hb : bits ≤ 8 := by omega
  obtain ⟨hcb, hcs, _⟩ := hcoder
  have hcreate : ∃ c, rangecoder_create order bits = some c :=
    ⟨_, create_some order bits horder (by omega) (by rcases hbits with h | h <;> subst h <;> omega) hfit⟩
  obtain ⟨c, hc⟩ := hcreate
  have htc := tablesOK_create order bits c hb hc
  have hcbits : c.symbols = 2 ^ bits := by
    rw [htc.sized.1, (create_fields order bits c hc).2]
  have htake : ∀ n, ∀ sym ∈ input.take n, sym < 2 ^ bits :=
    fun n sym hs => hin sym (List.mem_of_mem_take hs)
  have htr := tablesOK_reset coder hcs (by rw [hcb]; exact hb)
  have hrs : (rangecoder_reset coder).symbols = 2 ^ bits := by
    show coder.symbols = 2 ^ bits
    rw [hcs.1, hcb]
  refine ⟨⟨c, hc, htc.inv, fun n => ?_⟩, htr.inv, fun n => ?_⟩
  · obtain ⟨out, c', h1, h2⟩ := rangecode_compress_spec c (input.take n) htc (by rw [hcbits]; exact htake n)
    exact ⟨out, c', h1, h2.inv⟩
  · obtain ⟨out, c', h1, h2⟩ := rangecode_compress_spec _ (input.take n) htr (by rw [hrs]; exact htake n)
    exact ⟨out, c', h1, h2.inv⟩

/-- C8, witness: `order = 1`, `bits = 1`, the symbols `1, 0, 1`, and the reset of
a coder of these sizes whose tables hold arbitrary values. -/
theorem model_invariant_witness :
    (∃ c, rangecoder_create 1 1 = some c ∧ ModelInv c ∧
      ∀ n, ∃ out c', rangecode_compress c (([1, 0, 1] : List Nat).take n) = some (1, out, c') ∧ ModelInv c') ∧
    ModelInv (rangecoder_reset usedCoder) ∧
    ∀ n, ∃ out c', rangecode_compress (rangecoder_reset usedCoder) (([1, 0, 1] : List Nat).take n) =
      some (1, out, c') ∧ ModelInv c' :=
  model_invariant 1 1 [1, 0, 1] usedCoder (by decide) (by decide) (by decide) (by decide)
    ⟨rfl, by unfold Sized; decide, by decide⟩

/-- C9. `tilecache_create` and `tilecache_reset` leave every entry absent and
every bucket head at `-1`, which satisfies the bucket-chain invariant (for every
hash the chain from `tileindex[h]` is finite, ends at `-1`, repeats no entry and
consists of exactly the present entries whose stored hash is `h`); and on every
cache of at least one entry that satisfies the invariant, every call of
`tilecache_write` on a rect that fits a block returns, hit or miss, with a cache
that satisfies the invariant again. -/
theorem bucket_chains (c : tilecache) (pixels : Int → Nat) (x1 x2 y1 y2 width : Int) (mask : Nat)
    (size blocksize : Nat) (hpos : 1 ≤ c.size) (hb : BucketInv c) (hfit : FitsBlock c x1 x2 y1 y2) :
    (∀ i h, ((tilecache_create size blocksize).tiles i).present = false ∧
      (tilecache_create size blocksize).tileindex h = -1) ∧
    BucketInv (tilecache_create size blocksize) ∧
    (∀ i h, i < c.size → h < indexsize →
      ((tilecache_reset c).tiles i).present = false ∧ (tilecache_reset c).tileindex h = -1) ∧
    BucketInv (tilecache_reset c) ∧
    ∃ r c', tilecache_write c pixels x1 x2 y1 y2 width mask = some (r, c') ∧ BucketInv c' ∧
      c'.size = c.size := by
  refine ⟨fun _ _ => ⟨rfl, rfl⟩, ?_, fun i h hi hh => ?_, (cacheInv_reset c hpos).buckets, ?_⟩
  · refine ⟨fun i _ hp => absurd hp (by simp [tilecache_create]),
      fun h _ => ⟨[], rfl, List.nodup_nil, fun i => ?_⟩⟩
    simp [tilecache_create]
  · simp [tilecache_reset, hi, hh]
  · obtain ⟨r, c', hw, hc', hs, _⟩ := write_buckets c pixels x1 x2 y1 y2 width mask hb hpos hfit
    exact ⟨r, c', hw, hc', hs⟩

/-- C9, witness: the cache of two entries after three misses, the third of which
evicted, and the write of the pixel 8, a miss that evicts again. -/
theorem bucket_chains_witness :
    (∀ i h, ((tilecache_create 2 1).tiles i).present = false ∧ (tilecache_create 2 1).tileindex h = -1) ∧
    BucketInv (tilecache_create 2 1) ∧
    (∀ i h, i < threeWrites.size → h < indexsize →
      ((tilecache_reset threeWrites).tiles i).present = false ∧ (tilecache_reset threeWrites).tileindex h = -1) ∧
    BucketInv (tilecache_reset threeWrites) ∧
    ∃ r c', tilecache_write threeWrites (image [8]) 0 1 0 1 1 0xFFFFFFFF = some (r, c') ∧ BucketInv c' ∧
      c'.size = threeWrites.size :=
  bucket_chains threeWrites (image [8]) 0 1 0 1 1 0xFFFFFFFF 2 1 (by decide)
    (reachable_inv threeWrites
      (reachable_after _ _ _ _ _ _ _ _
        (reachable_after _ _ _ _ _ _ _ _
          (reachable_after _ _ _ _ _ _ _ _ (Reachable.create 2 1 (by decide)) (by decide))
          (by decide))
        (by decide))).buckets
    (by decide)

/-- C10. On every cache of at least one entry that satisfies the bucket-chain
invariant, a call of `tilecache_write` on a rect that fits a block and passes the
test of the scan for no entry returns `-1`; the cursor becomes
`(cursor + 1) mod size`; the slot at the new cursor gets `present = 1`,
`size = w*h`, `hash = fletcher16` of the `4*w*h` bytes of the masked tile, and
`next` = the head of bucket `hash` after the unlinking (the `next` of the slot's
previous occupant if that was present, had this hash and headed the bucket, the
old head otherwise); bucket `hash` then heads at the cursor, and no other entry's
`present`, `size`, `hash` or `data` changes. -/
theorem miss_installs (c : tilecache) (pixels : Int → Nat) (x1 x2 y1 y2 width : Int) (mask : Nat)
    (hpos : 1 ≤ c.size) (hb : BucketInv c) (hfit : FitsBlock c x1 x2 y1 y2)
    (hno : ∀ j, j < c.size →
      ¬ Matches (c.tiles j) (callTemp c pixels x1 x2 y1 y2 width mask) (callSize x1 x2 y1 y2)) :
    ∃ c', tilecache_write c pixels x1 x2 y1 y2 width mask = some (-1, c') ∧
      c'.size = c.size ∧ c'.index = (c.index + 1) % c.size ∧
      (c'.tiles c'.index).present = true ∧
      (c'.tiles c'.index).size = callSize x1 x2 y1 y2 ∧
      (c'.tiles c'.index).hash =
        fletcher16 (bytesOf (rectPixels pixels x1 x2 y1 y2 width mask)) ((pixelSize : Int) * callSize x1 x2 y1 y2) ∧
      (c'.tiles c'.index).next =
        (if (c.tiles ((c.index + 1) % c.size)).present = true ∧
            (c.tiles ((c.index + 1) % c.size)).hash = (c'.tiles c'.index).hash ∧
            c.tileindex (c'.tiles c'.index).hash = (((c.index + 1) % c.size : Nat) : Int)
         then (c.tiles ((c.index + 1) % c.size)).next
         else c.tileindex (c'.tiles c'.index).hash) ∧
      c'.tileindex (c'.tiles c'.index).hash = (c'.index : Int) ∧
      ∀ j, j ≠ c'.index →
        (c'.tiles j).present = (c.tiles j).present ∧ (c'.tiles j).size = (c.tiles j).size ∧
        (c'.tiles j).hash = (c.tiles j).hash ∧ (c'.tiles j).data = (c.tiles j).data :=
  miss_facts c pixels x1 x2 y1 y2 width mask hb hpos hfit hno

/-- C10, witness: the cache of one entry (blocks of one pixel) that holds the
pixel 5, and the write of the pixel 6, which evicts it. -/
theorem miss_installs_witness :
    ∃ c', tilecache_write oneWrite (image [6]) 0 1 0 1 1 0xFFFFFFFF = some (-1, c') ∧
      c'.size = oneWrite.size ∧ c'.index = (oneWrite.index + 1) % oneWrite.size ∧
      (c'.tiles c'.index).present = true ∧
      (c'.tiles c'.index).size = callSize 0 1 0 1 ∧
      (c'.tiles c'.index).hash =
        fletcher16 (bytesOf (rectPixels (image [6]) 0 1 0 1 1 0xFFFFFFFF)) ((pixelSize : Int) * callSize 0 1 0 1) ∧
      (c'.tiles c'.index).next =
        (if (oneWrite.tiles ((oneWrite.index + 1) % oneWrite.size)).present = true ∧
            (oneWrite.tiles ((oneWrite.index + 1) % oneWrite.size)).hash = (c'.tiles c'.index).hash ∧
            oneWrite.tileindex (c'.tiles c'.index).hash = (((oneWrite.index + 1) % oneWrite.size : Nat) : Int)
         then (oneWrite.tiles ((oneWrite.index + 1) % oneWrite.size)).next
         else oneWrite.tileindex (c'.tiles c'.index).hash) ∧
      c'.tileindex (c'.tiles c'.index).hash = (c'.index : Int) ∧
      ∀ j, j ≠ c'.index →
        (c'.tiles j).present = (oneWrite.tiles j).present ∧ (c'.tiles j).size = (oneWrite.tiles j).size ∧
        (c'.tiles j).hash = (oneWrite.tiles j).hash ∧ (c'.tiles j).data = (oneWrite.tiles j).data :=
  miss_installs oneWrite (image [6]) 0 1 0 1 1 0xFFFFFFFF (by decide)
    (reachable_inv oneWrite
      (reachable_after _ _ _ _ _ _ _ _ (Reachable.create 1 1 (by decide)) (by decide))).buckets
    (by decide) (by decide)


/-- C11, at the failing input. A cache of one entry with blocks of 2x2 pixels is
created and the 2x2 tile `1, 2, 3, 4` is written, a miss that installs entry 0.
The second pixel of the tile is 2, the second stored pixel of entry 0 is 0:
`memcpy` copies `blocksize*blocksize = 4` bytes, the first pixel, and leaves the
other twelve bytes of the entry's block as they were. The same holds when the
block held the bytes `0xAA` before. -/
theorem miss_stores_first_bytes :
    returned (tilecache_create 1 2) (image [1, 2, 3, 4]) 0 2 0 2 2 0xFFFFFFFF = some (-1) ∧
    (after (tilecache_create 1 2) (image [1, 2, 3, 4]) 0 2 0 2 2 0xFFFFFFFF).index = 0 ∧
    (rectPixels (image [1, 2, 3, 4]) 0 2 0 2 2 0xFFFFFFFF).getD 1 0 = 2 ∧
    pixelAt ((after (tilecache_create 1 2) (image [1, 2, 3, 4]) 0 2 0 2 2 0xFFFFFFFF).tiles 0).data 1 = 0 ∧
    ((after (tilecache_create 1 2) (image [1, 2, 3, 4]) 0 2 0 2 2 0xFFFFFFFF).tiles 0).data =
      [1, 0, 0, 0, 0, 0, 0, 0, 0, 0, 0, 0, 0, 0, 0, 0] ∧
    ((after { tilecache_create 1 2 with
          tiles := fun _ => { present := false, size := 0, hash := 0, next := -1,
                              data := List.replicate 16 0xAA } }
        (image [1, 2, 3, 4]) 0 2 0 2 2 0xFFFFFFFF).tiles 0).data =
      [1, 0, 0, 0, 0xAA, 0xAA, 0xAA, 0xAA, 0xAA, 0xAA, 0xAA, 0xAA, 0xAA, 0xAA, 0xAA, 0xAA] := by
  refine ⟨?_, ?_, ?_, ?_, ?_, ?_⟩ <;> decide

/-- C12. For every byte sequence `d` of length `n`, `fletcher16( d, n )` is
`(s2 mod 256) * 256 + (s1 mod 256)`, where `s1` is the sum of the `d[i]` and `s2`
the sum of the `(n - i) * d[i]`; the result for the empty sequence is 0, and the
result is below `2^16` for every `data` and `length`. -/
theorem fletcher16_closed_form (d : List Nat) :
    fletcher16 d (d.length : Int) = (weightedSum d d.length % 256) * 256 + byteSum d d.length % 256 ∧
    fletcher16 [] 0 = 0 ∧
    ∀ (length : Int), fletcher16 d length < 2 ^ 16 :=
  ⟨fletcher16_closed d, rfl, fun length => fletcher16_lt d length⟩

/-- C13, counterexample. For `order = 3` and `bits = 8` the claim gives
`fsize = 2^(8*(3+1)) = 2^32`, which is more than an `int` holds: the shift
`1<<32` of `rangecoder_create` is not defined, and whatever the allocations do,
the call does not return a coder with this `fsize`. -/
theorem create_sizes_exceed_int :
    (2 : Int) ^ (8 * (3 + 1)) > 2147483647 ∧
    ∀ (alloc : Nat → Bool) (c : rangecoder), rangecoder_create_with alloc 3 8 ≠ some (some c) := by
  refine ⟨by decide, fun alloc c h => ?_⟩
  have := (create_with_coder alloc 3 8 c h).2.2.2.1
  exact absurd this (by decide)

/-- C13, as amended. For every `order >= 0` and `bits >= 0` with `order+1` an
`int` and `bits*(order+1) <= 30` (the three sizes fit the `int`), a call of
`rangecoder_create( order, bits )` whose allocations succeed returns a coder
with `symbols = 2^bits`, `fsize = 2^(bits*(order+1))`, `tsize = 2^(bits*order)`,
every entry of `freqs` 1 and every entry of `totals` `symbols`.
`rangecoder_reset` on a coder in any state keeps the configuration and sets
every entry of `freqs` to 1 and every entry of `totals` to `symbols`, doing it
twice is doing it once, and on a coder of the configuration of a created one it
gives back the tables of the created one. -/
theorem create_and_reset_state (alloc : Nat → Bool) (order : Int) (bits : Nat) (coder : rangecoder)
    (freqs totals : Nat → Int) (ho : 0 ≤ order) (hint : order < 2147483647)
    (hfit : (bits : Int) * (order + 1) ≤ 30)
    (hmem : alloc 0 = true ∧ alloc 1 = true ∧ alloc 2 = true) :
    (∃ c, rangecoder_create_with alloc order bits = some (some c) ∧
      c.order = order.toNat ∧ c.bits = bits ∧
      c.symbols = 2 ^ bits ∧ c.fsize = 2 ^ (bits * (order.toNat + 1)) ∧ c.tsize = 2 ^ (bits * order.toNat) ∧
      (∀ i, i < c.fsize → tableGet c.freqs c.fsize i = some 1) ∧
      (∀ i, i < c.tsize → tableGet c.totals c.tsize i = some ((2 ^ bits : Nat) : Int)) ∧
      (∀ i, i < c.fsize →
        (rangecoder_reset { c with freqs := freqs, totals := totals }).freqs i = c.freqs i) ∧
      (∀ i, i < c.tsize →
        (rangecoder_reset { c with freqs := freqs, totals := totals }).totals i = c.totals i)) ∧
    ((rangecoder_reset coder).order = coder.order ∧ (rangecoder_reset coder).bits = coder.bits ∧
      (rangecoder_reset coder).symbols = coder.symbols ∧ (rangecoder_reset coder).fsize = coder.fsize ∧
      (rangecoder_reset coder).tsize = coder.tsize) ∧
    (∀ i, i < coder.fsize → (rangecoder_reset coder).freqs i = 1) ∧
    (∀ i, i < coder.tsize → (rangecoder_reset coder).totals i = (coder.symbols : Int)) ∧
    rangecoder_reset (rangecoder_reset coder) = rangecoder_reset coder := by
  refine ⟨?_, ⟨rfl, rfl, rfl, rfl, rfl⟩, fun i hi => ?_, fun i hi => ?_, ?_⟩
  · refine ⟨_, create_with_some alloc order bits ho (by omega) hint hfit hmem.1 hmem.2.1 hmem.2.2,
      rfl, Int.toNat_ofNat bits, ?_, ?_, ?_, fun i hi => ?_, fun i hi => ?_,
      fun i hi => ?_, fun i hi => ?_⟩
    · simp [Nat.shiftLeft_eq]
    · simp [Nat.shiftLeft_eq]
    · simp [Nat.shiftLeft_eq]
    · rw [tableGet_nat _ _ _ hi]
    · rw [tableGet_nat _ _ _ hi]; simp [Nat.shiftLeft_eq]
    · simp only [rangecoder_reset]; rw [if_pos hi]
    · simp only [rangecoder_reset]; rw [if_pos hi]
  · simp only [rangecoder_reset]; rw [if_pos hi]
  · simp only [rangecoder_reset]; rw [if_pos hi]
  · simp only [rangecoder_reset]
    congr 1
    · funext i; split <;> rfl
    · funext i; split <;> rfl

/-- C13, witness: `order = 1`, `bits = 8`, every allocation succeeding; the reset
of a coder whose tables hold arbitrary values. -/
theorem create_and_reset_state_witness :
    (∃ c, rangecoder_create_with mallocOK 1 ((8 : Nat) : Int) = some (some c) ∧
      c.order = (1 : Int).toNat ∧ c.bits = 8 ∧
      c.symbols = 2 ^ 8 ∧ c.fsize = 2 ^ (8 * ((1 : Int).toNat + 1)) ∧ c.tsize = 2 ^ (8 * (1 : Int).toNat) ∧
      (∀ i, i < c.fsize → tableGet c.freqs c.fsize i = some 1) ∧
      (∀ i, i < c.tsize → tableGet c.totals c.tsize i = some ((2 ^ 8 : Nat) : Int)) ∧
      (∀ i, i < c.fsize →
        (rangecoder_reset { c with freqs := fun _ => 7, totals := fun _ => 0 }).freqs i = c.freqs i) ∧
      (∀ i, i < c.tsize →
        (rangecoder_reset { c with freqs := fun _ => 7, totals := fun _ => 0 }).totals i = c.totals i)) ∧
    ((rangecoder_reset usedCoder).order = usedCoder.order ∧ (rangecoder_reset usedCoder).bits = usedCoder.bits ∧
      (rangecoder_reset usedCoder).symbols = usedCoder.symbols ∧
      (rangecoder_reset usedCoder).fsize = usedCoder.fsize ∧
      (rangecoder_reset usedCoder).tsize = usedCoder.tsize) ∧
    (∀ i, i < usedCoder.fsize → (rangecoder_reset usedCoder).freqs i = 1) ∧
    (∀ i, i < usedCoder.tsize → (rangecoder_reset usedCoder).totals i = (usedCoder.symbols : Int)) ∧
    rangecoder_reset (rangecoder_reset usedCoder) = rangecoder_reset usedCoder :=
  create_and_reset_state mallocOK 1 8 usedCoder (fun _ => 7) (fun _ => 0) (by decide) (by decide) (by decide)
    ⟨rfl, rfl, rfl⟩

/-- C14. In every cache that the interface produces, after a call of
`tilecache_write` on a tile that fits a block (a hit or a miss) a call on the
same tile (the same pixels in scan order and the same `size`) is a hit: it
returns the index `k` of an entry that is present, has the size of the tile and
passes the test of the scan, where `k` is the return value of the first call if
that was a hit and the cursor after the first call if that was a miss. And on a
cache as `tilecache_create` leaves it (at least one entry), a sequence of calls
on one tile returns `-1` for the first call and the index of the entry installed
by it for every later call, so that `hits` counts all calls but the first. -/
theorem same_tile_hits (c : tilecache) (a b : Call) (n bs : Nat) (calls : List Call)
    (hr : Reachable c) (ha : Fits c.blocksize a) (hb : Fits c.blocksize b) (hsame : SameTile b a)
    (hn : 1 ≤ n) (hfa : Fits bs a) (hcalls : ∀ x ∈ calls, Fits bs x ∧ SameTile x a) :
    (∃ r c1 k, writeCall c a = some (r, c1) ∧ k < c.size ∧
      (r = -1 → k = c1.index) ∧ (r ≠ -1 → (k : Int) = r) ∧
      Matches (c1.tiles k) (bytesOf (scratchTile c.blocksize (callTile a))) (callArea a) ∧
      writeCall c1 b = some ((k : Int),
        { c1 with numblocks := c1.numblocks + 1
                  tempdata := scratchTile c1.blocksize (callTile b)
                  hits := c1.hits + 1 })) ∧
    (∃ c', writeAll (tilecache_create n bs) (a :: calls) =
        some (-1 :: List.replicate calls.length (((1 % n : Nat) : Int)), c') ∧
      c'.hits = calls.length ∧ c'.numblocks = calls.length + 1) := by
  constructor
  · obtain ⟨r, c1, k, hw, _, _, _, hk, hm1, hm2, hm, hw2⟩ :=
      write_again c a b (reachable_inv c hr) ha hb hsame
    exact ⟨r, c1, k, hw, hk, fun h => (hm1 h).1, fun h => (hm2 h).1, hm, hw2⟩
  · obtain ⟨r, c1, k, c', hw, hk, hm1, hm2, hp, hall, hh, hnb⟩ :=
      writeAll_same a calls (tilecache_create n bs) a (cacheInv_create n bs hn) hfa ⟨rfl, rfl⟩ hcalls
    have hr1 : r = -1 := by
      by_contra hne
      rw [(hm2 hne).2] at hp
      exact absurd hp (by simp [tilecache_create])
    subst hr1
    obtain ⟨hk1, hix⟩ := hm1 rfl
    have hc1 : c1.hits = 0 ∧ c1.numblocks = 1 := by
      obtain ⟨c2, _, hunl, hw1⟩ := write_miss (tilecache_create n bs) a.pixels a.x1 a.x2 a.y1 a.y2 a.width a.mask
        (cacheInv_create n bs hn).buckets hn hfa (fun j _ hmj => absurd hmj.1 (by simp [tilecache_create]))
      have e : writeCall (tilecache_create n bs) a = _ := hw1
      rw [hw] at e
      have hc : c1 = _ := (Prod.mk.inj (Option.some.inj e)).2
      rw [hc]
      exact ⟨hunl.hits_eq, hunl.numblocks_eq⟩
    refine ⟨c', ?_, by omega, by omega⟩
    show (match writeCall (tilecache_create n bs) a with
        | none => none
        | some (r, c1) =>
          match writeAll c1 calls with
          | none => none
          | some (rs, c2) => some (r :: rs, c2)) = _
    rw [hw]
    simp only []
    rw [hall, hk1, hix]
    rfl

/-- C14, witness: the four 16x16 tiles of `quadImage` written to caches of four
entries with blocks of 16x16 pixels. -/
theorem same_tile_hits_witness :
    (∃ r c1 k, writeCall (tilecache_create 4 16) (quadCall 0 0) = some (r, c1) ∧ k < (tilecache_create 4 16).size ∧
      (r = -1 → k = c1.index) ∧ (r ≠ -1 → (k : Int) = r) ∧
      Matches (c1.tiles k) (bytesOf (scratchTile (tilecache_create 4 16).blocksize (callTile (quadCall 0 0))))
        (callArea (quadCall 0 0)) ∧
      writeCall c1 (quadCall 16 0) = some ((k : Int),
        { c1 with numblocks := c1.numblocks + 1
                  tempdata := scratchTile c1.blocksize (callTile (quadCall 16 0))
                  hits := c1.hits + 1 })) ∧
    (∃ c', writeAll (tilecache_create 4 16) (quadCall 0 0 :: [quadCall 16 0, quadCall 0 16, quadCall 16 16]) =
        some (-1 :: List.replicate [quadCall 16 0, quadCall 0 16, quadCall 16 16].length (((1 % 4 : Nat) : Int)), c') ∧
      c'.hits = [quadCall 16 0, quadCall 0 16, quadCall 16 16].length ∧
      c'.numblocks = [quadCall 16 0, quadCall 0 16, quadCall 16 16].length + 1) :=
  same_tile_hits (tilecache_create 4 16) (quadCall 0 0) (quadCall 16 0) 4 16
    [quadCall 16 0, quadCall 0 16, quadCall 16 16]
    (Reachable.create 4 16 (by decide)) (by decide) (by decide) ⟨by rfl, by decide⟩
    (by decide) (by decide)
    (by
      intro x hx
      simp only [List.mem_cons, List.mem_singleton, List.not_mem_nil, or_false] at hx
      rcases hx with h | h | h <;> subst h <;> exact ⟨by decide, by rfl, by decide⟩)

/-- C15. For `order = 0`, `bits` in {1, 8} and every sequence `S` of symbols below
`2^bits` (the empty one and those long enough for the halving included), on the
coder as `rangecoder_create` returns it and on the reset of any coder of these
sizes: `rangecode_compress` on `S` returns 1, and `rangecode_decompress` on its
output with `length = |S|`, started from the same model, returns 1, gives back
exactly `S`, leaves the same model as the compression, and has read every byte
that the encoder wrote and no more when its last round ends. -/
theorem roundtrip_order0 (bits : Nat) (S : List Nat) (c u : rangecoder) (hb : bits = 1 ∨ bits = 8)
    (hc : rangecoder_create 0 bits = some c) (hu : Sized u ∧ u.order = 0 ∧ u.bits = bits)
    (hS : ∀ x ∈ S, x < 2 ^ bits) :
    RoundTrips c S ∧ RoundTrips (rangecoder_reset u) S := by
  have htc := tablesOK_create 0 bits c (by omega) hc
  have hcf : c.order = 0 ∧ c.bits = bits := create_fields 0 bits c hc
  obtain ⟨hus, huo, hub⟩ := hu
  have htu := tablesOK_reset u hus (by omega)
  constructor
  · exact roundtrip_tables c S htc hcf.1 (fun x hx => by rw [htc.sized.1, hcf.2]; exact hS x hx)
  · exact roundtrip_tables _ S htu huo (fun x hx => by
      show x < u.symbols
      rw [hus.1, hub]; exact hS x hx)

/-- C15, witness: `bits = 1`, the symbols `1, 0, 1`, the coder as created and its
reset. -/
theorem roundtrip_order0_witness :
    ∃ c, rangecoder_create 0 1 = some c ∧ RoundTrips c [1, 0, 1] ∧ RoundTrips (rangecoder_reset c) [1, 0, 1] :=
  ⟨_, rfl, roundtrip_order0 1 [1, 0, 1] _ _ (by decide) rfl ⟨by unfold Sized; decide, rfl, rfl⟩ (by decide)⟩

/-- C16, at the failing input. With `order = 1` and `bits = 1`, after the symbol
`1` the table offset is `idx = 2`. For this offset `rangecode_compress` reads
`totals[idx>>bits] = totals[1]`, the total of the context, and its round has a
result; `rangecode_decompress` reads `totals[idx<<bits] = totals[4]` (line 233),
which is not the entry the encoder reads and lies outside the two entries of
`totals`, so its round has no defined result. The defect is the one behind C1
and C6. -/
theorem decoder_reads_shifted_total :
    ∃ c, rangecoder_create 1 1 = some c ∧ c.tsize = 2 ∧ next_idx c 0 1 = 2 ∧
      tableGet c.totals c.tsize ((2 >>> c.bits : Nat) : Int) = some 2 ∧
      (compress_step { coder := c, low := 0, range := maxrange, idx := 2, out := [] } 0).isSome = true ∧
      2 <<< c.bits = 4 ∧
      (decompress_step (getByte [])
        { coder := c, low := 0, range := maxrange, code := 0, idx := 2, pos := 4, out := [] }).isNone = true := by
  refine ⟨_, rfl, ?_, ?_, ?_, ?_, ?_, ?_⟩ <;> decide

/-- C17, counterexample. `order = 31` and `bits = 1` are parameters of the claim,
but `fsize = 1<<(bits*(order+1)) = 1<<32` is not defined on the 32-bit `int`:
once the struct is allocated the call of `rangecoder_create` has no defined
result, and no coder with totals below `0xFFFF` comes back from which
`rangecode_compress` could start. -/
theorem rescaling_order31 :
    (∀ alloc : Nat → Bool, alloc 0 = true → rangecoder_create_with alloc 31 1 = none) ∧
    ¬ ∃ c, rangecoder_create 31 1 = some c ∧ TotalsBounded c := by
  refine ⟨fun alloc h0 => create_with_wide alloc 31 1 (by decide) h0 (by decide), fun h => ?_⟩
  obtain ⟨c, hc, _⟩ := h
  have := (create_eq 31 1 c hc).2.1
  exact absurd this (by decide)

/-- C17, as amended. For `order >= 0` and `bits` in {1, 8} with
`bits*(order+1) <= 30` (the sizes fit the `int`) and every sequence of symbols
below `2^bits`, start `rangecode_compress` on the coder that `rangecoder_create`
returns (the reset model). After every number `n` of symbols the run has
returned 1, every `totals[c]` is below `0xFFFF` and every `freqs[i]` is between 1
and `0xFFFE`; and the model update for a next symbol `sym` has a result in which
every `totals[c]` is again below `0xFFFF` and, when the halving fires
(`totals[idx>>bits] + 32 >= 0xFFFF`), every frequency `f` of the context (after
the increment of the symbol's own) has become `max(1, floor(f / 2))` and
`totals[idx>>bits]` their sum. -/
theorem rescaling_bounds (order : Int) (bits : Nat) (input : List Nat) (sym : Nat)
    (ho : 0 ≤ order) (hb : bits = 1 ∨ bits = 8) (hfit : (bits : Int) * (order + 1) ≤ 30)
    (hin : ∀ x ∈ input, x < 2 ^ bits) (hsym : sym < 2 ^ bits) :
    ∃ c, rangecoder_create order bits = some c ∧
    ∀ n, ∃ st, compress_loop { coder := c, low := 0x00, range := maxrange, idx := 0x00, out := [] }
        (input.take n) = some st ∧
      rangecode_compress c (input.take n) = some (1, compress_flush 4 st.low st.out, st.coder) ∧
      (∀ ctx, ctx < st.coder.tsize → st.coder.totals ctx < 0xFFFF) ∧
      (∀ i, i < st.coder.fsize → 1 ≤ st.coder.freqs i ∧ st.coder.freqs i ≤ 0xFFFE) ∧
      ∃ c', update_model st.coder st.idx (sym : Int) = some c' ∧
        (∀ ctx, ctx < c'.tsize → c'.totals ctx < 0xFFFF) ∧
        (st.coder.totals (st.idx >>> st.coder.bits) + 32 ≥ 0xFFFF →
          (∀ s, s < st.coder.symbols → c'.freqs (st.idx + s) =
            max 1 ((st.coder.freqs (st.idx + s) + (if s = sym then 32 else 0)) / 2)) ∧
          c'.totals (st.idx >>> st.coder.bits) =
            ∑ s ∈ Finset.range st.coder.symbols, c'.freqs (st.idx + s)) := by
  obtain ⟨c, hc⟩ : ∃ c, rangecoder_create order bits = some c :=
    ⟨_, create_some order bits ho (by omega) (by rcases hb with h | h <;> subst h <;> omega) hfit⟩
  refine ⟨c, hc, fun n => ?_⟩
  have htc := tablesOK_create order bits c (by omega) hc
  have hcb : c.bits = bits := (create_fields order bits c hc).2
  have hsymb : c.symbols = 2 ^ bits := by rw [htc.sized.1, hcb]
  obtain ⟨st, hst, hinv, _, _, hsy, _, _⟩ := compress_loop_spec (input.take n) _ (encInv_init c htc)
    (fun x hm => by
      show x < c.symbols
      rw [hsymb]; exact hin x (List.mem_of_mem_take hm))
  dsimp only at hsy
  obtain ⟨k, hk, hidx⟩ := hinv.ctx
  have hs' : sym < st.coder.symbols := by rw [hsy, hsymb]; exact hsym
  have hsh : st.idx >>> st.coder.bits = k := by rw [hidx]; exact idx_shift hinv.tables.sized k
  obtain ⟨c', hu, _, _, _, _, _, hok'⟩ := update_model_spec st.coder k sym hinv.tables hk hs'
  refine ⟨st, hst, by simp only [rangecode_compress, hst], hinv.tables.bounded,
    fun i hi => ⟨(freqs_le_total _ hinv.tables i hi).1, (freqs_le_total _ hinv.tables i hi).2.2⟩,
    c', by rw [hidx]; exact hu, hok'.bounded, fun hbig => ?_⟩
  rw [hsh] at hbig ⊢
  obtain ⟨c2, hu2, _, hfr, htot⟩ := update_model_halves st.coder k sym hinv.tables hk hs' hbig
  rw [hu] at hu2
  have hcc : c' = c2 := Option.some.inj hu2
  subst hcc
  rw [hidx]
  exact ⟨hfr, htot⟩

/-- C17, witness: `order = 0`, `bits = 8`, 2039 symbols `0` and the next symbol
`0`. After the 2039 symbols the total is 65504, so the update for the next
symbol is one in which the halving fires. -/
theorem rescaling_bounds_witness :
    (∃ c st, rangecoder_create 0 8 = some c ∧
      compress_loop { coder := c, low := 0x00, range := maxrange, idx := 0x00, out := [] }
        (List.replicate 2039 0) = some st ∧
      st.coder.totals (st.idx >>> st.coder.bits) + 32 ≥ 0xFFFF) ∧
    ∃ c, rangecoder_create 0 ((8 : Nat) : Int) = some c ∧
    ∀ n, ∃ st, compress_loop { coder := c, low := 0x00, range := maxrange, idx := 0x00, out := [] }
        ((List.replicate 2039 0).take n) = some st ∧
      rangecode_compress c ((List.replicate 2039 0).take n) =
        some (1, compress_flush 4 st.low st.out, st.coder) ∧
      (∀ ctx, ctx < st.coder.tsize → st.coder.totals ctx < 0xFFFF) ∧
      (∀ i, i < st.coder.fsize → 1 ≤ st.coder.freqs i ∧ st.coder.freqs i ≤ 0xFFFE) ∧
      ∃ c', update_model st.coder st.idx ((0 : Nat) : Int) = some c' ∧
        (∀ ctx, ctx < c'.tsize → c'.totals ctx < 0xFFFF) ∧
        (st.coder.totals (st.idx >>> st.coder.bits) + 32 ≥ 0xFFFF →
          (∀ s, s < st.coder.symbols → c'.freqs (st.idx + s) =
            max 1 ((st.coder.freqs (st.idx + s) + (if s = 0 then 32 else 0)) / 2)) ∧
          c'.totals (st.idx >>> st.coder.bits) =
            ∑ s ∈ Finset.range st.coder.symbols, c'.freqs (st.idx + s)) :=
  ⟨zeros_reach_halving, rescaling_bounds 0 8 (List.replicate 2039 0) 0 (by decide) (by decide) (by decide)
    (fun x hx => (List.mem_replicate.mp hx).2 ▸ (by decide)) (by decide)⟩

/-- C18, counterexample. `order = 3` and `bits = 8` are parameters of the claim,
which speaks of offsets modulo `2^(bits*(order+1)) = 2^32` in a table of
`fsize = 2^32` entries. The 32-bit `int` holds neither: once the struct is
allocated the call of `rangecoder_create` has no defined result, and no coder of
this `fsize` comes back. -/
theorem context_update_order3 :
    (∀ alloc : Nat → Bool, alloc 0 = true → rangecoder_create_with alloc 3 8 = none) ∧
    ¬ ∃ c, rangecoder_create 3 8 = some c ∧ c.fsize = 2 ^ (8 * (3 + 1)) := by
  refine ⟨fun alloc h0 => create_with_wide alloc 3 8 (by decide) h0 (by decide), fun h => ?_⟩
  obtain ⟨c, hc, _⟩ := h
  have := (create_eq 3 8 c hc).2.1
  exact absurd this (by decide)

/-- C18, as amended. For `order >= 0` and `bits` in {1, 8} with
`bits*(order+1) <= 30` (the sizes fit the `int`), an offset `idx` of a context in
the table (`idx + symbols <= fsize`) and a symbol `s` below `symbols`, on the
coder that `rangecoder_create` returns the shift and mask of the code give the
next offset `((idx + s) * symbols) mod 2^(bits*(order+1))`; in order 0 it is 0, in
order 1 it is `s * symbols` when `idx` is the offset `k * symbols` of a context
`k < tsize`. And after every number of symbols of a run of `rangecode_compress`
on symbols below `symbols`, `idx` is a multiple of `symbols` with
`idx + symbols <= fsize` and `idx >> bits < tsize` (0 in order 0), so that the
reads of `freqs[idx + i]` for `i < symbols` and of `totals[idx >> bits]` are
within the tables. -/
theorem context_update (order : Int) (bits : Nat) (idx s : Nat) (input : List Nat)
    (ho : 0 ≤ order) (hb : bits = 1 ∨ bits = 8) (hfit : (bits : Int) * (order + 1) ≤ 30)
    (hidx : idx + 2 ^ bits ≤ 2 ^ (bits * (order.toNat + 1)))
    (hs : s < 2 ^ bits) (hin : ∀ sym ∈ input, sym < 2 ^ bits) :
    ∃ c, rangecoder_create order bits = some c ∧
    c.symbols = 2 ^ bits ∧
    next_idx c idx (s : Int) = ((idx + s) * c.symbols) % 2 ^ (bits * (order.toNat + 1)) ∧
    (order = 0 → next_idx c idx (s : Int) = 0) ∧
    (order = 1 → ∀ k, k < c.tsize → next_idx c (k * c.symbols) (s : Int) = s * c.symbols) ∧
    ∀ n, ∃ st, compress_loop { coder := c, low := 0x00, range := maxrange, idx := 0x00, out := [] }
        (input.take n) = some st ∧
      st.coder.symbols = c.symbols ∧ st.coder.fsize = c.fsize ∧ st.coder.tsize = c.tsize ∧
      st.coder.bits = bits ∧
      (∃ k, st.idx = k * c.symbols) ∧ st.idx + c.symbols ≤ c.fsize ∧ st.idx >>> bits < c.tsize ∧
      (order = 0 → st.idx = 0) ∧
      (∀ i, i < c.symbols →
        tableGet st.coder.freqs st.coder.fsize ((st.idx : Int) + (i : Nat)) = some (st.coder.freqs (st.idx + i))) ∧
      tableGet st.coder.totals st.coder.tsize ((st.idx >>> st.coder.bits : Nat) : Int) =
        some (st.coder.totals (st.idx >>> st.coder.bits)) := by
  obtain ⟨c, hc⟩ : ∃ c, rangecoder_create order bits = some c :=
    ⟨_, create_some order bits ho (by omega) (by rcases hb with h | h <;> subst h <;> omega) hfit⟩
  refine ⟨c, hc, ?_⟩
  have htc := tablesOK_create order bits c (by omega) hc
  have hcf : c.order = order.toNat ∧ c.bits = bits := create_fields order bits c hc
  obtain ⟨hco, hcb⟩ := hcf
  have hsym : c.symbols = 2 ^ bits := by rw [htc.sized.1, hcb]
  have hnext : ∀ j, next_idx c j (s : Int) = ((j + s) * c.symbols) % 2 ^ (bits * (order.toNat + 1)) := by
    intro j
    rw [next_idx_eq, hcb, hco, hsym]
  refine ⟨hsym, hnext idx, fun h0 => ?_, fun h1 k _ => ?_, fun n => ?_⟩
  · rw [hnext, h0, hsym]
    simp
  · rw [hnext, h1, hsym]
    have e : (2 : Nat) ^ (bits * ((1 : Int).toNat + 1)) = 2 ^ bits * 2 ^ bits := by
      rw [← pow_add]; congr 1; simp; omega
    rw [e]
    have e2 : (k * 2 ^ bits + s) * 2 ^ bits = s * 2 ^ bits + k * (2 ^ bits * 2 ^ bits) := by ring
    rw [e2, Nat.add_mul_mod_self_right]
    exact Nat.mod_eq_of_lt (Nat.mul_lt_mul_of_pos_right hs (by positivity))
  · obtain ⟨st, hst, hinv, _, hbi, hsy, hf, ht⟩ := compress_loop_spec (input.take n) _ (encInv_init c htc)
      (fun sym hm => by
        show sym < c.symbols
        rw [hsym]; exact hin sym (List.mem_of_mem_take hm))
    dsimp only at hbi hsy hf ht
    obtain ⟨⟨k, hk⟩, hle, hsh, hfr, htot⟩ := encInv_access st hinv
    rw [hsy] at hk hle hfr
    rw [hf] at hle
    rw [hbi, hcb, ht] at hsh
    refine ⟨st, hst, hsy, hf, ht, hbi.trans hcb, ⟨k, hk⟩, hle, hsh, fun h0 => ?_, hfr, htot⟩
    obtain ⟨k', hk', hidx⟩ := hinv.ctx
    rw [ht, htc.sized.2.2, hco, h0] at hk'
    simp at hk'
    rw [hidx, hk']; simp

/-- C18, witness: `order = 1`, `bits = 1`, the offset 2, the symbol 1 and a run on
the symbols `1, 0, 1`. -/
theorem context_update_witness :
    ∃ c, rangecoder_create 1 ((1 : Nat) : Int) = some c ∧
    c.symbols = 2 ^ 1 ∧
    next_idx c 2 ((1 : Nat) : Int) = ((2 + 1) * c.symbols) % 2 ^ (1 * ((1 : Int).toNat + 1)) ∧
    ((1 : Int) = 0 → next_idx c 2 ((1 : Nat) : Int) = 0) ∧
    ((1 : Int) = 1 → ∀ k, k < c.tsize → next_idx c (k * c.symbols) ((1 : Nat) : Int) = 1 * c.symbols) ∧
    ∀ n, ∃ st, compress_loop { coder := c, low := 0x00, range := maxrange, idx := 0x00, out := [] }
        (([1, 0, 1] : List Nat).take n) = some st ∧
      st.coder.symbols = c.symbols ∧ st.coder.fsize = c.fsize ∧ st.coder.tsize = c.tsize ∧
      st.coder.bits = 1 ∧
      (∃ k, st.idx = k * c.symbols) ∧ st.idx + c.symbols ≤ c.fsize ∧ st.idx >>> 1 < c.tsize ∧
      ((1 : Int) = 0 → st.idx = 0) ∧
      (∀ i, i < c.symbols →
        tableGet st.coder.freqs st.coder.fsize ((st.idx : Int) + (i : Nat)) = some (st.coder.freqs (st.idx + i))) ∧
      tableGet st.coder.totals st.coder.tsize ((st.idx >>> st.coder.bits : Nat) : Int) =
        some (st.coder.totals (st.idx >>> st.coder.bits)) :=
  context_update 1 1 2 1 [1, 0, 1] (by decide) (by decide) (by decide) (by decide) (by decide) (by decide)

/-- C19, counterexample. `rangecoder_create( 0, 16 )` returns a coder (order 0,
16-bit symbols, every total 65536). `rangecode_compress` on the symbols `256, 0`:
the round of the symbol 256 ends with `low = 0xFFFF0000` and `range = 65536` and
rebuilds the total to 65551; in the round of the symbol 0, `range /= total`
gives 0, `range *= size` leaves 0, and with `range = 0` the renormalisation loop
never ends, whatever bound on its rounds: the function does not return. -/
theorem compress_wide_never_returns :
    rangecoder_create 0 16 = some wideCoder ∧
    (∃ s1, compress_step { coder := wideCoder, low := 0x00, range := maxrange, idx := 0x00, out := [] } 256 =
        some s1 ∧
      s1.low = 4294901760 ∧ s1.range = 65536 ∧ s1.idx = 0 ∧ s1.coder.totals 0 = 65551 ∧
      coded s1 0 = some (4294901760, 0)) ∧
    (∀ fuel out, compress_renorm fuel 4294901760 0 out = none) ∧
    rangecode_compress wideCoder [256, 0] = none := by
  obtain ⟨c', hf, ht, hb, hfr, htot, hstep⟩ := wide_step1
  have h1 : sumFreqs c' 0 0 = some 0 := rfl
  have h2 : tableGet c'.freqs c'.fsize (((0 : Nat) : Int) + ((0 : Nat) : Int)) = some 1 := by
    rw [tableGet_add _ _ 0 0 (by rw [hf]; decide)]
    exact congrArg some hfr
  have h3 : tableGet c'.totals c'.tsize ((0 >>> c'.bits : Nat) : Int) = some 65551 := by
    rw [Nat.zero_shiftRight, tableGet_nat _ _ 0 (by rw [ht]; decide)]
    exact congrArg some htot
  have e1 : (4294901760 + toU32 0 * (65536 / toU32 65551)) % 4294967296 = 4294901760 := by decide
  have e2 : (65536 / toU32 65551 * toU32 1) % 4294967296 = 0 := by decide
  have hzero : ∀ fuel out, compress_renorm fuel 4294901760 0 out = none :=
    fun fuel out => compress_renorm_zero fuel 4294901760 out (by decide)
  have hstep2 : compress_step { coder := c', low := 4294901760, range := 65536, idx := 0, out := [0] } 0 = none :=
    compress_step_endless _ 0 0 1 65551 h1 h2 h3 (by
      show compress_renorm renormFuel ((4294901760 + toU32 0 * (65536 / toU32 65551)) % 4294967296)
        ((65536 / toU32 65551 * toU32 1) % 4294967296) [0] = none
      rw [e1, e2]
      exact hzero _ _)
  refine ⟨wideCoder_created, ⟨_, hstep, rfl, rfl, rfl, htot, ?_⟩, hzero, ?_⟩
  · have hc := coded_some { coder := c', low := 4294901760, range := 65536, idx := 0, out := [0] } 0 0 1 65551
      h1 h2 h3 (by decide)
    rw [hc]
    exact congrArg some (Prod.ext e1 e2)
  · exact rangecode_compress_none _ _ (compress_loop_two_none _ _ 256 0 hstep hstep2)

/-- C19, as amended. On every coder whose tables are in order (sizes as created,
`bits <= 8`, every frequency at least 1, every total the sum of its context and
below `0xFFFF`) and every input of symbols below `symbols`, `rangecode_compress`
returns 1 and its output is the bytes written by the symbol loop followed by the
four bytes of the final 32-bit `low`, most significant first; every round of the
symbol loop appends one byte per shift of its renormalisation, the top byte of
`low` at that moment, and nothing else. On an empty input every coder at all
gives return value 1, the output `00 00 00 00` and an unchanged coder. -/
theorem compress_output (c : rangecoder) (input : List Nat) (h : TablesOK c)
    (hin : ∀ sym ∈ input, sym < c.symbols) :
    (∃ st, compress_loop { coder := c, low := 0x00, range := maxrange, idx := 0x00, out := [] } input = some st ∧
      st.low < 4294967296 ∧
      rangecode_compress c input = some (1, st.out ++ bytesBE st.low, st.coder)) ∧
    (∀ n sym, input.take (n + 1) = input.take n ++ [sym] →
      ∃ st st' lr,
        compress_loop { coder := c, low := 0x00, range := maxrange, idx := 0x00, out := [] } (input.take n) = some st ∧
        compress_loop { coder := c, low := 0x00, range := maxrange, idx := 0x00, out := [] } (input.take (n + 1)) =
          some st' ∧
        coded st sym = some lr ∧ st'.out = st.out ++ renormBytes renormFuel lr.1 lr.2) ∧
    (∀ coder, rangecode_compress coder [] = some (1, [0, 0, 0, 0], coder)) := by
  refine ⟨?_, fun n sym hn => ?_, fun coder => by
    simp [rangecode_compress, compress_loop, compress_flush_eq, bytesBE]⟩
  · obtain ⟨st, hst, hinv, _⟩ := compress_loop_spec input _ (encInv_init c h) hin
    refine ⟨st, hst, hinv.low_lt, ?_⟩
    simp only [rangecode_compress, hst, compress_flush_eq]
  · obtain ⟨st, hst, _, _⟩ := compress_loop_spec (input.take n) _ (encInv_init c h)
      (fun x hx => hin x (List.mem_of_mem_take hx))
    obtain ⟨st', hst', _, _⟩ := compress_loop_spec (input.take (n + 1)) _ (encInv_init c h)
      (fun x hx => hin x (List.mem_of_mem_take hx))
    have happ := compress_loop_append (input.take n) [sym]
      { coder := c, low := 0x00, range := maxrange, idx := 0x00, out := [] }
    rw [← hn, hst', hst] at happ
    have hstep : compress_step st sym = some st' := by
      simp only [Option.some_bind, compress_loop] at happ
      cases hcs : compress_step st sym with
      | none => rw [hcs] at happ; exact absurd happ (by simp)
      | some s2 => rw [hcs] at happ; exact happ.symm
    obtain ⟨lr, hlr, hout, _⟩ := compress_step_out st sym st' hstep
    exact ⟨st, st', lr, hst, hst', hlr, hout⟩

/-- C19, witness: the coder of `order = 1`, `bits = 1` as created and the
symbols `1, 0, 1`. -/
theorem compress_output_witness :
    ∃ c, rangecoder_create 1 1 = some c ∧
    (∃ st, compress_loop { coder := c, low := 0x00, range := maxrange, idx := 0x00, out := [] } [1, 0, 1] = some st ∧
      st.low < 4294967296 ∧
      rangecode_compress c [1, 0, 1] = some (1, st.out ++ bytesBE st.low, st.coder)) ∧
    (∀ n sym, ([1, 0, 1] : List Nat).take (n + 1) = ([1, 0, 1] : List Nat).take n ++ [sym] →
      ∃ st st' lr,
        compress_loop { coder := c, low := 0x00, range := maxrange, idx := 0x00, out := [] }
          (([1, 0, 1] : List Nat).take n) = some st ∧
        compress_loop { coder := c, low := 0x00, range := maxrange, idx := 0x00, out := [] }
          (([1, 0, 1] : List Nat).take (n + 1)) = some st' ∧
        coded st sym = some lr ∧ st'.out = st.out ++ renormBytes renormFuel lr.1 lr.2) ∧
    (∀ coder, rangecode_compress coder [] = some (1, [0, 0, 0, 0], coder)) :=
  ⟨_, rfl, compress_output _ [1, 0, 1] (tablesOK_create 1 1 _ (by decide) rfl) (by decide)⟩

/-- C20. For every 32-bit `low` and every `range` with `1 <= range < 2^32` the
renormalisation loop of `rangecode_compress` ends after at most three shifts
(so every bound of at least three rounds gives its result, and at most three
bytes are written); on exit `low` and `range` are 32-bit values, `range >= 2^16`
and `(low ^ (low + range)) >= 2^24`. Whenever the clamp is applied
(`range < bottom` and `(low ^ (low + range)) >= top`) the clamped range
`(-low) & (bottom-1)` is at least 1 and at most the range before. -/
theorem renorm_terminates (low range : Nat) (out : List Nat) (k : Nat)
    (hl : low < 4294967296) (h1 : 1 ≤ range) (hr : range < 4294967296) :
    (∃ low' range' out', compress_renorm (3 + k) low range out = some (low', range', out') ∧
      out'.length ≤ out.length + 3 ∧ low' < 4294967296 ∧ range' < 4294967296 ∧
      2 ^ 16 ≤ range' ∧ 2 ^ 24 ≤ low' ^^^ ((low' + range') % 4294967296)) ∧
    (range < bottom → low ^^^ ((low + range) % 4294967296) ≥ top →
      clampRange low range = ((4294967296 - low) % 4294967296) &&& (bottom - 1) ∧
      1 ≤ clampRange low range ∧ clampRange low range ≤ range) := by
  refine ⟨?_, fun hb ht => clampRange_applied low range hl h1 hb ht⟩
  obtain ⟨low', range', out', h, hl', hge, hlt⟩ := compress_renorm_ends 0 low range out hl hr h1
  have hc := compress_renorm_cond _ _ _ _ _ h
  have hlen := compress_renorm_length _ _ _ _ _ h
  refine ⟨low', range', out', compress_renorm_fuel _ k _ _ _ _ h, hlen, hl', hlt, hge, ?_⟩
  have hx : ¬ (renormCond low' range' = true) := by rw [hc]; simp
  rw [renormCond_iff] at hx
  have := (xor_lt_top_iff low' ((low' + range') % 4294967296))
  by_contra hlt24
  exact hx (Or.inl (this.mp (by omega)))

/-- C20, witness: `low = 0xFFFF00` and `range = 0x200`, where the clamp is applied
in the first round. -/
theorem renorm_terminates_witness :
    (∃ low' range' out', compress_renorm (3 + 0) 16776960 512 [] = some (low', range', out') ∧
      out'.length ≤ ([] : List Nat).length + 3 ∧ low' < 4294967296 ∧ range' < 4294967296 ∧
      2 ^ 16 ≤ range' ∧ 2 ^ 24 ≤ low' ^^^ ((low' + range') % 4294967296)) ∧
    (512 < bottom → 16776960 ^^^ ((16776960 + 512) % 4294967296) ≥ top →
      clampRange 16776960 512 = ((4294967296 - 16776960) % 4294967296) &&& (bottom - 1) ∧
      1 ≤ clampRange 16776960 512 ∧ clampRange 16776960 512 ≤ 512) :=
  renorm_terminates 16776960 512 [] 0 (by decide) (by decide) (by decide)

/-- The symbol steps are safe for the symbols in range. For `bits` in {1, 8},
from the coder as `rangecoder_create` returns it (the reset model): at the
beginning of every symbol step of `rangecode_compress` (symbols below
`2^bits`), and at the beginning of every symbol step that
`rangecode_decompress` reaches in order 0 on any input bytes, the total read
lies in `1 .. 2^16 - 1`, `range >= 2^16`, so `range / total >= 1`; and for
every symbol in `0 .. symbols - 1` the products `start * (range / total)` and
`(range / total) * size` fit 32 bits, the new range `(range / total) * size`
being at least 1 and at most the range before the step. -/
theorem steps_are_safe (order : Int) (bits : Nat) (c c0 : rangecoder) (input : List Nat)
    (hb : bits = 1 ∨ bits = 8) (hc : rangecoder_create order bits = some c)
    (hc0 : rangecoder_create 0 bits = some c0) (hin : ∀ x ∈ input, x < 2 ^ bits) :
    (∀ n, ∃ st, compress_loop { coder := c, low := 0x00, range := maxrange, idx := 0x00, out := [] }
        (input.take n) = some st ∧
      SafeStep st.coder (st.idx >>> st.coder.bits) st.idx st.range) ∧
    (∀ (rd : Nat → Nat) (k : Nat) (d : DecState),
      decompress_rounds rd k { coder := c0, low := 0x00, range := maxrange, code := decompress_fill rd 4,
                               idx := 0x00, pos := 4, out := [] } = some d →
      SafeStep d.coder (d.idx <<< d.coder.bits) d.idx d.range) := by
  have htc := tablesOK_create order bits c (by omega) hc
  have htc0 := tablesOK_create 0 bits c0 (by omega) hc0
  have hcb : c.bits = bits := (create_fields order bits c hc).2
  have hc0o : c0.order = 0 := (create_fields 0 bits c0 hc0).1
  constructor
  · intro n
    obtain ⟨st, hst, hinv, _⟩ := compress_loop_spec (input.take n) _ (encInv_init c htc)
      (fun x hm => by
        show x < c.symbols
        rw [htc.sized.1, hcb]; exact hin x (List.mem_of_mem_take hm))
    refine ⟨st, hst, ?_⟩
    obtain ⟨k, hk, hidx⟩ := hinv.ctx
    have hsh : st.idx >>> st.coder.bits = k := by rw [hidx]; exact idx_shift hinv.tables.sized k
    rw [hsh, hidx]
    exact safeStep_of_tables st.coder k st.range hinv.tables hk hinv.range_ge hinv.range_lt
  · intro rd k d hd
    have hinv0 : DecInv { coder := c0, low := 0x00, range := maxrange, code := decompress_fill rd 4,
                          idx := 0x00, pos := 4, out := [] } :=
      ⟨htc0, hc0o, rfl, by norm_num, by simp [maxrange], by simp [maxrange]⟩
    obtain ⟨hinv, _, _⟩ := decompress_rounds_inv rd k _ d hinv0 hd
    have ht : 0 < d.coder.tsize := by rw [hinv.tables.sized.2.2]; positivity
    have := safeStep_of_tables d.coder 0 d.range hinv.tables ht hinv.range_ge hinv.range_lt
    rw [Nat.zero_mul] at this
    rw [hinv.idx0, Nat.zero_shiftLeft]
    exact this

/-- C21, at the failing input. Order 0, `bits = 8`, the model as
`rangecoder_create` returns it, and the 18 input bytes `badInput`. At the
beginning of the round `count = 1985` of `rangecode_decompress` the bounds of
the claim hold: `range = 65536 >= 2^16 > total = 63776 >= 1`, the divisor
`range / total` is 1, and for every symbol in `0 .. 255` the products fit with
a new range between 1 and `range`. But the symbol that the decoder itself finds
in this round is `-1` (the search stops at once on the negative `value`), and
`size = freqs[idx + symbol]` is read outside the table: `range *= size`
multiplies by a value that is no frequency of the model, and the round has no
defined result. The defect is the one behind C22. -/
theorem decoder_step_unsafe :
    ∃ c d, rangecoder_create 0 8 = some c ∧
      decompress_rounds (getByte badInput) 1985
        { coder := c, low := 0x00, range := maxrange, code := decompress_fill (getByte badInput) 4,
          idx := 0x00, pos := 4, out := [] } = some d ∧
      SafeStep d.coder (d.idx <<< d.coder.bits) d.idx d.range ∧
      tableGet d.coder.totals d.coder.tsize ((d.idx <<< d.coder.bits : Nat) : Int) = some 63776 ∧
      d.range = 65536 ∧ d.range / toU32 63776 = 1 ∧
      decompress_search d.coder d.idx d.coder.symbols
        (toI32 (((d.code + 4294967296 - d.low) % 4294967296) / (d.range / toU32 63776))) 0 =
          some (-2147483648, 0) ∧
      tableGet d.coder.freqs d.coder.fsize ((d.idx : Int) + (((0 : Nat) : Int) - 1)) = none ∧
      decompress_step (getByte badInput) d = none := by
  obtain ⟨c, hc⟩ : ∃ c, rangecoder_create 0 8 = some c := ⟨_, rfl⟩
  obtain ⟨d, hrounds, hout, hpos, hlow, hrange, hcode, hidx, hbits, hsym, hfs, hts, htot⟩ := badInput_run c hc
  have hsafe := (steps_are_safe 0 8 c c [] (by decide) hc hc (by simp)).2 (getByte badInput) 1985 d
    hrounds
  have htotal : tableGet d.coder.totals d.coder.tsize ((d.idx <<< d.coder.bits : Nat) : Int) = some 63776 := by
    unfold tableGet
    rw [hidx, hbits, hts, if_pos (by decide)]
    exact congrArg some htot
  have hdiv : d.range / toU32 63776 = 1 := by rw [hrange]; decide
  have hval : toI32 (((d.code + 4294967296 - d.low) % 4294967296) / (d.range / toU32 63776)) = -2147483648 := by
    rw [hdiv, hcode, hlow]; decide
  have hstep : decompress_step (getByte badInput) d = none :=
    decompress_step_negative _ d 63776 htotal (by decide) (by rw [hdiv]; decide) (by rw [hval]; decide) hidx
  refine ⟨c, d, hc, hrounds, hsafe, htotal, hrange, hdiv, ?_, ?_, hstep⟩
  · rw [hval]
    exact decompress_search_stop _ _ _ _ _ (by decide)
  · unfold tableGet
    rw [hidx, if_neg (fun h => absurd h.1 (by decide))]

/-- C22, refuted by the code. Order 0, `bits = 8`, the model as `rangecoder_create`
returns it, and the 18 input bytes `badInput`: the first 1985 rounds of the symbol
loop of `rangecode_decompress` read exactly these 18 bytes and append the symbols
`0` (1982 times), `50`, `0`, `99`; then `low = 0xFFFF0000`, `range = 65536`,
`code = 0x7FFF0000` and `total = 63776`, so `range / total = 1` and the unsigned
quotient `(code - low) / (range / total) = 2^31` is the `int` `value = -2^31`.
The search loop stops at once with `i = 0`, the check `value >= 0` does not fire,
`symbol = -1`, and `freqs[idx + symbol]` lies outside the table; with
`length = 1986` the run of `rangecode_decompress` leaves the tables. -/
theorem decoder_value_negative :
    ∃ c d, rangecoder_create 0 8 = some c ∧
      decompress_rounds (getByte badInput) 1985
        { coder := c, low := 0x00, range := maxrange, code := decompress_fill (getByte badInput) 4,
          idx := 0x00, pos := 4, out := [] } = some d ∧
      d.out = List.replicate 1982 0 ++ [50, 0, 99] ∧ d.pos = 18 ∧ badInput.length = 18 ∧
      d.low = 4294901760 ∧ d.range = 65536 ∧ d.code = 2147418112 ∧ d.idx = 0 ∧
      tableGet d.coder.totals d.coder.tsize ((d.idx <<< d.coder.bits : Nat) : Int) = some 63776 ∧
      d.range / toU32 63776 = 1 ∧
      toI32 (((d.code + 4294967296 - d.low) % 4294967296) / (d.range / toU32 63776)) = -2147483648 ∧
      decompress_search d.coder d.idx d.coder.symbols (-2147483648) 0 = some (-2147483648, 0) ∧
      tableGet d.coder.freqs d.coder.fsize ((d.idx : Int) + (((0 : Nat) : Int) - 1)) = none ∧
      decompress_step (getByte badInput) d = none ∧
      rangecode_decompress c badInput 1986 = none := by
  obtain ⟨c, hc⟩ : ∃ c, rangecoder_create 0 8 = some c := ⟨_, rfl⟩
  obtain ⟨d, hrounds, hout, hpos, hlow, hrange, hcode, hidx, hbits, hsym, hfs, hts, htot⟩ := badInput_run c hc
  have htotal : tableGet d.coder.totals d.coder.tsize ((d.idx <<< d.coder.bits : Nat) : Int) = some 63776 := by
    unfold tableGet
    rw [hidx, hbits, hts, if_pos (by decide)]
    exact congrArg some htot
  have hdiv : d.range / toU32 63776 = 1 := by rw [hrange]; decide
  have hval : toI32 (((d.code + 4294967296 - d.low) % 4294967296) / (d.range / toU32 63776)) = -2147483648 := by
    rw [hdiv, hcode, hlow]; decide
  have hstep : decompress_step (getByte badInput) d = none :=
    decompress_step_negative _ d 63776 htotal (by decide) (by rw [hdiv]; decide) (by rw [hval]; decide) hidx
  refine ⟨c, d, hc, hrounds, hout, hpos, rfl, hlow, hrange, hcode, hidx, htotal, hdiv, hval,
    decompress_search_stop _ _ _ _ _ (by decide), ?_, hstep, ?_⟩
  · unfold tableGet
    rw [hidx, if_neg (fun h => absurd h.1 (by decide))]
  · exact decompress_loop_stuck _ 1985 _ d 0 hrounds hstep

end QTC
